import Mathlib

/-!
# Matchmaking engine (`src/backend/matchmaking.c`)

A shallow embedding of the matchmaking engine and a verification of its
specification.  The C globals (`playerQueue`, `root`, `hashmap`, `match_list`,
`match_counter`, `match_count`) become the fields of one `Engine` record that
every operation receives and returns.

Conventions of the embedding

* A C `int` is an `Int`.  The rating test `abs(a - b)`, whose operands are
  caller-supplied ratings, goes through `c_sub` and `c_abs`, which wrap modulo
  `2^32`.  The counters `match_counter` and `match_count` only ever grow by one
  per match from `1` and `0`; they are plain integers.
* The singly linked queue `front -> ... -> rear` is the list of its
  `player_id` cells, front first; `rear` is the last cell of that list.
* The red-black tree is an inductive tree; the `parent` pointers that
  `insert_fixup` climbs are the list of frames left behind by the descent of
  `insert_rb` (nearest parent first).
* `hashmap` is the list of its `HASH_SIZE` entries.  A read outside the array
  and a probe loop that never ends have no result: `put` and `get` return
  `none` there, and so does everything that calls them.
* `match_list` is the list of its `MAX_MATCHES` entries.  The source stores at
  `match_list[match_count]` without a bound check.  A store outside the array
  is kept in the field `stray` of the engine, next to the return value and the
  queue of that call; it overwrites memory the record does not describe, so a
  run (`exec`, `run`) has no state after a call that made one.
-/

namespace Matchmaking

/-! ## Machine arithmetic -/

/-- The value of a 32-bit two's complement `int` holding `x` modulo `2^32`. -/
def wrap32 (x : Int) : Int := (x + 2147483648) % 4294967296 - 2147483648

/-- The C expression `a - b` on `int`. -/
def c_sub (a b : Int) : Int := wrap32 (a - b)

/-- The C library function `abs` on `int`. -/
def c_abs (x : Int) : Int := if x < 0 then wrap32 (-x) else x

/-- Smallest `int`. -/
def INT_MIN : Int := -2147483648

/-- Largest `int`. -/
def INT_MAX : Int := 2147483647

/-! ## Constants and records -/

/-- Source: `#define MAX_MATCHES 1000` -/
def MAX_MATCHES : Int := 1000

/-- Source: `#define HASH_SIZE 1024` -/
def HASH_SIZE : Int := 1024

/-- Source: `typedef struct { int player1_id; int player2_id; int match_id; } Match;` -/
structure Match where
  player1_id : Int
  player2_id : Int
  match_id : Int
  deriving DecidableEq, Repr

/-- Source: `typedef struct { int key; int value; } Entry;` -/
structure Entry where
  key : Int
  value : Int
  deriving DecidableEq, Repr

/-! ## Queue -/

/-- Function `enqueue`: link a new cell behind `rear`. -/
def enqueue (playerQueue : List Int) (player_id : Int) : List Int :=
  playerQueue ++ [player_id]

/-- Function `dequeue`: `-1` on the empty queue, otherwise unlink and return the front
cell. -/
def dequeue (playerQueue : List Int) : Int × List Int :=
  match playerQueue with
  | [] => (-1, [])
  | id :: next => (id, next)

/-! ## Hash map (rating lookup) -/

/-- Function `hash`: C `%` truncates towards zero. -/
def hash (key : Int) : Int := Int.tmod key HASH_SIZE

/-- The array access `hashmap[idx]`; `none` when `idx` is outside the array. -/
def slot (hashmap : List Entry) (idx : Int) : Option Entry :=
  if 0 ≤ idx then hashmap[idx.toNat]? else none

/-- The probe loop of `put`, returning the index it stops at.  The loop visits
`idx, idx+1, ...` modulo `HASH_SIZE` and does not change the table, so after
`HASH_SIZE` unsuccessful probes it is back where it started and never ends:
that is the `none` at fuel `0`. -/
def put_probe : Nat → List Entry → Int → Int → Option Int
  | 0, _, _, _ => none
  | fuel + 1, hashmap, key, idx =>
    match slot hashmap idx with
    | none => none
    | some e =>
      if e.key ≠ 0 ∧ e.key ≠ key then
        put_probe fuel hashmap key (Int.tmod (idx + 1) HASH_SIZE)
      else some idx

/-- Function `put`. -/
def put (hashmap : List Entry) (key value : Int) : Option (List Entry) :=
  match put_probe HASH_SIZE.toNat hashmap key (hash key) with
  | none => none
  | some idx => some (hashmap.set idx.toNat { key := key, value := value })

/-- The probe loop of `get` (fuel as in `put_probe`). -/
def get_probe : Nat → List Entry → Int → Int → Option Int
  | 0, _, _, _ => none
  | fuel + 1, hashmap, key, idx =>
    match slot hashmap idx with
    | none => none
    | some e =>
      if e.key ≠ 0 then
        if e.key = key then some e.value
        else get_probe fuel hashmap key (Int.tmod (idx + 1) HASH_SIZE)
      else some (-1)

/-- Function `get`. -/
def get (hashmap : List Entry) (key : Int) : Option Int :=
  get_probe HASH_SIZE.toNat hashmap key (hash key)

/-! ## Red-black tree -/

/-- Source: `typedef enum { RED, BLACK } Color;` -/
inductive Color where
  | RED
  | BLACK
  deriving DecidableEq, Repr

/-- The tree hanging from an `RBNode*`: the sentinel `NIL` or a node. -/
inductive RBTree where
  | NIL
  | node (player_id rating : Int) (color : Color) (left right : RBTree)
  deriving DecidableEq, Repr

/-- Which child pointer of its parent a node hangs from. -/
inductive Side where
  | left
  | right
  deriving DecidableEq, Repr

/-- One step of a `parent` chain: the parent node seen from the child that
hangs from its `side`, with the parent's other subtree. -/
structure Frame where
  side : Side
  player_id : Int
  rating : Int
  color : Color
  other : RBTree
  deriving DecidableEq, Repr

open Color RBTree

/-- Field `x->color`; the sentinel is black (`NIL->color = BLACK` in `init_engine`). -/
def RBTree.color_of : RBTree → Color
  | NIL => BLACK
  | node _ _ c _ _ => c

/-- The parent node of frame `f` with the subtree `t` hung back in place. -/
def plug (f : Frame) (t : RBTree) : RBTree :=
  match f.side with
  | Side.left => node f.player_id f.rating f.color t f.other
  | Side.right => node f.player_id f.rating f.color f.other t

/-- The tree at `root` when the subtree `t` sits below the parent chain
`path`. -/
def zip_up : List Frame → RBTree → RBTree
  | [], t => t
  | f :: path, t => zip_up path (plug f t)

/-- Function `left_rotate(x)`, as the subtree that replaces `x` under `x->parent`
(or at `root`).  The callers only rotate a node whose right child is a node. -/
def left_rotate : RBTree → Option RBTree
  | node xid xr xc xl (node yid yr yc yl yrt) =>
    some (node yid yr yc (node xid xr xc xl yl) yrt)
  | _ => none

/-- Function `right_rotate(x)`, as the subtree that replaces `x`. -/
def right_rotate : RBTree → Option RBTree
  | node xid xr xc (node yid yr yc yl yrt) xrt =>
    some (node yid yr yc yl (node xid xr xc yrt xrt))
  | _ => none

/-- Statement `root->color = BLACK`. -/
def set_black : RBTree → RBTree
  | NIL => NIL
  | node id r _ l rt => node id r BLACK l rt

/-- Function `insert_fixup(z)`: `z` is the node `(zid, zr, zc, zl, zrt)` and `path` its
parent chain.  Each loop iteration is one equation below.

* `z->parent` is `NIL` or black: the loop ends and the root is blackened.
* `z->parent` is red and is the root: `z->parent->parent` is the sentinel, the
  source goes on to recolour and rotate `NIL` and reads the `parent` field of
  `NIL`, which was never written; no result.
* uncle red: recolour and continue from the grandparent.
* uncle black: one or two rotations below the grandparent; `z->parent` is black
  afterwards, so the loop ends. -/
def insert_fixup : List Frame → Int → Int → Color → RBTree → RBTree → Option RBTree
  | [], zid, zr, _, zl, zrt => some (node zid zr BLACK zl zrt)
  | [p], zid, zr, zc, zl, zrt =>
    if p.color = RED then none
    else some (set_black (plug p (node zid zr zc zl zrt)))
  | p :: g :: rest, zid, zr, zc, zl, zrt =>
    if p.color = RED then
      match g.side with
      | Side.left =>
        -- z->parent == z->parent->parent->left; y = z->parent->parent->right
        match g.other with
        | node yid yr RED yl yrt =>
          -- z->parent->color = BLACK; y->color = BLACK;
          -- z->parent->parent->color = RED; z = z->parent->parent;
          insert_fixup rest g.player_id g.rating RED
            (set_black (plug p (node zid zr zc zl zrt)))
            (node yid yr BLACK yl yrt)
        | y =>
          match p.side with
          | Side.right =>
            -- z = z->parent; left_rotate(z);
            match left_rotate (plug p (node zid zr zc zl zrt)) with
            | some t =>
              -- z->parent->color = BLACK; z->parent->parent->color = RED;
              -- right_rotate(z->parent->parent);
              match right_rotate (node g.player_id g.rating RED (set_black t) y) with
              | some s => some (set_black (zip_up rest s))
              | none => none
            | none => none
          | Side.left =>
            match right_rotate (node g.player_id g.rating RED
                (set_black (plug p (node zid zr zc zl zrt))) y) with
            | some s => some (set_black (zip_up rest s))
            | none => none
      | Side.right =>
        -- y = z->parent->parent->left
        match g.other with
        | node yid yr RED yl yrt =>
          insert_fixup rest g.player_id g.rating RED
            (node yid yr BLACK yl yrt)
            (set_black (plug p (node zid zr zc zl zrt)))
        | y =>
          match p.side with
          | Side.left =>
            -- z = z->parent; right_rotate(z);
            match right_rotate (plug p (node zid zr zc zl zrt)) with
            | some t =>
              -- z->parent->color = BLACK; z->parent->parent->color = RED;
              -- left_rotate(z->parent->parent);
              match left_rotate (node g.player_id g.rating RED y (set_black t)) with
              | some s => some (set_black (zip_up rest s))
              | none => none
            | none => none
          | Side.right =>
            match left_rotate (node g.player_id g.rating RED y
                (set_black (plug p (node zid zr zc zl zrt)))) with
            | some s => some (set_black (zip_up rest s))
            | none => none
    else some (set_black (zip_up (p :: g :: rest) (node zid zr zc zl zrt)))

/-- The descent loop of `insert_rb`: from `x` down to `NIL`, going left when
`z->rating < x->rating`; returns the parent chain of the place reached. -/
def descend (rating : Int) : RBTree → List Frame → List Frame
  | NIL, path => path
  | node xid xr xc xl xrt, path =>
    if rating < xr then
      descend rating xl ({ side := Side.left, player_id := xid, rating := xr, color := xc, other := xrt } :: path)
    else
      descend rating xrt ({ side := Side.right, player_id := xid, rating := xr, color := xc, other := xl } :: path)

/-- Function `insert_rb`: `create_node` makes a red node with `NIL` children, the
descent finds its parent, `insert_fixup` rebalances. -/
def insert_rb (root : RBTree) (id rating : Int) : Option RBTree :=
  insert_fixup (descend rating root []) id rating RED NIL NIL

/-- Function `find_closest_match`: the node at which the descent stops, `none` for
`NULL`. -/
def find_closest_match (rating threshold : Int) : RBTree → Option (Int × Int)
  | NIL => none
  | node cid cr _ cl crt =>
    if c_abs (c_sub cr rating) ≤ threshold then some (cid, cr)
    else if rating < cr then find_closest_match rating threshold cl
    else find_closest_match rating threshold crt

/-! ## Matchmaking -/

/-- The global state of the engine: the six globals of the source, and a
record `stray` of the stores `match_list[i] = m` that the code issued with `i`
outside the array, oldest first.  Such a store lands on whatever memory
surrounds the array; once `stray` is not empty the other fields no longer
describe that memory. -/
structure Engine where
  playerQueue : List Int
  root : RBTree
  hashmap : List Entry
  match_list : List Match
  match_counter : Int
  match_count : Int
  stray : List (Int × Match)
  deriving DecidableEq, Repr

/-- The statically initialised globals at program start: `match_list` zeroed,
`match_counter = 1`, `match_count = 0`. -/
def startup : Engine :=
  { playerQueue := []
    root := NIL
    hashmap := List.replicate HASH_SIZE.toNat { key := 0, value := 0 }
    match_list := List.replicate MAX_MATCHES.toNat { player1_id := 0, player2_id := 0, match_id := 0 }
    match_counter := 1
    match_count := 0
    stray := [] }

/-- Function `init_engine`: empty tree, empty queue, zeroed table.  It does not touch
the match globals. -/
def init_engine (e : Engine) : Engine :=
  { e with
    root := NIL
    playerQueue := []
    hashmap := List.replicate HASH_SIZE.toNat { key := 0, value := 0 } }

/-- Function `add_player`: `enqueue`, then `insert_rb`, then `put`. -/
def add_player (e : Engine) (player_id rating : Int) : Option Engine :=
  let playerQueue := enqueue e.playerQueue player_id
  match insert_rb e.root player_id rating with
  | none => none
  | some root =>
    match put e.hashmap player_id rating with
    | none => none
    | some hashmap =>
      some { e with
        playerQueue := playerQueue
        root := root
        hashmap := hashmap }

/-- The array after the store `match_list[i] = m`.  With an index outside
`0 .. MAX_MATCHES - 1` the store does not land in the array: it is recorded by
`stray_store`, and a run ends there (`exec`). -/
def store_match (match_list : List Match) (i : Int) (m : Match) : List Match :=
  if 0 ≤ i ∧ i < MAX_MATCHES then match_list.set i.toNat m else match_list

/-- The record of stray stores after `match_list[i] = m`: the store is added
when `i` is outside `0 .. MAX_MATCHES - 1`. -/
def stray_store (stray : List (Int × Match)) (i : Int) (m : Match) : List (Int × Match) :=
  if 0 ≤ i ∧ i < MAX_MATCHES then stray else stray ++ [(i, m)]

/-- The scan loop of `get_match`: `prev` holds the cells already passed (the
source keeps a pointer to the last of them), `curr :: next` the cells ahead.
Result `some none`: `curr` reached `NULL`; `some (some (p2_id, queue))`: the
cell `p2_id` passed the test and was unlinked, `queue` is what remains. -/
def get_match_scan (hashmap : List Entry) (p1_rating : Int) :
    List Int → List Int → Option (Option (Int × List Int))
  | _, [] => some none
  | prev, p2 :: next =>
    match get hashmap p2 with
    | none => none
    | some p2_rating =>
      if c_abs (c_sub p1_rating p2_rating) ≤ 150 then some (some (p2, prev ++ next))
      else get_match_scan hashmap p1_rating (prev ++ [p2]) next

/-- Function `get_match`: the return value, the engine afterwards and the contents of
`*match_out` afterwards.  The store `match_list[match_count++] = *match_out`
has no bound check in the source: `store_match` and `stray_store` tell where
it goes. -/
def get_match (e : Engine) (match_out : Match) : Option (Int × Engine × Match) :=
  match e.playerQueue with
  | [] => some (0, e, match_out)
  | [_] => some (0, e, match_out)
  | front :: second :: others =>
    let (p1, queue) := dequeue (front :: second :: others)
    match get e.hashmap p1 with
    | none => none
    | some p1_rating =>
      match get_match_scan e.hashmap p1_rating [] queue with
      | none => none
      | some (some (p2_id, queue)) =>
        let m : Match := { player1_id := p1, player2_id := p2_id, match_id := e.match_counter }
        some (1,
          { e with
            playerQueue := queue
            match_counter := e.match_counter + 1
            match_list := store_match e.match_list e.match_count m
            match_count := e.match_count + 1
            stray := stray_store e.stray e.match_count m },
          m)
      | some none => some (0, { e with playerQueue := enqueue queue p1 }, match_out)

/-! ## Calls and runs -/

/-- One call of the exported interface after `init_engine`. -/
inductive Call where
  | add_player (player_id rating : Int)
  | get_match
  deriving DecidableEq, Repr

/-- An engine together with the history of a run: the matches written to
`*match_out` by the calls of `get_match` that returned `1`, oldest first, and
the `(player_id, rating)` pairs passed to `add_player`, oldest first. -/
structure Trace where
  engine : Engine
  produced : List Match
  registered : List (Int × Int)
  deriving DecidableEq, Repr

/-- One call; `get_match` is handed a zeroed `Match`.  A call of `get_match`
whose store went outside `match_list` has written over other memory: the
program has no defined state after it, and the run ends (`none`). -/
def exec (t : Trace) : Call → Option Trace
  | Call.add_player player_id rating =>
    match add_player t.engine player_id rating with
    | none => none
    | some e => some { t with engine := e, registered := t.registered ++ [(player_id, rating)] }
  | Call.get_match =>
    match get_match t.engine { player1_id := 0, player2_id := 0, match_id := 0 } with
    | none => none
    | some (ret, e, m) =>
      if e.stray = [] then
        some { t with engine := e, produced := if ret = 1 then t.produced ++ [m] else t.produced }
      else none

/-- A sequence of calls, each one returning before the next is made. -/
def run : Trace → List Call → Option Trace
  | t, [] => some t
  | t, c :: cs =>
    match exec t c with
    | none => none
    | some t' => run t' cs

/-- The state after program start and `init_engine`, with an empty history. -/
def boot : Trace :=
  { engine := init_engine startup, produced := [], registered := [] }

/-- The registrations requested by a sequence of calls. -/
def registrations : List Call → List (Int × Int)
  | [] => []
  | Call.add_player player_id rating :: cs => (player_id, rating) :: registrations cs
  | Call.get_match :: cs => registrations cs

/-- The player slots of a list of matches, in order. -/
def player_slots : List Match → List Int
  | [] => []
  | m :: ms => m.player1_id :: m.player2_id :: player_slots ms

/-- A sequence of `insert_rb` calls. -/
def insert_all : RBTree → List (Int × Int) → Option RBTree
  | t, [] => some t
  | t, (id, rating) :: rest =>
    match insert_rb t id rating with
    | none => none
    | some t' => insert_all t' rest

/-! ## Specification vocabulary -/

/-- Two ratings are within the skill threshold: `|a - b| <= 150` over the
integers. -/
def within_threshold (a b : Int) : Prop := |a - b| ≤ 150

/-- The difference `a - b` and its absolute value are representable in an
`int`. -/
def diff_fits (a b : Int) : Prop := INT_MIN < a - b ∧ a - b ≤ INT_MAX

/-- No red node has a red child. -/
def no_red_red : RBTree → Prop
  | NIL => True
  | node _ _ c l r =>
    (c = RED → l.color_of = BLACK ∧ r.color_of = BLACK) ∧ no_red_red l ∧ no_red_red r

/-- The number of black nodes on each path from the root to a `NIL` leaf,
leftmost path first. -/
def black_counts : RBTree → List Nat
  | NIL => [0]
  | node _ _ c l r =>
    (black_counts l ++ black_counts r).map (fun k => if c = BLACK then k + 1 else k)

/-- Red-black shape with root colour `c` and black height `n`. -/
inductive Bal : RBTree → Color → Nat → Prop where
  | nil : Bal NIL BLACK 0
  | red {id r l rt n} : Bal l BLACK n → Bal rt BLACK n → Bal (node id r RED l rt) RED n
  | black {id r l rt c1 c2 n} : Bal l c1 n → Bal rt c2 n → Bal (node id r BLACK l rt) BLACK (n + 1)

/-- A parent chain of a red-black tree of shape `(c0, n0)` from which a
subtree of shape `(c, n)` has been taken out. -/
inductive PathBal (c0 : Color) (n0 : Nat) : List Frame → Color → Nat → Prop where
  | root : PathBal c0 n0 [] c0 n0
  | red {side id r other path n} : Bal other BLACK n → PathBal c0 n0 path RED n →
      PathBal c0 n0 ({ side := side, player_id := id, rating := r, color := RED, other := other } :: path) BLACK n
  | black {side id r other path c1 c2 n} : Bal other c2 n → PathBal c0 n0 path BLACK (n + 1) →
      PathBal c0 n0 ({ side := side, player_id := id, rating := r, color := BLACK, other := other } :: path) c1 n

/-- The slot reached from `start` after `d` steps of the probe sequence. -/
def probe_index (start : Int) (d : Nat) : Int := (start + d) % HASH_SIZE

/-- Linear-probing invariant: the table has `HASH_SIZE` slots, and every
occupied slot holds a key whose hash is an index of the table and is reached
from that hash through occupied slots that hold other keys. -/
def TableInv (hashmap : List Entry) : Prop :=
  hashmap.length = HASH_SIZE.toNat ∧
  ∀ (j : Nat) (e : Entry), hashmap[j]? = some e → e.key ≠ 0 →
    0 ≤ hash e.key ∧
    ∃ d : Nat, d < HASH_SIZE.toNat ∧ (j : Int) = probe_index (hash e.key) d ∧
      ∀ d' : Nat, d' < d → ∃ e', slot hashmap (probe_index (hash e.key) d') = some e' ∧
        e'.key ≠ 0 ∧ e'.key ≠ e.key

/-- The test of `get_match`, `abs(p1_rating - p2_rating) <= 150`, as `int`
arithmetic evaluates it. -/
def compatible (p1_rating p2_rating : Int) : Prop :=
  c_abs (c_sub p1_rating p2_rating) ≤ 150

instance compatible_decidable (a b : Int) : Decidable (compatible a b) := by
  unfold compatible; infer_instance

instance within_threshold_decidable (a b : Int) : Decidable (within_threshold a b) := by
  unfold within_threshold; infer_instance

instance diff_fits_decidable (a b : Int) : Decidable (diff_fits a b) := by
  unfold diff_fits; infer_instance

/-- Registrations the data model allows and the table has room for: positive,
pairwise distinct player ids, at most `HASH_SIZE` of them. -/
def valid_registrations (regs : List (Int × Int)) : Prop :=
  (∀ p ∈ regs, 0 < p.1) ∧ (regs.map Prod.fst).Nodup ∧ regs.length ≤ HASH_SIZE.toNat

/-- Registrations the table can hold: pairwise distinct player ids, none of
them `0` (the mark of an empty slot), each with `hash id >= 0` so that its
probe sequence starts inside the table, at most `HASH_SIZE` of them.  A
negative id that is not a multiple of `HASH_SIZE` has a negative `hash`, and
`put` and `get` then index in front of the table. -/
def table_registrations (regs : List (Int × Int)) : Prop :=
  (∀ p ∈ regs, p.1 ≠ 0 ∧ 0 ≤ hash p.1) ∧ (regs.map Prod.fst).Nodup ∧
  regs.length ≤ HASH_SIZE.toNat

/-- Ratings whose pairwise differences do not overflow an `int`. -/
def ratings_fit (regs : List (Int × Int)) : Prop :=
  ∀ p ∈ regs, ∀ q ∈ regs, diff_fits p.2 q.2

/-- The number of occupied slots of the table. -/
def occupied (hashmap : List Entry) : Nat :=
  hashmap.countP (fun e => decide (e.key ≠ 0))

/-- Consistency of the engine with the history of the run: the table obeys the
probing invariant and holds every registration, the tree is red-black, and
every registered player is waiting or sits in a produced match. -/
def Consistent (t : Trace) : Prop :=
  TableInv t.engine.hashmap ∧
  (∀ id r, (id, r) ∈ t.registered →
    id ≠ 0 ∧ ∃ j : Nat, t.engine.hashmap[j]? = some { key := id, value := r }) ∧
  occupied t.engine.hashmap ≤ t.registered.length ∧
  (∃ n, Bal t.engine.root BLACK n) ∧
  List.Perm (t.engine.playerQueue ++ player_slots t.produced) (t.registered.map Prod.fst)

/-- Match ids count the produced matches from `1`. -/
def Numbered (t : Trace) : Prop :=
  t.engine.match_counter = (t.produced.length : Int) + 1 ∧
  t.engine.match_count = (t.produced.length : Int) ∧
  t.produced.map Match.match_id = (List.range t.produced.length).map (fun i => (i : Int) + 1)

/-! ## Sample inputs -/

/-- The registrations of the end-to-end scenario of the specification. -/
def scenario : List Call :=
  [Call.add_player 1 1000, Call.add_player 2 1200, Call.add_player 3 1100]

/-- The engine after the registrations of `scenario`. -/
def scenario_engine : Engine :=
  ((run boot scenario).getD boot).engine

/-- A zeroed `Match` to hand to `get_match`. -/
def zero_match : Match := { player1_id := 0, player2_id := 0, match_id := 0 }

/-- The engine after the first `get_match` of the scenario. -/
def scenario_matched : Engine :=
  { scenario_engine with
    playerQueue := [2]
    match_counter := 2
    match_list := store_match scenario_engine.match_list 0
      { player1_id := 1, player2_id := 3, match_id := 1 }
    match_count := 1 }

instance valid_registrations_decidable (regs : List (Int × Int)) :
    Decidable (valid_registrations regs) := by
  unfold valid_registrations; infer_instance

instance table_registrations_decidable (regs : List (Int × Int)) :
    Decidable (table_registrations regs) := by
  unfold table_registrations; infer_instance

instance ratings_fit_decidable (regs : List (Int × Int)) : Decidable (ratings_fit regs) := by
  unfold ratings_fit; infer_instance

/-- The end-to-end scenario: three registrations and two match requests. -/
def scenario_calls : List Call :=
  scenario ++ [Call.get_match, Call.get_match]

/-- The history after `scenario_calls`. -/
def scenario_trace : Trace :=
  { engine := scenario_matched
    produced := [{ player1_id := 1, player2_id := 3, match_id := 1 }]
    registered := [(1, 1000), (2, 1200), (3, 1100)] }

/-! ## Vocabulary for the rating index -/

/-- The nodes `(player_id, rating)` met on the descent from the root towards a
leaf, going left when `rating < node.rating` and right otherwise. -/
def search_path (rating : Int) : RBTree → List (Int × Int)
  | NIL => []
  | node cid cr _ cl crt =>
    (cid, cr) :: (if rating < cr then search_path rating cl else search_path rating crt)

/-- The in-order traversal of the tree, as `(player_id, rating)` pairs. -/
def inorder : RBTree → List (Int × Int)
  | NIL => []
  | node id r _ l rt => inorder l ++ (id, r) :: inorder rt

/-- The number of nodes on the longest path from the root to a leaf. -/
def height : RBTree → Nat
  | NIL => 0
  | node _ _ _ l rt => max (height l) (height rt) + 1

/-- The number of nodes of the tree. -/
def size : RBTree → Nat
  | NIL => 0
  | node _ _ _ l rt => size l + size rt + 1

/-- A sample tree: the index after the registrations of `scenario`. -/
def scenario_tree : RBTree :=
  node 3 1100 BLACK (node 1 1000 RED NIL NIL) (node 2 1200 RED NIL NIL)

/-- The entries that precede the hole of a parent chain in the in-order
traversal of the whole tree. -/
def path_before : List Frame → List (Int × Int)
  | [] => []
  | f :: path =>
    match f.side with
    | Side.left => path_before path
    | Side.right => path_before path ++ (inorder f.other ++ [(f.player_id, f.rating)])

/-- The entries that follow the hole of a parent chain in the in-order
traversal of the whole tree. -/
def path_after : List Frame → List (Int × Int)
  | [] => []
  | f :: path =>
    match f.side with
    | Side.left => (f.player_id, f.rating) :: inorder f.other ++ path_after path
    | Side.right => path_after path

/-- A list of `(player_id, rating)` pairs is non-decreasing in rating. -/
def rating_sorted (l : List (Int × Int)) : Prop :=
  l.Pairwise (fun a b => a.2 ≤ b.2)

instance rating_sorted_decidable (l : List (Int × Int)) : Decidable (rating_sorted l) := by
  unfold rating_sorted; infer_instance

/-- The list `l` with `x` inserted immediately after the last entry whose
rating is `<= x.rating` (in front when there is none): the trailing entries
with a larger rating stay behind `x`. -/
def insert_after_last_le (x : Int × Int) (l : List (Int × Int)) : List (Int × Int) :=
  l.rdropWhile (fun e => decide (x.2 < e.2)) ++ x :: l.rtakeWhile (fun e => decide (x.2 < e.2))

/-! ## Vocabulary for the table as a finite map -/

/-- A sequence of `put` calls, oldest first. -/
def put_all : List Entry → List (Int × Int) → Option (List Entry)
  | hashmap, [] => some hashmap
  | hashmap, (key, value) :: rest =>
    match put hashmap key value with
    | none => none
    | some hashmap' => put_all hashmap' rest

/-- The finite map a sequence of `put` calls describes: the value of the most
recent `put` for `key`, `none` when there was none. -/
def last_put : List (Int × Int) → Int → Option Int
  | [], _ => none
  | (k, v) :: rest, key =>
    match last_put rest key with
    | some v' => some v'
    | none => if k = key then some v else none

/-- The number of distinct keys in a sequence of `put` calls. -/
def distinct_keys (puts : List (Int × Int)) : Nat :=
  (puts.map Prod.fst).toFinset.card

/-- The table holds exactly the finite map described by the `put` calls made
so far, all with positive keys: it obeys the probing invariant, every occupied
slot holds the latest value of its key, every key put is stored, and there are
as many occupied slots as distinct keys. -/
def Refines (hashmap : List Entry) (puts : List (Int × Int)) : Prop :=
  TableInv hashmap ∧
  (∀ (j : Nat) (e : Entry), hashmap[j]? = some e → e.key ≠ 0 →
    last_put puts e.key = some e.value) ∧
  (∀ k v, last_put puts k = some v → ∃ j : Nat, hashmap[j]? = some { key := k, value := v }) ∧
  occupied hashmap = distinct_keys puts ∧
  ∀ p ∈ puts, 0 < p.1

/-- The calls that register a list of `(player_id, rating)` pairs in order. -/
def register_all (regs : List (Int × Int)) : List Call :=
  regs.map (fun p => Call.add_player p.1 p.2)

/-- A sample of `HASH_SIZE` registrations: players `1 .. 1024`, rating 1000. -/
def capacity_regs : List (Int × Int) :=
  (List.range 1024).map (fun (i : Nat) => ((i : Int) + 1, 1000))

/-- A sample sequence of `put` calls with a repeated key. -/
def sample_puts : List (Int × Int) :=
  [(1, 1000), (2, 1200), (1025, 900), (1, 1100)]

/-! ## Vocabulary for long runs -/

/-- Two players register and are paired: one round that leaves the queue
empty. -/
def rematch_round : List Call :=
  [Call.add_player 1 1000, Call.add_player 2 1000, Call.get_match]

/-- The calls of `n` rounds of `rematch_round`. -/
def rematch : Nat → List Call
  | 0 => []
  | n + 1 => rematch_round ++ rematch n

/-- The history after the registrations of `scenario`. -/
def scenario_start : Trace :=
  { engine := scenario_engine, produced := [], registered := [(1, 1000), (2, 1200), (3, 1100)] }

/-- An engine whose table and index allow further calls: the table refines the
registrations made so far, the index is red-black, and every waiting player is
registered. -/
def Steady (t : Trace) : Prop :=
  Refines t.engine.hashmap t.registered ∧
  (∃ n, Bal t.engine.root BLACK n) ∧
  ∀ id ∈ t.engine.playerQueue, id ∈ t.registered.map Prod.fst

/-- The engine `e` with its waiting queue rotated by `k` positions, the state
after `k` failed calls of `get_match`. -/
def rotated (e : Engine) (k : Nat) : Engine :=
  { e with playerQueue := e.playerQueue.rotate k }


/-- A sample engine on which the first `get_match` fails and the second one
pairs: three waiting players rated 1000, 1400 and 1500. -/
def retry_engine : Engine :=
  ((run boot [Call.add_player 1 1000, Call.add_player 2 1400,
    Call.add_player 3 1500]).getD boot).engine

theorem wrap32_of_fits {x : Int} (h1 : INT_MIN ≤ x) (h2 : x ≤ INT_MAX) : wrap32 x = x := by
  unfold INT_MIN at h1; unfold INT_MAX at h2; unfold wrap32; omega

theorem within_threshold_iff (a b : Int) : within_threshold a b ↔ -150 ≤ a - b ∧ a - b ≤ 150 := by
  unfold within_threshold; exact abs_le

/-- Where the difference fits an `int`, the test of `get_match` is the exact
comparison. -/
theorem compatible_iff_of_fits {a b : Int} (h : diff_fits a b) :
    compatible a b ↔ within_threshold a b := by
  rw [within_threshold_iff]
  unfold diff_fits INT_MIN INT_MAX at h
  unfold compatible c_abs c_sub wrap32
  split <;> omega

/-- Ratings within the threshold always pass the test of `get_match`. -/
theorem compatible_of_within {a b : Int} (h : within_threshold a b) : compatible a b := by
  rw [within_threshold_iff] at h
  unfold compatible c_abs c_sub wrap32
  split <;> omega

/-! ## The scan of `get_match` -/

theorem get_match_scan_none (hashmap : List Entry) (r1 : Int) (curr : List Int) :
    ∀ prev : List Int,
    (∀ q ∈ curr, ∃ r, get hashmap q = some r ∧ ¬ compatible r1 r) →
    get_match_scan hashmap r1 prev curr = some none := by
  induction curr with
  | nil => intro prev _; rfl
  | cons p2 next ih =>
    intro prev h
    obtain ⟨r, hr, hn⟩ := h p2 (List.mem_cons_self _ _)
    unfold compatible at hn
    simp only [get_match_scan, hr, hn, if_false]
    exact ih _ (fun q hq => h q (List.mem_cons_of_mem _ hq))

theorem get_match_scan_first (hashmap : List Entry) (r1 r2 p2 : Int) (pre post : List Int) :
    ∀ prev : List Int,
    (∀ q ∈ pre, ∃ r, get hashmap q = some r ∧ ¬ compatible r1 r) →
    get hashmap p2 = some r2 → compatible r1 r2 →
    get_match_scan hashmap r1 prev (pre ++ p2 :: post) = some (some (p2, prev ++ (pre ++ post))) := by
  induction pre with
  | nil =>
    intro prev _ h2 hc
    unfold compatible at hc
    simp [get_match_scan, h2, hc]
  | cons q pre ih =>
    intro prev h h2 hc
    obtain ⟨r, hr, hn⟩ := h q (List.mem_cons_self _ _)
    unfold compatible at hn
    have hi := ih (prev ++ [q]) (fun x hx => h x (List.mem_cons_of_mem _ hx)) h2 hc
    simp only [List.cons_append, get_match_scan, hr, hn, if_false]
    simpa using hi

theorem get_match_scan_some_inv (hashmap : List Entry) (r1 : Int) (curr : List Int) :
    ∀ (prev : List Int) (p2 : Int) (queue : List Int),
    get_match_scan hashmap r1 prev curr = some (some (p2, queue)) →
    ∃ pre post r2, curr = pre ++ p2 :: post ∧ queue = prev ++ (pre ++ post) ∧
      get hashmap p2 = some r2 ∧ compatible r1 r2 ∧
      ∀ q ∈ pre, ∃ r, get hashmap q = some r ∧ ¬ compatible r1 r := by
  induction curr with
  | nil => intro prev p2 queue h; simp [get_match_scan] at h
  | cons c next ih =>
    intro prev p2 queue h
    unfold get_match_scan at h
    cases hg : get hashmap c with
    | none => simp [hg] at h
    | some r =>
      simp only [hg] at h
      by_cases hc : c_abs (c_sub r1 r) ≤ 150
      · simp only [hc, if_true, Option.some.injEq, Prod.mk.injEq] at h
        obtain ⟨h1, h2⟩ := h
        subst h1
        exact ⟨[], next, r, rfl, by simp [h2], hg, hc, by simp⟩
      · simp only [hc, if_false] at h
        obtain ⟨pre, post, r2, e1, e2, e3, e4, e5⟩ := ih _ _ _ h
        refine ⟨c :: pre, post, r2, by simp [e1], by simp [e2], e3, e4, ?_⟩
        intro q hq
        rcases List.mem_cons.mp hq with rfl | hq
        · exact ⟨r, hg, hc⟩
        · exact e5 q hq

theorem get_match_scan_none_inv (hashmap : List Entry) (r1 : Int) (curr : List Int) :
    ∀ (prev : List Int), get_match_scan hashmap r1 prev curr = some none →
      ∀ q ∈ curr, ∃ r, get hashmap q = some r ∧ ¬ compatible r1 r := by
  induction curr with
  | nil => intro _ _ q hq; cases hq
  | cons c next ih =>
    intro prev h
    unfold get_match_scan at h
    cases hg : get hashmap c with
    | none => simp [hg] at h
    | some r =>
      simp only [hg] at h
      by_cases hc : c_abs (c_sub r1 r) ≤ 150
      · simp [hc] at h
      · simp only [hc, if_false] at h
        intro q hq
        rcases List.mem_cons.mp hq with rfl | hq
        · exact ⟨r, hg, hc⟩
        · exact ih _ h q hq

/-- The result of `get_match` on a queue of at least two cells, given the
rating of the front player and the result of the scan. -/
theorem get_match_eq (e : Engine) (m0 : Match) (p1 : Int) (rest : List Int) (r1 : Int)
    (hq : e.playerQueue = p1 :: rest) (hne : rest ≠ []) (h1 : get e.hashmap p1 = some r1) :
    get_match e m0 =
      match get_match_scan e.hashmap r1 [] rest with
      | none => none
      | some (some (p2_id, queue)) =>
        some (1,
          { e with
            playerQueue := queue
            match_counter := e.match_counter + 1
            match_list := store_match e.match_list e.match_count
              { player1_id := p1, player2_id := p2_id, match_id := e.match_counter }
            match_count := e.match_count + 1
            stray := stray_store e.stray e.match_count
              { player1_id := p1, player2_id := p2_id, match_id := e.match_counter } },
          { player1_id := p1, player2_id := p2_id, match_id := e.match_counter })
      | some none => some (0, { e with playerQueue := enqueue rest p1 }, m0) := by
  cases rest with
  | nil => exact absurd rfl hne
  | cons s others =>
    unfold get_match
    simp only [hq, dequeue, h1]

/-! ## `get_match` on a queue of at least two cells -/

/-- A successful call: the front player is paired with the first cell of the
rest that passes the test. -/
theorem get_match_success (e : Engine) (m0 : Match) (p1 p2 r1 r2 : Int) (pre post : List Int)
    (hq : e.playerQueue = p1 :: (pre ++ p2 :: post))
    (h1 : get e.hashmap p1 = some r1)
    (hpre : ∀ q ∈ pre, ∃ r, get e.hashmap q = some r ∧ ¬ compatible r1 r)
    (h2 : get e.hashmap p2 = some r2) (hc : compatible r1 r2) :
    get_match e m0 = some (1,
      { e with
        playerQueue := pre ++ post
        match_counter := e.match_counter + 1
        match_list := store_match e.match_list e.match_count
          { player1_id := p1, player2_id := p2, match_id := e.match_counter }
        match_count := e.match_count + 1
        stray := stray_store e.stray e.match_count
          { player1_id := p1, player2_id := p2, match_id := e.match_counter } },
      { player1_id := p1, player2_id := p2, match_id := e.match_counter }) := by
  rw [get_match_eq e m0 p1 _ r1 hq (by simp) h1,
    get_match_scan_first e.hashmap r1 r2 p2 pre post [] hpre h2 hc]
  simp

/-- A failed scan: the front player goes to the back of the queue. -/
theorem get_match_requeue (e : Engine) (m0 : Match) (p1 r1 : Int) (rest : List Int)
    (hq : e.playerQueue = p1 :: rest) (hne : rest ≠ [])
    (h1 : get e.hashmap p1 = some r1)
    (hall : ∀ q ∈ rest, ∃ r, get e.hashmap q = some r ∧ ¬ compatible r1 r) :
    get_match e m0 = some (0, { e with playerQueue := rest ++ [p1] }, m0) := by
  rw [get_match_eq e m0 p1 _ r1 hq hne h1, get_match_scan_none e.hashmap r1 rest [] hall]
  rfl

/-- Every cell of a list either passes a decidable test somewhere first, or
none does. -/
theorem first_split {α : Type} (P : α → Prop) [DecidablePred P] (l : List α) :
    (∀ q ∈ l, ¬ P q) ∨ ∃ pre x post, l = pre ++ x :: post ∧ P x ∧ ∀ q ∈ pre, ¬ P q := by
  induction l with
  | nil => left; intro q hq; cases hq
  | cons a l ih =>
    by_cases ha : P a
    · right; exact ⟨[], a, l, rfl, ha, by simp⟩
    · rcases ih with h | ⟨pre, x, post, e1, e2, e3⟩
      · left
        intro q hq
        rcases List.mem_cons.mp hq with rfl | hq
        · exact ha
        · exact h q hq
      · right
        refine ⟨a :: pre, x, post, by simp [e1], e2, ?_⟩
        intro q hq
        rcases List.mem_cons.mp hq with rfl | hq
        · exact ha
        · exact e3 q hq

/-- With every lookup of the scan defined, `get_match` returns. -/
theorem get_match_defined (e : Engine) (m0 : Match) (p1 r1 : Int) (rest : List Int)
    (hq : e.playerQueue = p1 :: rest)
    (h1 : get e.hashmap p1 = some r1)
    (hall : ∀ q ∈ rest, ∃ r, get e.hashmap q = some r) :
    (∃ pre p2 post r2, rest = pre ++ p2 :: post ∧ get e.hashmap p2 = some r2 ∧ compatible r1 r2 ∧
        (∀ q ∈ pre, ∃ r, get e.hashmap q = some r ∧ ¬ compatible r1 r) ∧
        get_match e m0 = some (1,
          { e with
            playerQueue := pre ++ post
            match_counter := e.match_counter + 1
            match_list := store_match e.match_list e.match_count
              { player1_id := p1, player2_id := p2, match_id := e.match_counter }
            match_count := e.match_count + 1
            stray := stray_store e.stray e.match_count
              { player1_id := p1, player2_id := p2, match_id := e.match_counter } },
          { player1_id := p1, player2_id := p2, match_id := e.match_counter })) ∨
    (∃ e', get_match e m0 = some (0, e', m0) ∧
      (rest = [] ∧ e' = e ∨ rest ≠ [] ∧ e' = { e with playerQueue := rest ++ [p1] })) := by
  by_cases hne : rest = []
  · right
    subst hne
    refine ⟨e, ?_, Or.inl ⟨rfl, rfl⟩⟩
    unfold get_match
    simp [hq]
  · have key := first_split (fun q => ∃ r, get e.hashmap q = some r ∧ compatible r1 r) rest
    rcases key with h | ⟨pre, p2, post, e1, ⟨r2, h2, hc⟩, e3⟩
    · right
      refine ⟨_, get_match_requeue e m0 p1 r1 rest hq hne h1 ?_, Or.inr ⟨hne, rfl⟩⟩
      intro q hq'
      obtain ⟨r, hr⟩ := hall q hq'
      exact ⟨r, hr, fun hc => h q hq' ⟨r, hr, hc⟩⟩
    · left
      have hpre : ∀ q ∈ pre, ∃ r, get e.hashmap q = some r ∧ ¬ compatible r1 r := by
        intro q hq'
        obtain ⟨r, hr⟩ := hall q (by rw [e1]; exact List.mem_append_left _ hq')
        exact ⟨r, hr, fun hc => e3 q hq' ⟨r, hr, hc⟩⟩
      exact ⟨pre, p2, post, r2, e1, h2, hc, hpre,
        get_match_success e m0 p1 p2 r1 r2 pre post (by rw [hq, e1]) h1 hpre h2 hc⟩

/-- The pairing rule over the integers: when every lookup of the scan returns
and the differences to the front rating fit an `int`, a queue with an entry
within 150 of the front player makes `get_match` return `1` with the front
player and the first such entry, numbered with `match_counter`. -/
theorem get_match_first_within (e : Engine) (m0 : Match) (p1 r1 : Int) (rest : List Int)
    (hq : e.playerQueue = p1 :: rest)
    (h1 : get e.hashmap p1 = some r1)
    (hall : ∀ q ∈ rest, ∃ r, get e.hashmap q = some r ∧ diff_fits r1 r)
    (hex : ∃ p2 ∈ rest, ∃ r2, get e.hashmap p2 = some r2 ∧ within_threshold r1 r2) :
    ∃ pre p2 post r2 e', rest = pre ++ p2 :: post ∧
      get e.hashmap p2 = some r2 ∧ within_threshold r1 r2 ∧
      (∀ q ∈ pre, ∃ r, get e.hashmap q = some r ∧ ¬ within_threshold r1 r) ∧
      get_match e m0 =
        some (1, e', { player1_id := p1, player2_id := p2, match_id := e.match_counter }) ∧
      e'.playerQueue = pre ++ post := by
  rcases get_match_defined e m0 p1 r1 rest hq h1
      (fun q hq' => (hall q hq').imp (fun _ h => h.1)) with
    ⟨pre, p2, post, r2, e1, h2, hc, hpre, hgm⟩ | ⟨e', hgm, hcase⟩
  · have hp2 : p2 ∈ rest := by rw [e1]; simp
    obtain ⟨r, hr, hfit⟩ := hall p2 hp2
    rw [h2] at hr
    cases hr
    refine ⟨pre, p2, post, r2, _, e1, h2, (compatible_iff_of_fits hfit).mp hc, ?_, hgm, rfl⟩
    intro q hq'
    obtain ⟨r, hr, hn⟩ := hpre q hq'
    obtain ⟨r', hr', hfit'⟩ := hall q (by rw [e1]; exact List.mem_append_left _ hq')
    rw [hr] at hr'
    cases hr'
    exact ⟨r, hr, fun hw => hn ((compatible_iff_of_fits hfit').mpr hw)⟩
  · exfalso
    obtain ⟨p2, hp2, r2, h2, hw⟩ := hex
    have hne : rest ≠ [] := List.ne_nil_of_mem hp2
    rcases hcase with ⟨hnil, _⟩ | ⟨_, he'⟩
    · exact hne hnil
    · -- the scan found nothing, so no entry passes the test
      rw [get_match_eq e m0 p1 rest r1 hq hne h1] at hgm
      cases hs : get_match_scan e.hashmap r1 [] rest with
      | none => simp [hs] at hgm
      | some res =>
        cases res with
        | some pq => simp [hs] at hgm
        | none =>
          obtain ⟨r, hr, hn⟩ := get_match_scan_none_inv e.hashmap r1 rest [] hs p2 hp2
          rw [h2] at hr
          cases hr
          exact hn (compatible_of_within hw)

/-- The requeue rule over the integers: when every lookup of the scan returns,
the differences to the front rating fit an `int` and no entry is within 150 of
the front player, `get_match` returns `0`, moves the front player to the back
and changes nothing else. -/
theorem get_match_requeue_within (e : Engine) (m0 : Match) (p1 r1 : Int) (rest : List Int)
    (hq : e.playerQueue = p1 :: rest) (hne : rest ≠ [])
    (h1 : get e.hashmap p1 = some r1)
    (hall : ∀ q ∈ rest, ∃ r, get e.hashmap q = some r ∧ diff_fits r1 r ∧
      ¬ within_threshold r1 r) :
    get_match e m0 = some (0, { e with playerQueue := rest ++ [p1] }, m0) := by
  apply get_match_requeue e m0 p1 r1 rest hq hne h1
  intro q hq'
  obtain ⟨r, hr, hfit, hn⟩ := hall q hq'
  exact ⟨r, hr, fun hc => hn ((compatible_iff_of_fits hfit).mp hc)⟩

/-- `add_player` appends the player behind the waiting queue. -/
theorem add_player_queue {e e' : Engine} {id rating : Int}
    (h : add_player e id rating = some e') : e'.playerQueue = e.playerQueue ++ [id] := by
  unfold add_player at h
  cases hi : insert_rb e.root id rating with
  | none => simp [hi] at h
  | some root' =>
    cases hp : put e.hashmap id rating with
    | none => simp [hi, hp] at h
    | some hm' =>
      simp only [hi, hp, Option.some.injEq] at h
      subst h
      rfl

/-! ## The probe sequence -/

theorem HASH_SIZE_toNat : HASH_SIZE.toNat = 1024 := rfl

theorem hash_range {key : Int} (h : 0 ≤ key) : 0 ≤ hash key ∧ hash key < 1024 := by
  unfold hash HASH_SIZE
  rw [Int.tmod_eq_emod h (by decide)]
  omega

theorem hash_lt (key : Int) : hash key < 1024 := by
  unfold hash HASH_SIZE
  have := Int.tmod_lt_of_pos key (show (0 : Int) < 1024 by decide)
  exact this

/-- A positive key is not the empty-slot mark and hashes into the table. -/
theorem table_key_of_pos {key : Int} (h : 0 < key) : key ≠ 0 ∧ 0 ≤ hash key :=
  ⟨ne_of_gt h, (hash_range (le_of_lt h)).1⟩

theorem probe_index_range (start : Int) (d : Nat) :
    0 ≤ probe_index start d ∧ probe_index start d < 1024 := by
  unfold probe_index HASH_SIZE; omega

theorem probe_index_zero {start : Int} (h0 : 0 ≤ start) (h1 : start < 1024) :
    probe_index start 0 = start := by
  unfold probe_index HASH_SIZE; simp; omega

theorem probe_index_succ (start : Int) (d : Nat) :
    Int.tmod (probe_index start d + 1) HASH_SIZE = probe_index start (d + 1) := by
  have h := probe_index_range start d
  rw [Int.tmod_eq_emod (by omega) (by decide)]
  unfold probe_index HASH_SIZE at *
  push_cast
  omega

theorem probe_index_inj {start : Int} {d d' : Nat} (hd : d < 1024) (hd' : d' < 1024)
    (h : probe_index start d = probe_index start d') : d = d' := by
  unfold probe_index HASH_SIZE at h
  omega

/-- Every index of the table is on the probe sequence of every start. -/
theorem probe_index_surj (start : Int) (j : Nat) (hj : j < 1024) :
    ∃ d : Nat, d < 1024 ∧ (j : Int) = probe_index start d := by
  refine ⟨(((j : Int) - start) % 1024).toNat, ?_, ?_⟩
  · omega
  · unfold probe_index HASH_SIZE
    omega

theorem slot_eq_getElem {hashmap : List Entry} {idx : Int} (h : 0 ≤ idx) :
    slot hashmap idx = hashmap[idx.toNat]? := by
  unfold slot; simp [h]

theorem slot_natCast (hashmap : List Entry) (j : Nat) : slot hashmap (j : Int) = hashmap[j]? := by
  unfold slot; simp

theorem slot_defined {hashmap : List Entry} (hlen : hashmap.length = 1024) {idx : Int}
    (h0 : 0 ≤ idx) (h1 : idx < 1024) : ∃ e, slot hashmap idx = some e := by
  rw [slot_eq_getElem h0]
  have : idx.toNat < hashmap.length := by omega
  exact ⟨hashmap[idx.toNat], List.getElem?_eq_getElem this⟩

/-- The probe loop of `get` stops at the first slot of the probe sequence that
holds the key, when the slots before it are occupied by other keys. -/
theorem get_probe_walk (hashmap : List Entry) (key value : Int) (hk : key ≠ 0) (start : Int) :
    ∀ (d fuel k : Nat), d < fuel →
      (∀ d' : Nat, d' < d → ∃ e', slot hashmap (probe_index start (k + d')) = some e' ∧
        e'.key ≠ 0 ∧ e'.key ≠ key) →
      slot hashmap (probe_index start (k + d)) = some { key := key, value := value } →
      get_probe fuel hashmap key (probe_index start k) = some value := by
  intro d
  induction d with
  | zero =>
    intro fuel k hf _ hs
    obtain ⟨f, rfl⟩ : ∃ f, fuel = f + 1 := ⟨fuel - 1, by omega⟩
    simp only [Nat.add_zero] at hs
    simp [get_probe, hs, hk]
  | succ d ih =>
    intro fuel k hf hpre hs
    obtain ⟨f, rfl⟩ : ∃ f, fuel = f + 1 := ⟨fuel - 1, by omega⟩
    obtain ⟨e', he', hne0, hnek⟩ := hpre 0 (by omega)
    simp only [Nat.add_zero] at he'
    simp only [get_probe, he', hne0, hnek, ne_eq, not_false_eq_true, if_true, if_false]
    rw [probe_index_succ]
    apply ih f (k + 1) (by omega)
    · intro d' hd'
      have := hpre (d' + 1) (by omega)
      rwa [show k + 1 + d' = k + (d' + 1) by omega]
    · rwa [show k + 1 + d = k + (d + 1) by omega]

/-- The probe loop of `get` reports `-1` at the first empty slot, when the
slots before it are occupied by other keys. -/
theorem get_probe_walk_empty (hashmap : List Entry) (key : Int) (start : Int) :
    ∀ (d fuel k : Nat), d < fuel →
      (∀ d' : Nat, d' < d → ∃ e', slot hashmap (probe_index start (k + d')) = some e' ∧
        e'.key ≠ 0 ∧ e'.key ≠ key) →
      (∃ e, slot hashmap (probe_index start (k + d)) = some e ∧ e.key = 0) →
      get_probe fuel hashmap key (probe_index start k) = some (-1) := by
  intro d
  induction d with
  | zero =>
    intro fuel k hf _ hs
    obtain ⟨f, rfl⟩ : ∃ f, fuel = f + 1 := ⟨fuel - 1, by omega⟩
    obtain ⟨e, hs, he⟩ := hs
    simp only [Nat.add_zero] at hs
    simp [get_probe, hs, he]
  | succ d ih =>
    intro fuel k hf hpre hs
    obtain ⟨f, rfl⟩ : ∃ f, fuel = f + 1 := ⟨fuel - 1, by omega⟩
    obtain ⟨e', he', hne0, hnek⟩ := hpre 0 (by omega)
    simp only [Nat.add_zero] at he'
    simp only [get_probe, he', hne0, hnek, ne_eq, not_false_eq_true, if_true, if_false]
    rw [probe_index_succ]
    apply ih f (k + 1) (by omega)
    · intro d' hd'
      have := hpre (d' + 1) (by omega)
      rwa [show k + 1 + d' = k + (d' + 1) by omega]
    · rwa [show k + 1 + d = k + (d + 1) by omega]

/-- The probe loop of `put` stops at the first slot of the probe sequence that
is empty or holds the key. -/
theorem put_probe_walk (hashmap : List Entry) (key : Int) (start : Int) :
    ∀ (d fuel k : Nat), d < fuel →
      (∀ d' : Nat, d' < d → ∃ e', slot hashmap (probe_index start (k + d')) = some e' ∧
        e'.key ≠ 0 ∧ e'.key ≠ key) →
      (∃ e, slot hashmap (probe_index start (k + d)) = some e ∧ (e.key = 0 ∨ e.key = key)) →
      put_probe fuel hashmap key (probe_index start k) = some (probe_index start (k + d)) := by
  intro d
  induction d with
  | zero =>
    intro fuel k hf _ hs
    obtain ⟨f, rfl⟩ : ∃ f, fuel = f + 1 := ⟨fuel - 1, by omega⟩
    obtain ⟨e, hs, he⟩ := hs
    simp only [Nat.add_zero] at hs ⊢
    have : ¬ (e.key ≠ 0 ∧ e.key ≠ key) := by
      rcases he with h | h <;> simp [h]
    simp only [put_probe, hs, this, if_false]
  | succ d ih =>
    intro fuel k hf hpre hs
    obtain ⟨f, rfl⟩ : ∃ f, fuel = f + 1 := ⟨fuel - 1, by omega⟩
    obtain ⟨e', he', hne0, hnek⟩ := hpre 0 (by omega)
    simp only [Nat.add_zero] at he'
    have hc : e'.key ≠ 0 ∧ e'.key ≠ key := ⟨hne0, hnek⟩
    simp only [put_probe, he']
    rw [if_pos hc, probe_index_succ, show k + (d + 1) = k + 1 + d by omega]
    apply ih f (k + 1) (by omega)
    · intro d' hd'
      have := hpre (d' + 1) (by omega)
      rwa [show k + 1 + d' = k + (d' + 1) by omega]
    · rwa [show k + 1 + d = k + (d + 1) by omega]

/-- In a table of `HASH_SIZE` slots with a slot that is empty or holds the
key, the probe sequence of every start has a first such slot. -/
theorem first_stop (hashmap : List Entry) (hlen : hashmap.length = 1024) (key start : Int)
    (hex : ∃ (j : Nat) (e : Entry), hashmap[j]? = some e ∧ (e.key = 0 ∨ e.key = key)) :
    ∃ d : Nat, d < 1024 ∧
      (∃ e, slot hashmap (probe_index start d) = some e ∧ (e.key = 0 ∨ e.key = key)) ∧
      ∀ d' : Nat, d' < d → ∃ e', slot hashmap (probe_index start d') = some e' ∧
        e'.key ≠ 0 ∧ e'.key ≠ key := by
  classical
  obtain ⟨j, e, hj, he⟩ := hex
  have hjlt : j < 1024 := by
    rw [← hlen]
    exact (List.getElem?_eq_some_iff.mp hj).1
  obtain ⟨d0, hd0, hjd⟩ := probe_index_surj start j hjlt
  have hP : ∃ d : Nat, ∃ e, slot hashmap (probe_index start d) = some e ∧
      (e.key = 0 ∨ e.key = key) := ⟨d0, e, by rw [← hjd, slot_natCast]; exact hj, he⟩
  refine ⟨Nat.find hP, ?_, Nat.find_spec hP, ?_⟩
  · exact lt_of_le_of_lt (Nat.find_min' hP ⟨e, by rw [← hjd, slot_natCast]; exact hj, he⟩) hd0
  · intro d' hd'
    have hmin := Nat.find_min hP hd'
    have hr := probe_index_range start d'
    obtain ⟨e', he'⟩ := slot_defined hlen hr.1 hr.2
    refine ⟨e', he', ?_, ?_⟩
    · intro h0; exact hmin ⟨e', he', Or.inl h0⟩
    · intro hk; exact hmin ⟨e', he', Or.inr hk⟩

/-! ## `put` and `get` under the linear-probing invariant -/

theorem slot_set {hashmap : List Entry} {idx : Int} (h0 : 0 ≤ idx) (j : Nat)
    (hj : j < hashmap.length) (x : Entry) :
    slot (hashmap.set j x) idx = if j = idx.toNat then some x else slot hashmap idx := by
  rw [slot_eq_getElem h0, slot_eq_getElem h0, List.getElem?_set]
  simp [hj]

theorem TableInv_zero : TableInv (List.replicate HASH_SIZE.toNat { key := 0, value := 0 }) := by
  refine ⟨by simp, ?_⟩
  intro j e hj hk
  have := List.getElem?_eq_some_iff.mp hj
  obtain ⟨h1, h2⟩ := this
  simp at h2
  subst h2
  exact absurd rfl hk

/-- A stored key is found again: `get` returns the value stored with it. -/
theorem get_of_TableInv {hashmap : List Entry} (hinv : TableInv hashmap) {j : Nat} {key value : Int}
    (hj : hashmap[j]? = some { key := key, value := value }) (hk : key ≠ 0) :
    get hashmap key = some value := by
  obtain ⟨hpos, d, hd, hjd, hpre⟩ := hinv.2 j _ hj hk
  have hr : 0 ≤ hash key ∧ hash key < 1024 := ⟨hpos, hash_lt key⟩
  simp only at hpos hjd hpre hd
  unfold get
  rw [← probe_index_zero hr.1 hr.2]
  rw [HASH_SIZE_toNat] at hd ⊢
  apply get_probe_walk hashmap key value hk (hash key) d 1024 0 hd
  · intro d' hd'
    simpa using hpre d' hd'
  · simp only [Nat.zero_add]
    rw [← hjd, slot_natCast]
    exact hj

/-- Function `put` returns when the table has a slot that is empty or holds the key: it
writes the entry into the first such slot of the probe sequence. -/
theorem put_spec {hashmap : List Entry} (hlen : hashmap.length = 1024) {key : Int}
    (hk : 0 ≤ hash key) (value : Int)
    (hex : ∃ (j : Nat) (e : Entry), hashmap[j]? = some e ∧ (e.key = 0 ∨ e.key = key)) :
    ∃ d : Nat, d < 1024 ∧
      put hashmap key value =
        some (hashmap.set (probe_index (hash key) d).toNat { key := key, value := value }) ∧
      (∃ e, slot hashmap (probe_index (hash key) d) = some e ∧ (e.key = 0 ∨ e.key = key)) ∧
      ∀ d' : Nat, d' < d → ∃ e', slot hashmap (probe_index (hash key) d') = some e' ∧
        e'.key ≠ 0 ∧ e'.key ≠ key := by
  obtain ⟨d, hd, hstop, hpre⟩ := first_stop hashmap hlen key (hash key) hex
  refine ⟨d, hd, ?_, hstop, hpre⟩
  have hr : 0 ≤ hash key ∧ hash key < 1024 := ⟨hk, hash_lt key⟩
  have hw := put_probe_walk hashmap key (hash key) d 1024 0 hd
    (by intro d' hd'; simpa using hpre d' hd') (by simpa using hstop)
  rw [probe_index_zero hr.1 hr.2] at hw
  unfold put
  rw [HASH_SIZE_toNat, hw]
  simp

/-- Writing a key into the slot where its probe sequence stops keeps the
linear-probing invariant. -/
theorem TableInv_set {hashmap : List Entry} (hinv : TableInv hashmap) {key : Int}
    (hk0 : key ≠ 0) (hk : 0 ≤ hash key) (value : Int) {d : Nat} (hd : d < 1024)
    (hstop : ∃ e, slot hashmap (probe_index (hash key) d) = some e ∧ (e.key = 0 ∨ e.key = key))
    (hpre : ∀ d' : Nat, d' < d → ∃ e', slot hashmap (probe_index (hash key) d') = some e' ∧
        e'.key ≠ 0 ∧ e'.key ≠ key) :
    TableInv (hashmap.set (probe_index (hash key) d).toNat { key := key, value := value }) := by
  have hlen : hashmap.length = 1024 := hinv.1
  have hrJ := probe_index_range (hash key) d
  have hJ : (probe_index (hash key) d).toNat < hashmap.length := by omega
  obtain ⟨es, hes, hes0⟩ := hstop
  rw [slot_eq_getElem hrJ.1] at hes
  refine ⟨by simp [hinv.1], ?_⟩
  intro j e hj hne
  rw [List.getElem?_set] at hj
  by_cases hjJ : (probe_index (hash key) d).toNat = j
  · -- the slot just written
    simp only [hjJ, if_true] at hj
    have hjlt : j < hashmap.length := by omega
    simp only [hjlt, if_true, Option.some.injEq] at hj
    subst hj
    refine ⟨hk, d, by rw [HASH_SIZE_toNat]; exact hd, by simp only; omega, ?_⟩
    intro d' hd'
    obtain ⟨e', he', h1, h2⟩ := hpre d' hd'
    refine ⟨e', ?_, h1, h2⟩
    have hr' := probe_index_range (hash key) d'
    rw [slot_set hr'.1 _ hJ]
    have hne' : probe_index (hash key) d ≠ probe_index (hash key) d' := by
      intro h
      have := probe_index_inj hd (by omega) h
      omega
    have : (probe_index (hash key) d).toNat ≠ (probe_index (hash key) d').toNat := by omega
    simp only [this, if_false]
    exact he'
  · -- another slot
    simp only [hjJ, if_false] at hj
    obtain ⟨hpos, de, hde, hjd, hpe⟩ := hinv.2 j e hj hne
    refine ⟨hpos, de, hde, hjd, ?_⟩
    intro d' hd'
    obtain ⟨e', he', h1, h2⟩ := hpe d' hd'
    have hr' := probe_index_range (hash e.key) d'
    rw [slot_set hr'.1 _ hJ]
    by_cases hsame : (probe_index (hash key) d).toNat = (probe_index (hash e.key) d').toNat
    · simp only [hsame, if_true]
      refine ⟨_, rfl, hk0, ?_⟩
      simp only
      rw [slot_eq_getElem hr'.1, ← hsame, hes] at he'
      have hee : es = e' := Option.some.inj he'
      subst hee
      rcases hes0 with h0 | h0
      · exact absurd h0 h1
      · rw [← h0]; exact h2
    · simp only [hsame, if_false]
      exact ⟨e', he', h1, h2⟩

/-- Entries in other slots are not touched by `List.set`. -/
theorem getElem?_set_of_key_ne {hashmap : List Entry} {J j : Nat} {x e es : Entry}
    (hj : hashmap[j]? = some e) (hJ : hashmap[J]? = some es) (hne : e.key ≠ es.key) :
    (hashmap.set J x)[j]? = some e := by
  rw [List.getElem?_set]
  have : J ≠ j := by
    intro h
    subst h
    rw [hj] at hJ
    exact hne (by rw [Option.some.inj hJ])
  simp [this, hj]

/-! ## Counting occupied slots -/

/-- The number of occupied slots. -/
theorem countP_set_le {α : Type} (p : α → Bool) (l : List α) (j : Nat) (x : α) :
    (l.set j x).countP p ≤ l.countP p + 1 := by
  induction l generalizing j with
  | nil => simp
  | cons a l ih =>
    cases j with
    | zero =>
      simp only [List.set_cons_zero, List.countP_cons]
      split <;> split <;> omega
    | succ j =>
      simp only [List.set_cons_succ, List.countP_cons]
      have := ih j
      omega

theorem exists_not_of_countP_lt {α : Type} (p : α → Bool) (l : List α)
    (h : l.countP p < l.length) : ∃ (j : Nat) (a : α), l[j]? = some a ∧ p a = false := by
  induction l with
  | nil => simp at h
  | cons a l ih =>
    by_cases ha : p a = true
    · simp only [List.countP_cons, ha, if_true, List.length_cons] at h
      obtain ⟨j, b, hj, hb⟩ := ih (by omega)
      exact ⟨j + 1, b, by simpa using hj, hb⟩
    · exact ⟨0, a, by simp, by simpa using ha⟩

/-! ## Red-black shape -/

theorem Bal.color_eq {t : RBTree} {c : Color} {n : Nat} (h : Bal t c n) : t.color_of = c := by
  cases h <;> rfl

theorem Bal.to_no_red_red {t : RBTree} {c : Color} {n : Nat} (h : Bal t c n) :
    Matchmaking.no_red_red t := by
  induction h with
  | nil => trivial
  | red hl hr ihl ihr =>
    exact ⟨fun _ => ⟨hl.color_eq, hr.color_eq⟩, ihl, ihr⟩
  | black hl hr ihl ihr =>
    exact ⟨fun h => (by cases h), ihl, ihr⟩

theorem Bal.black_counts_eq {t : RBTree} {c : Color} {n : Nat} (h : Bal t c n) :
    ∀ k ∈ Matchmaking.black_counts t, k = n := by
  induction h with
  | nil => intro k hk; simpa [Matchmaking.black_counts] using hk
  | red hl hr ihl ihr =>
    intro k hk
    simp only [Matchmaking.black_counts, List.mem_map, List.mem_append] at hk
    obtain ⟨a, ha, rfl⟩ := hk
    rcases ha with ha | ha
    · simpa using ihl a ha
    · simpa using ihr a ha
  | black hl hr ihl ihr =>
    intro k hk
    simp only [Matchmaking.black_counts, List.mem_map, List.mem_append] at hk
    obtain ⟨a, ha, rfl⟩ := hk
    rcases ha with ha | ha
    · simpa using ihl a ha
    · simpa using ihr a ha

theorem Bal.set_black_eq {t : RBTree} {n : Nat} (h : Bal t BLACK n) : set_black t = t := by
  cases h <;> rfl

/-- A tree that is not a red node and has a shape has a black shape. -/
theorem Bal.black_of_not_red {t : RBTree} {c : Color} {n : Nat} (h : Bal t c n)
    (hnr : ∀ id r l rt, t ≠ node id r RED l rt) : Bal t BLACK n := by
  cases h with
  | nil => exact Bal.nil
  | red hl hr => exact absurd rfl (hnr _ _ _ _)
  | black hl hr => exact Bal.black hl hr

/-- Hanging a subtree of the expected shape below a parent chain gives a tree
of the shape of the chain. -/
theorem PathBal.fill {c0 : Color} {n0 : Nat} {path : List Frame} {c : Color} {n : Nat}
    (hp : PathBal c0 n0 path c n) : ∀ {t : RBTree}, Bal t c n → Bal (zip_up path t) c0 n0 := by
  induction hp with
  | root => intro t ht; exact ht
  | @red side id r other path n ho _ ih =>
    intro t ht
    cases side
    · exact ih (Bal.red ht ho)
    · exact ih (Bal.red ho ht)
  | @black side id r other path c1 c2 n ho _ ih =>
    intro t ht
    cases side
    · exact ih (Bal.black ht ho)
    · exact ih (Bal.black ho ht)

/-- Below a black parent a subtree of either colour fits. -/
theorem PathBal.any_color {c0 : Color} {n0 : Nat} {f : Frame} {path : List Frame} {c : Color}
    {n : Nat} (hp : PathBal c0 n0 (f :: path) c n) (hf : f.color = BLACK) (c' : Color) :
    PathBal c0 n0 (f :: path) c' n := by
  cases hp with
  | red ho hp => cases hf
  | black ho hp => exact PathBal.black ho hp

/-- The descent of `insert_rb` ends at a `NIL` leaf of the tree. -/
theorem descend_PathBal {c0 : Color} {n0 : Nat} (rating : Int) {t : RBTree} {c : Color} {n : Nat}
    (ht : Bal t c n) : ∀ {path : List Frame}, PathBal c0 n0 path c n →
      PathBal c0 n0 (descend rating t path) BLACK 0 := by
  induction ht with
  | nil => intro path hp; exact hp
  | @red id r l rt n hl hr ihl ihr =>
    intro path hp
    unfold descend
    split
    · exact ihl (PathBal.red hr hp)
    · exact ihr (PathBal.red hl hp)
  | @black id r l rt c1 c2 n hl hr ihl ihr =>
    intro path hp
    unfold descend
    split
    · exact ihl (PathBal.black hr hp)
    · exact ihr (PathBal.black hl hp)

/-! ## `insert_fixup` restores the red-black shape -/

/-- Function `insert_fixup` started at a red node with black subtrees of the height
expected at its place returns a red-black tree with a black root. -/
theorem insert_fixup_Bal {n0 : Nat} : ∀ (path : List Frame) (zid zr : Int) (zl zrt : RBTree) (n : Nat),
    PathBal BLACK n0 path BLACK n → Bal zl BLACK n → Bal zrt BLACK n →
    ∃ t n', insert_fixup path zid zr RED zl zrt = some t ∧ Bal t BLACK n'
  | [], zid, zr, zl, zrt, n, hp, hl, hr =>
    ⟨node zid zr BLACK zl zrt, n + 1, rfl, Bal.black hl hr⟩
  | [p], zid, zr, zl, zrt, n, hp, hl, hr => by
    obtain ⟨ps, pid, pr, pc, po⟩ := p
    cases hp with
    | red ho hp' => cases hp'
    | black ho hp' =>
      cases hp'
      cases ps
      · have h : Bal (node pid pr BLACK (node zid zr RED zl zrt) po) BLACK (n + 1) :=
          Bal.black (Bal.red hl hr) ho
        refine ⟨_, _, ?_, h⟩
        simp [insert_fixup, plug, set_black]
      · have h : Bal (node pid pr BLACK po (node zid zr RED zl zrt)) BLACK (n + 1) :=
          Bal.black ho (Bal.red hl hr)
        refine ⟨_, _, ?_, h⟩
        simp [insert_fixup, plug, set_black]
  | p :: g :: rest, zid, zr, zl, zrt, n, hp, hl, hr => by
    obtain ⟨ps, pid, pr, pc, po⟩ := p
    obtain ⟨gs, gid, gr, gc, go⟩ := g
    have hz : Bal (node zid zr RED zl zrt) RED n := Bal.red hl hr
    cases hp with
    | black ho hp' =>
      -- z->parent is black: the loop ends
      have hfill : Bal (zip_up (⟨ps, pid, pr, BLACK, po⟩ :: ⟨gs, gid, gr, gc, go⟩ :: rest)
          (node zid zr RED zl zrt)) BLACK n0 := PathBal.fill (PathBal.black ho hp') hz
      refine ⟨_, _, ?_, hfill⟩
      simp only [insert_fixup]
      rw [if_neg (by simp), hfill.set_black_eq]
    | red ho hp' =>
      cases hp' with
      | @black _ _ _ _ _ _ c2 _ hgo hrest =>
        cases gs with
        | left =>
          by_cases hy : ∃ yid yr yl yrt, go = node yid yr RED yl yrt
          · -- uncle red
            obtain ⟨yid, yr, yl, yrt, rfl⟩ := hy
            cases hgo with
            | red hyl hyr =>
              have hp1 : Bal (set_black (plug ⟨ps, pid, pr, RED, po⟩ (node zid zr RED zl zrt)))
                  BLACK (n + 1) := by
                cases ps
                · exact Bal.black hz ho
                · exact Bal.black ho hz
              obtain ⟨t, n', ht, hb⟩ := insert_fixup_Bal rest gid gr _ _ (n + 1) hrest hp1
                (Bal.black hyl hyr)
              exact ⟨t, n', by simpa [insert_fixup] using ht, hb⟩
          · -- uncle black
            have hgo' : Bal go BLACK n :=
              hgo.black_of_not_red (fun id r l rt h => hy ⟨id, r, l, rt, h⟩)
            cases ps with
            | right =>
              have hs : Bal (node zid zr BLACK (node pid pr RED po zl) (node gid gr RED zrt go))
                  BLACK (n + 1) := Bal.black (Bal.red ho hl) (Bal.red hr hgo')
              have hfill := hrest.fill hs
              refine ⟨_, _, ?_, hfill⟩
              rw [← hfill.set_black_eq]
              cases go with
              | NIL => simp [insert_fixup, plug, left_rotate, right_rotate, set_black]
              | node yid yr yc yl yrt =>
                cases yc with
                | RED => exact absurd ⟨_, _, _, _, rfl⟩ hy
                | BLACK => simp [insert_fixup, plug, left_rotate, right_rotate, set_black]
            | left =>
              have hs : Bal (node pid pr BLACK (node zid zr RED zl zrt) (node gid gr RED po go))
                  BLACK (n + 1) := Bal.black hz (Bal.red ho hgo')
              have hfill := hrest.fill hs
              refine ⟨_, _, ?_, hfill⟩
              rw [← hfill.set_black_eq]
              cases go with
              | NIL => simp [insert_fixup, plug, left_rotate, right_rotate, set_black]
              | node yid yr yc yl yrt =>
                cases yc with
                | RED => exact absurd ⟨_, _, _, _, rfl⟩ hy
                | BLACK => simp [insert_fixup, plug, left_rotate, right_rotate, set_black]
        | right =>
          by_cases hy : ∃ yid yr yl yrt, go = node yid yr RED yl yrt
          · obtain ⟨yid, yr, yl, yrt, rfl⟩ := hy
            cases hgo with
            | red hyl hyr =>
              have hp1 : Bal (set_black (plug ⟨ps, pid, pr, RED, po⟩ (node zid zr RED zl zrt)))
                  BLACK (n + 1) := by
                cases ps
                · exact Bal.black hz ho
                · exact Bal.black ho hz
              obtain ⟨t, n', ht, hb⟩ := insert_fixup_Bal rest gid gr _ _ (n + 1) hrest
                (Bal.black hyl hyr) hp1
              exact ⟨t, n', by simpa [insert_fixup] using ht, hb⟩
          · have hgo' : Bal go BLACK n :=
              hgo.black_of_not_red (fun id r l rt h => hy ⟨id, r, l, rt, h⟩)
            cases ps with
            | left =>
              have hs : Bal (node zid zr BLACK (node gid gr RED go zl) (node pid pr RED zrt po))
                  BLACK (n + 1) := Bal.black (Bal.red hgo' hl) (Bal.red hr ho)
              have hfill := hrest.fill hs
              refine ⟨_, _, ?_, hfill⟩
              rw [← hfill.set_black_eq]
              cases go with
              | NIL => simp [insert_fixup, plug, left_rotate, right_rotate, set_black]
              | node yid yr yc yl yrt =>
                cases yc with
                | RED => exact absurd ⟨_, _, _, _, rfl⟩ hy
                | BLACK => simp [insert_fixup, plug, left_rotate, right_rotate, set_black]
            | right =>
              have hs : Bal (node pid pr BLACK (node gid gr RED go po) (node zid zr RED zl zrt))
                  BLACK (n + 1) := Bal.black (Bal.red hgo' ho) hz
              have hfill := hrest.fill hs
              refine ⟨_, _, ?_, hfill⟩
              rw [← hfill.set_black_eq]
              cases go with
              | NIL => simp [insert_fixup, plug, left_rotate, right_rotate, set_black]
              | node yid yr yc yl yrt =>
                cases yc with
                | RED => exact absurd ⟨_, _, _, _, rfl⟩ hy
                | BLACK => simp [insert_fixup, plug, left_rotate, right_rotate, set_black]

/-! ## `insert_rb` keeps the red-black shape -/

/-- On a red-black tree with a black root (or the empty tree) `insert_rb`
returns, and the result is again such a tree. -/
theorem insert_rb_Bal {t : RBTree} {n : Nat} (h : Bal t BLACK n) (id rating : Int) :
    ∃ t' n', insert_rb t id rating = some t' ∧ Bal t' BLACK n' := by
  have hp : PathBal BLACK n (descend rating t []) BLACK 0 :=
    descend_PathBal rating h PathBal.root
  exact insert_fixup_Bal _ id rating NIL NIL 0 hp Bal.nil Bal.nil

theorem insert_all_Bal (calls : List (Int × Int)) :
    ∀ {t : RBTree} {n : Nat}, Bal t BLACK n →
      ∃ t' n', insert_all t calls = some t' ∧ Bal t' BLACK n' := by
  induction calls with
  | nil => intro t n h; exact ⟨t, n, rfl, h⟩
  | cons c calls ih =>
    intro t n h
    obtain ⟨id, rating⟩ := c
    obtain ⟨t1, n1, e1, h1⟩ := insert_rb_Bal h id rating
    obtain ⟨t2, n2, e2, h2⟩ := ih h1
    exact ⟨t2, n2, by simp [insert_all, e1, e2], h2⟩

/-! ## Steps of the engine -/

theorem player_slots_append_lists (a b : List Match) :
    player_slots (a ++ b) = player_slots a ++ player_slots b := by
  induction a with
  | nil => rfl
  | cons m a ih => simp [player_slots, ih]

theorem player_slots_append (ms : List Match) (m : Match) :
    player_slots (ms ++ [m]) = player_slots ms ++ [m.player1_id, m.player2_id] := by
  rw [player_slots_append_lists]
  rfl

theorem Consistent_boot : Consistent boot := by
  refine ⟨TableInv_zero, ?_, ?_, ⟨0, Bal.nil⟩, ?_⟩
  · intro id r h; cases h
  · simp [boot, init_engine, occupied]
  · simp [boot, init_engine, player_slots]

/-- A registered player is found in the table with the registered rating. -/
theorem Consistent.get_registered {t : Trace} (hc : Consistent t) {id r : Int}
    (h : (id, r) ∈ t.registered) : get t.engine.hashmap id = some r := by
  obtain ⟨hpos, j, hj⟩ := hc.2.1 id r h
  exact get_of_TableInv hc.1 hj hpos

/-- Every waiting player is registered. -/
theorem Consistent.queue_registered {t : Trace} (hc : Consistent t) {id : Int}
    (h : id ∈ t.engine.playerQueue) : ∃ r, (id, r) ∈ t.registered := by
  have hmem : id ∈ t.registered.map Prod.fst :=
    (hc.2.2.2.2.mem_iff).mp (List.mem_append_left _ h)
  obtain ⟨p, hp, rfl⟩ := List.mem_map.mp hmem
  exact ⟨p.2, hp⟩

/-- Function `add_player` with a fresh non-zero id whose hash is an index of the
table returns while the table has room, and keeps the engine consistent. -/
theorem add_player_Consistent {t : Trace} (hc : Consistent t) {id : Int} (hid : id ≠ 0)
    (hh : 0 ≤ hash id) (hfresh : id ∉ t.registered.map Prod.fst) (hroom : t.registered.length < 1024)
    (rating : Int) :
    ∃ e, add_player t.engine id rating = some e ∧
      e.playerQueue = t.engine.playerQueue ++ [id] ∧
      e.match_counter = t.engine.match_counter ∧ e.match_count = t.engine.match_count ∧
      e.match_list = t.engine.match_list ∧ e.stray = t.engine.stray ∧
      Consistent { t with engine := e, registered := t.registered ++ [(id, rating)] } := by
  obtain ⟨hinv, hreg, hocc, ⟨n, hbal⟩, hperm⟩ := hc
  have hlen : t.engine.hashmap.length = 1024 := hinv.1
  obtain ⟨root', n', hins, hbal'⟩ := insert_rb_Bal hbal id rating
  have hex : ∃ (j : Nat) (e : Entry), t.engine.hashmap[j]? = some e ∧ (e.key = 0 ∨ e.key = id) := by
    have hlt : List.countP (fun e => decide (e.key ≠ 0)) t.engine.hashmap
        < t.engine.hashmap.length := by
      unfold occupied at hocc; omega
    obtain ⟨j, a, hj, ha⟩ := exists_not_of_countP_lt _ _ hlt
    exact ⟨j, a, hj, Or.inl (by simpa using ha)⟩
  obtain ⟨d, hd, hput, ⟨es, hes, hes0⟩, hpre⟩ := put_spec hlen hh rating hex
  have hrJ := probe_index_range (hash id) d
  have hJ : (probe_index (hash id) d).toNat < t.engine.hashmap.length := by omega
  rw [slot_eq_getElem hrJ.1] at hes
  refine ⟨{ t.engine with
      playerQueue := enqueue t.engine.playerQueue id
      root := root'
      hashmap := t.engine.hashmap.set (probe_index (hash id) d).toNat
        { key := id, value := rating } },
    by simp only [add_player, hins, hput], rfl, rfl, rfl, rfl, rfl, ?_⟩
  refine ⟨TableInv_set hinv hid hh rating hd ⟨es, by rw [slot_eq_getElem hrJ.1]; exact hes, hes0⟩ hpre,
    ?_, ?_, ⟨n', hbal'⟩, ?_⟩
  · intro id' r' h
    rcases List.mem_append.mp h with h | h
    · obtain ⟨hpos, j, hj⟩ := hreg id' r' h
      refine ⟨hpos, j, getElem?_set_of_key_ne hj hes ?_⟩
      have hne : id' ≠ id := by
        intro heq
        apply hfresh
        rw [← heq]
        exact List.mem_map.mpr ⟨(id', r'), h, rfl⟩
      rcases hes0 with h0 | h0
      · simp only [h0]; exact hpos
      · simp only [h0]; exact hne
    · simp only [List.mem_singleton, Prod.mk.injEq] at h
      obtain ⟨rfl, rfl⟩ := h
      refine ⟨hid, (probe_index (hash id') d).toNat, ?_⟩
      simp only
      rw [List.getElem?_set]
      simp [hJ]
  · simp only [List.length_append, List.length_singleton]
    have := countP_set_le (fun e : Entry => decide (e.key ≠ 0)) t.engine.hashmap
      (probe_index (hash id) d).toNat { key := id, value := rating }
    unfold occupied at hocc ⊢
    omega
  · simp only [enqueue, List.map_append, List.map_cons, List.map_nil]
    have h1 : List.Perm (t.engine.playerQueue ++ [id] ++ player_slots t.produced)
        (t.engine.playerQueue ++ player_slots t.produced ++ [id]) := by
      rw [List.append_assoc, List.append_assoc]
      exact List.Perm.append_left _ List.perm_append_comm
    exact h1.trans (List.Perm.append_right _ hperm)

theorem perm_after_match (p1 p2 : Int) (pre post slots : List Int) :
    List.Perm (pre ++ post ++ (slots ++ [p1, p2])) (p1 :: (pre ++ p2 :: post) ++ slots) := by
  rw [List.perm_iff_count]
  intro a
  simp only [List.count_append, List.count_cons, List.count_nil, List.cons_append]
  split <;> split <;> omega

theorem perm_after_requeue (p1 : Int) (rest slots : List Int) :
    List.Perm (rest ++ [p1] ++ slots) (p1 :: rest ++ slots) := by
  rw [List.perm_iff_count]
  intro a
  simp only [List.count_append, List.count_cons, List.count_nil, List.cons_append]
  split <;> omega

/-- In a consistent engine `get_match` returns.  Either it returns `0`, leaves
the counters alone and at most rotates the queue, or it returns `1` with a
match of two registered players whose table ratings pass the test, numbered
with the current `match_counter`. -/
theorem get_match_Consistent {t : Trace} (hc : Consistent t) (m0 : Match) :
    (∃ e', get_match t.engine m0 = some (0, e', m0) ∧
      e'.match_counter = t.engine.match_counter ∧ e'.match_count = t.engine.match_count ∧
      e'.stray = t.engine.stray ∧
      Consistent { t with engine := e' }) ∨
    (∃ e' p1 p2 r1 r2,
      get_match t.engine m0 = some (1, e',
        { player1_id := p1, player2_id := p2, match_id := t.engine.match_counter }) ∧
      (p1, r1) ∈ t.registered ∧ (p2, r2) ∈ t.registered ∧ compatible r1 r2 ∧
      e'.match_counter = t.engine.match_counter + 1 ∧
      e'.match_count = t.engine.match_count + 1 ∧
      e'.stray = stray_store t.engine.stray t.engine.match_count
        { player1_id := p1, player2_id := p2, match_id := t.engine.match_counter } ∧
      Consistent { t with
        engine := e'
        produced := t.produced ++
          [{ player1_id := p1, player2_id := p2, match_id := t.engine.match_counter }] }) := by
  cases hq : t.engine.playerQueue with
  | nil =>
    left
    refine ⟨t.engine, ?_, rfl, rfl, rfl, hc⟩
    unfold get_match
    simp [hq]
  | cons p1 rest =>
    have hp1 : p1 ∈ t.engine.playerQueue := by rw [hq]; exact List.mem_cons_self _ _
    obtain ⟨r1, hr1⟩ := hc.queue_registered hp1
    have hg1 := hc.get_registered hr1
    have hall : ∀ q ∈ rest, ∃ r, get t.engine.hashmap q = some r := by
      intro q hq'
      have : q ∈ t.engine.playerQueue := by rw [hq]; exact List.mem_cons_of_mem _ hq'
      obtain ⟨r, hr⟩ := hc.queue_registered this
      exact ⟨r, hc.get_registered hr⟩
    obtain ⟨hinv, hreg, hocc, hbal, hperm⟩ := hc
    rcases get_match_defined t.engine m0 p1 r1 rest hq hg1 hall with
      ⟨pre, p2, post, r2, e1, h2, hcomp, _, hgm⟩ | ⟨e', hgm, hcase⟩
    · right
      have hp2 : p2 ∈ t.engine.playerQueue := by rw [hq, e1]; simp
      obtain ⟨r2', hr2'⟩ := (show Consistent t from ⟨hinv, hreg, hocc, hbal, hperm⟩).queue_registered hp2
      have hg2 := (show Consistent t from ⟨hinv, hreg, hocc, hbal, hperm⟩).get_registered hr2'
      have hr : r2' = r2 := by rw [hg2] at h2; exact Option.some.inj h2
      subst hr
      refine ⟨_, p1, p2, r1, r2', hgm, hr1, hr2', hcomp, rfl, rfl, rfl, hinv, hreg, hocc, hbal, ?_⟩
      simp only [player_slots_append]
      rw [hq, e1] at hperm
      exact (perm_after_match p1 p2 pre post _).trans hperm
    · left
      rcases hcase with ⟨_, rfl⟩ | ⟨_, rfl⟩
      · exact ⟨t.engine, hgm, rfl, rfl, rfl, hinv, hreg, hocc, hbal, hperm⟩
      · refine ⟨_, hgm, rfl, rfl, rfl, hinv, hreg, hocc, hbal, ?_⟩
        rw [hq] at hperm
        exact (perm_after_requeue p1 rest _).trans hperm

/-! ## Runs -/

theorem player_slots_length (ms : List Match) : (player_slots ms).length = 2 * ms.length := by
  induction ms with
  | nil => rfl
  | cons m ms ih => simp only [player_slots, List.length_cons, ih]; omega

/-- Positive, pairwise distinct ids, at most `HASH_SIZE` of them, are
registrations the table can hold. -/
theorem table_registrations_of_valid {regs : List (Int × Int)} (h : valid_registrations regs) :
    table_registrations regs :=
  ⟨fun p hp => table_key_of_pos (h.1 p hp), h.2.1, h.2.2⟩

/-- A store at the index `match_count` of a consistent, numbered engine that
holds a further match lands inside `match_list`: the players of the produced
matches are registered, and the table holds at most `HASH_SIZE` of them. -/
theorem stray_store_of_room {t : Trace} (hc : Consistent t) (hlen : t.registered.length ≤ 1024)
    (hne : t.produced ≠ []) (i : Int) (hi : i = (t.produced.length : Int) - 1) (m : Match) :
    stray_store [] i m = [] := by
  have hperm := hc.2.2.2.2.length_eq
  rw [List.length_append, List.length_map, player_slots_length] at hperm
  have hpos : 0 < t.produced.length := List.length_pos.mpr hne
  unfold stray_store MAX_MATCHES
  rw [if_pos]
  omega

/-- Every call of a run with registrations the table can hold returns, no
store goes outside `match_list`, and every produced match pairs two registered
players whose registered ratings pass the test of `get_match`. -/
theorem run_valid (cs : List Call) : ∀ t : Trace, Consistent t → Numbered t →
    t.engine.stray = [] →
    table_registrations (t.registered ++ registrations cs) →
    (∀ m ∈ t.produced, ∃ r1 r2, (m.player1_id, r1) ∈ t.registered ∧
      (m.player2_id, r2) ∈ t.registered ∧ compatible r1 r2) →
    ∃ t', run t cs = some t' ∧ Consistent t' ∧
      t'.registered = t.registered ++ registrations cs ∧
      ∀ m ∈ t'.produced, ∃ r1 r2, (m.player1_id, r1) ∈ t'.registered ∧
        (m.player2_id, r2) ∈ t'.registered ∧ compatible r1 r2 := by
  induction cs with
  | nil =>
    intro t hc _ _ _ hm
    exact ⟨t, rfl, hc, by simp [registrations], hm⟩
  | cons c cs ih =>
    intro t hc hnum hstray hv hm
    cases c with
    | add_player id rating =>
      obtain ⟨hpos, hnd, hlen⟩ := hv
      simp only [registrations, List.map_append, List.map_cons, List.length_append,
        List.length_cons] at hpos hnd hlen
      have hid : id ≠ 0 ∧ 0 ≤ hash id := hpos (id, rating) (by simp)
      have hfresh : id ∉ t.registered.map Prod.fst := by
        intro hmem
        have := (List.nodup_append.mp hnd).2.2
        exact this hmem (List.mem_cons_self _ _)
      have hroom : t.registered.length < 1024 := by
        rw [HASH_SIZE_toNat] at hlen; omega
      obtain ⟨e, he, _, hc1, hc2, _, hs, hc'⟩ :=
        add_player_Consistent hc hid.1 hid.2 hfresh hroom rating
      have hv' : table_registrations
          ((t.registered ++ [(id, rating)]) ++ registrations cs) := by
        simpa [table_registrations, registrations] using
          (show table_registrations (t.registered ++ registrations (Call.add_player id rating :: cs))
            from ⟨hpos, by simpa [registrations] using hnd, by simpa [registrations] using hlen⟩)
      have hnum' : Numbered { t with engine := e, registered := t.registered ++ [(id, rating)] } :=
        ⟨by show e.match_counter = _; rw [hc1]; exact hnum.1,
          by show e.match_count = _; rw [hc2]; exact hnum.2.1, hnum.2.2⟩
      obtain ⟨t', hrun, hct, hregs, hmt⟩ := ih _ hc' hnum' (by show e.stray = []; rw [hs, hstray])
        hv' (by
        intro m hmem
        obtain ⟨r1, r2, h1, h2, h3⟩ := hm m hmem
        exact ⟨r1, r2, List.mem_append_left _ h1, List.mem_append_left _ h2, h3⟩)
      refine ⟨t', ?_, hct, ?_, hmt⟩
      · simp only [run, exec, he]
        exact hrun
      · rw [hregs]; simp [registrations]
    | get_match =>
      simp only [registrations] at hv
      rcases get_match_Consistent hc { player1_id := 0, player2_id := 0, match_id := 0 } with
        ⟨e', hgm, hc1, hc2, hs, hc'⟩ | ⟨e', p1, p2, r1, r2, hgm, h1, h2, h3, hc1, hc2, hs, hc'⟩
      · have hnum' : Numbered { t with engine := e' } :=
          ⟨by show e'.match_counter = _; rw [hc1]; exact hnum.1,
            by show e'.match_count = _; rw [hc2]; exact hnum.2.1, hnum.2.2⟩
        have hs' : e'.stray = [] := by rw [hs, hstray]
        obtain ⟨t', hrun, hct, hregs, hmt⟩ := ih _ hc' hnum' hs' hv hm
        refine ⟨t', ?_, hct, by simpa [registrations] using hregs, hmt⟩
        simp only [run, exec, hgm, hs', if_true]
        simpa using hrun
      · have hlen : t.registered.length ≤ 1024 := by
          have := hv.2.2
          rw [HASH_SIZE_toNat, List.length_append] at this
          omega
        have hs' : e'.stray = [] := by
          rw [hs, hstray]
          exact stray_store_of_room hc' hlen (by simp) _
            (by simp only [List.length_append, List.length_singleton]; rw [hnum.2.1]; push_cast; omega) _
        have hnum' : Numbered { t with
            engine := e'
            produced := t.produced ++
              [{ player1_id := p1, player2_id := p2, match_id := t.engine.match_counter }] } := by
          obtain ⟨hn1, hn2, hn3⟩ := hnum
          refine ⟨?_, ?_, ?_⟩
          · show e'.match_counter = _
            rw [hc1, hn1]; simp
          · show e'.match_count = _
            rw [hc2, hn2]; simp
          · simp [List.range_succ, hn3, hn1]
        obtain ⟨t', hrun, hct, hregs, hmt⟩ := ih _ hc' hnum' hs' hv (by
          intro m hmem
          rcases List.mem_append.mp hmem with hmem | hmem
          · exact hm m hmem
          · simp only [List.mem_singleton] at hmem
            subst hmem
            exact ⟨r1, r2, h1, h2, h3⟩)
        refine ⟨t', ?_, hct, by simpa [registrations] using hregs, hmt⟩
        simp only [run, exec, hgm, hs', if_true]
        simpa using hrun

/-- The counters in every run that returns. -/
theorem run_Numbered (cs : List Call) : ∀ t t' : Trace, Numbered t → run t cs = some t' →
    Numbered t' := by
  induction cs with
  | nil =>
    intro t t' hn hrun
    simp only [run, Option.some.injEq] at hrun
    subst hrun
    exact hn
  | cons c cs ih =>
    intro t t' hn hrun
    simp only [run] at hrun
    cases hex : exec t c with
    | none => simp [hex] at hrun
    | some t1 =>
      simp only [hex] at hrun
      refine ih t1 t' ?_ hrun
      cases c with
      | add_player id rating =>
        simp only [exec] at hex
        cases ha : add_player t.engine id rating with
        | none => simp [ha] at hex
        | some e =>
          simp only [ha, Option.some.injEq] at hex
          subst hex
          unfold add_player at ha
          cases hi : insert_rb t.engine.root id rating with
          | none => simp [hi] at ha
          | some root' =>
            cases hp : put t.engine.hashmap id rating with
            | none => simp [hi, hp] at ha
            | some hm' =>
              simp only [hi, hp, Option.some.injEq] at ha
              subst ha
              exact hn
      | get_match =>
        simp only [exec] at hex
        cases hg : get_match t.engine { player1_id := 0, player2_id := 0, match_id := 0 } with
        | none => simp [hg] at hex
        | some res =>
          obtain ⟨ret, e, m⟩ := res
          simp only [hg] at hex
          split at hex
          case isFalse => cases hex
          simp only [Option.some.injEq] at hex
          subst hex
          obtain ⟨hn1, hn2, hn3⟩ := hn
          unfold get_match at hg
          split at hg
          · simp only [Option.some.injEq, Prod.mk.injEq] at hg
            obtain ⟨rfl, rfl, rfl⟩ := hg
            exact ⟨hn1, hn2, hn3⟩
          · simp only [Option.some.injEq, Prod.mk.injEq] at hg
            obtain ⟨rfl, rfl, rfl⟩ := hg
            exact ⟨hn1, hn2, hn3⟩
          · simp only [dequeue] at hg
            split at hg
            · cases hg
            · split at hg
              · cases hg
              · simp only [Option.some.injEq, Prod.mk.injEq] at hg
                obtain ⟨rfl, rfl, rfl⟩ := hg
                refine ⟨?_, ?_, ?_⟩
                · simp [hn1]
                · simp [hn2]
                · simp [List.range_succ, hn3, hn1]
              · simp only [Option.some.injEq, Prod.mk.injEq] at hg
                obtain ⟨rfl, rfl, rfl⟩ := hg
                exact ⟨hn1, hn2, hn3⟩

theorem Numbered_boot : Numbered boot := by
  simp [Numbered, boot, init_engine, startup]

/-! ## `find_closest_match` -/

/-- Where the difference fits an `int`, `abs(a - b)` is the absolute value of
the difference. -/
theorem c_abs_sub_of_fits {a b : Int} (h : diff_fits a b) : c_abs (c_sub a b) = |a - b| := by
  unfold diff_fits INT_MIN INT_MAX at h
  unfold c_abs c_sub wrap32
  rcases abs_cases (a - b) with ⟨h1, _⟩ | ⟨h1, _⟩ <;> rw [h1] <;> split <;> omega

theorem find_closest_match_eq_find (rating threshold : Int) :
    ∀ t : RBTree, (∀ p ∈ search_path rating t, diff_fits p.2 rating) →
      find_closest_match rating threshold t =
        (search_path rating t).find? (fun p => decide (|p.2 - rating| ≤ threshold)) := by
  intro t
  induction t with
  | NIL => intro _; rfl
  | node cid cr cc cl crt ihl ihr =>
    intro hfit
    have h0 : diff_fits cr rating := hfit (cid, cr) (by simp [search_path])
    simp only [find_closest_match, search_path, List.find?_cons, c_abs_sub_of_fits h0]
    by_cases hw : |cr - rating| ≤ threshold
    · simp [hw]
    · simp only [hw, if_false, decide_False]
      by_cases hlt : rating < cr
      · simp only [hlt, if_true]
        exact ihl (fun p hp => hfit p (by simp [search_path, hlt, hp]))
      · simp only [hlt, if_false]
        exact ihr (fun p hp => hfit p (by simp [search_path, hlt, hp]))

/-! ## In-order traversal -/

theorem set_black_node (id r : Int) (c : Color) (l rt : RBTree) :
    set_black (node id r c l rt) = node id r BLACK l rt := rfl

theorem inorder_set_black (t : RBTree) : inorder (set_black t) = inorder t := by
  cases t <;> rfl

theorem inorder_plug (f : Frame) (t : RBTree) :
    path_before [f] ++ inorder t ++ path_after [f] = inorder (plug f t) := by
  obtain ⟨fs, fid, fr, fc, fo⟩ := f
  cases fs <;> simp [plug, inorder, path_before, path_after]

theorem inorder_zip_up (path : List Frame) : ∀ t : RBTree,
    inorder (zip_up path t) = path_before path ++ inorder t ++ path_after path := by
  induction path with
  | nil => intro t; simp [zip_up, path_before, path_after]
  | cons f path ih =>
    intro t
    obtain ⟨fs, fid, fr, fc, fo⟩ := f
    cases fs <;> simp [zip_up, ih, plug, inorder, path_before, path_after]

/-- Rebalancing keeps the in-order traversal: the result of `insert_fixup`
lists the entries before the place of `z`, then the subtree of `z`, then the
entries after it. -/
theorem inorder_insert_fixup : ∀ (path : List Frame) (zid zr : Int) (zc : Color)
    (zl zrt t' : RBTree), insert_fixup path zid zr zc zl zrt = some t' →
    inorder t' = path_before path ++ (inorder zl ++ (zid, zr) :: inorder zrt) ++ path_after path
  | [], zid, zr, zc, zl, zrt, t', h => by
    simp only [insert_fixup, Option.some.injEq] at h
    subst h
    simp [inorder, path_before, path_after]
  | [p], zid, zr, zc, zl, zrt, t', h => by
    obtain ⟨ps, pid, pr, pc, po⟩ := p
    simp only [insert_fixup] at h
    split at h
    · cases h
    · simp only [Option.some.injEq] at h
      subst h
      cases ps <;> simp [inorder_set_black, plug, inorder, path_before, path_after]
  | p :: g :: rest, zid, zr, zc, zl, zrt, t', h => by
    obtain ⟨ps, pid, pr, pc, po⟩ := p
    obtain ⟨gs, gid, gr, gc, go⟩ := g
    cases pc with
    | BLACK =>
      simp only [insert_fixup] at h
      rw [if_neg (by simp)] at h
      simp only [Option.some.injEq] at h
      subst h
      rw [inorder_set_black, inorder_zip_up]
      simp [inorder]
    | RED =>
      cases gs with
      | left =>
        cases go with
        | NIL =>
          cases ps <;>
          · simp only [insert_fixup, plug, left_rotate, right_rotate, set_black_node, if_true,
              Option.some.injEq] at h
            subst h
            rw [inorder_set_black, inorder_zip_up]
            simp [inorder, path_before, path_after]
        | node yid yr yc yl yrt =>
          cases yc with
          | RED =>
            simp only [insert_fixup, if_true] at h
            have ih := inorder_insert_fixup rest _ _ _ _ _ t' h
            rw [ih]
            cases ps <;> simp [plug, set_black_node, inorder, path_before, path_after]
          | BLACK =>
            cases ps <;>
            · simp only [insert_fixup, plug, left_rotate, right_rotate, set_black_node, if_true,
                Option.some.injEq] at h
              subst h
              rw [inorder_set_black, inorder_zip_up]
              simp [inorder, path_before, path_after]
      | right =>
        cases go with
        | NIL =>
          cases ps <;>
          · simp only [insert_fixup, plug, left_rotate, right_rotate, set_black_node, if_true,
              Option.some.injEq] at h
            subst h
            rw [inorder_set_black, inorder_zip_up]
            simp [inorder, path_before, path_after]
        | node yid yr yc yl yrt =>
          cases yc with
          | RED =>
            simp only [insert_fixup, if_true] at h
            have ih := inorder_insert_fixup rest _ _ _ _ _ t' h
            rw [ih]
            cases ps <;> simp [plug, set_black_node, inorder, path_before, path_after]
          | BLACK =>
            cases ps <;>
            · simp only [insert_fixup, plug, left_rotate, right_rotate, set_black_node, if_true,
                Option.some.injEq] at h
              subst h
              rw [inorder_set_black, inorder_zip_up]
              simp [inorder, path_before, path_after]

/-! ## The descent of `insert_rb` and the ordering of the tree -/

theorem rating_sorted_append {l1 l2 : List (Int × Int)} :
    rating_sorted (l1 ++ l2) ↔
      rating_sorted l1 ∧ rating_sorted l2 ∧ ∀ a ∈ l1, ∀ b ∈ l2, a.2 ≤ b.2 := by
  unfold rating_sorted
  exact List.pairwise_append

theorem rating_sorted_node {id r : Int} {c : Color} {l rt : RBTree}
    (h : rating_sorted (inorder (node id r c l rt))) :
    rating_sorted (inorder l) ∧ rating_sorted (inorder rt) ∧
      (∀ a ∈ inorder l, a.2 ≤ r) ∧ (∀ b ∈ inorder rt, r ≤ b.2) := by
  simp only [inorder] at h
  obtain ⟨h1, h2, h3⟩ := rating_sorted_append.mp h
  unfold rating_sorted at h2
  rw [List.pairwise_cons] at h2
  exact ⟨h1, h2.2, fun a ha => h3 a ha (id, r) (List.mem_cons_self _ _), fun b hb => h2.1 b hb⟩

/-- The descent splits the in-order traversal of the subtree it walks through:
what it leaves on the left goes before the place reached, what it leaves on the
right goes after it.  In an ordered subtree the left part has ratings `<=
rating` and the right part ratings `> rating`. -/
theorem descend_split (rating : Int) : ∀ (t : RBTree) (path : List Frame),
    ∃ B A : List (Int × Int),
      path_before (descend rating t path) = path_before path ++ B ∧
      path_after (descend rating t path) = A ++ path_after path ∧
      inorder t = B ++ A ∧
      (rating_sorted (inorder t) → (∀ b ∈ B, b.2 ≤ rating) ∧ (∀ a ∈ A, rating < a.2)) := by
  intro t
  induction t with
  | NIL =>
    intro path
    exact ⟨[], [], by simp [descend], by simp [descend], rfl, fun _ => by simp⟩
  | node xid xr xc xl xrt ihl ihr =>
    intro path
    by_cases hlt : rating < xr
    · obtain ⟨B, A, hb, ha, hio, hs⟩ := ihl
        ({ side := Side.left, player_id := xid, rating := xr, color := xc, other := xrt } :: path)
      refine ⟨B, A ++ (xid, xr) :: inorder xrt, ?_, ?_, ?_, ?_⟩
      · simp only [descend, hlt, if_true, hb, path_before]
      · simp only [descend, hlt, if_true, ha, path_after]
        simp
      · simp [inorder, hio]
      · intro hsorted
        obtain ⟨h1, _, _, h4⟩ := rating_sorted_node hsorted
        obtain ⟨hB, hA⟩ := hs h1
        refine ⟨hB, ?_⟩
        intro a ha'
        rcases List.mem_append.mp ha' with ha' | ha'
        · exact hA a ha'
        · rcases List.mem_cons.mp ha' with rfl | ha'
          · exact hlt
          · exact lt_of_lt_of_le hlt (h4 a ha')
    · obtain ⟨B, A, hb, ha, hio, hs⟩ := ihr
        ({ side := Side.right, player_id := xid, rating := xr, color := xc, other := xl } :: path)
      refine ⟨inorder xl ++ (xid, xr) :: B, A, ?_, ?_, ?_, ?_⟩
      · simp only [descend, hlt, if_false, hb, path_before]
        simp
      · simp only [descend, hlt, if_false, ha, path_after]
      · simp [inorder, hio]
      · intro hsorted
        obtain ⟨_, h2, h3, _⟩ := rating_sorted_node hsorted
        obtain ⟨hB, hA⟩ := hs h2
        refine ⟨?_, hA⟩
        intro b hb'
        rcases List.mem_append.mp hb' with hb' | hb'
        · exact le_trans (h3 b hb') (not_lt.mp hlt)
        · rcases List.mem_cons.mp hb' with rfl | hb'
          · exact not_lt.mp hlt
          · exact hB b hb'

/-- The position named by `insert_after_last_le` in a list split into entries
`<= x.rating` followed by entries `> x.rating`. -/
theorem insert_after_last_le_split (x : Int × Int) (B : List (Int × Int))
    (hB : ∀ b ∈ B, b.2 ≤ x.2) : ∀ A : List (Int × Int), (∀ a ∈ A, x.2 < a.2) →
      insert_after_last_le x (B ++ A) = B ++ x :: A := by
  intro A
  induction A using List.reverseRecOn with
  | nil =>
    intro _
    have h1 : B.rdropWhile (fun e => decide (x.2 < e.2)) = B := by
      rw [List.rdropWhile_eq_self_iff]
      intro hl
      have := hB _ (List.getLast_mem hl)
      simp only [decide_eq_true_eq, not_lt]
      exact this
    have h2 : B.rtakeWhile (fun e => decide (x.2 < e.2)) = [] := by
      rw [List.rtakeWhile_eq_nil_iff]
      intro hl
      have := hB _ (List.getLast_mem hl)
      simp only [decide_eq_true_eq, not_lt]
      exact this
    simp only [insert_after_last_le, List.append_nil, h1, h2]
  | append_singleton A a ih =>
    intro hA
    have ha : decide (x.2 < a.2) = true := by
      simpa using hA a (by simp)
    have hi := ih (fun y hy => hA y (by simp [hy]))
    unfold insert_after_last_le at hi ⊢
    rw [← List.append_assoc,
      List.rdropWhile_concat_pos (fun e => decide (x.2 < e.2)) (B ++ A) a ha,
      List.rtakeWhile_concat_pos (fun e => decide (x.2 < e.2)) (B ++ A) a ha,
      ← List.cons_append, ← List.append_assoc, hi]
    simp

/-- The in-order traversal after `insert_rb`: the new entry sits between the
two parts into which the descent splits the old traversal. -/
theorem inorder_insert_rb {t t' : RBTree} {id rating : Int}
    (h : insert_rb t id rating = some t') :
    ∃ B A : List (Int × Int), inorder t = B ++ A ∧ inorder t' = B ++ (id, rating) :: A ∧
      (rating_sorted (inorder t) → (∀ b ∈ B, b.2 ≤ rating) ∧ (∀ a ∈ A, rating < a.2)) := by
  obtain ⟨B, A, hb, ha, hio, hs⟩ := descend_split rating t []
  refine ⟨B, A, hio, ?_, hs⟩
  unfold insert_rb at h
  rw [inorder_insert_fixup _ _ _ _ _ _ _ h, hb, ha]
  simp [inorder, path_before, path_after]

/-- On an ordered tree `insert_rb` is the stable ordered insertion, and the
tree stays ordered. -/
theorem insert_rb_sorted {t t' : RBTree} {id rating : Int}
    (h : insert_rb t id rating = some t') (hs : rating_sorted (inorder t)) :
    inorder t' = insert_after_last_le (id, rating) (inorder t) ∧ rating_sorted (inorder t') := by
  obtain ⟨B, A, hio, hio', hsplit⟩ := inorder_insert_rb h
  obtain ⟨hB, hA⟩ := hsplit hs
  refine ⟨?_, ?_⟩
  · rw [hio', hio, insert_after_last_le_split (id, rating) B hB A hA]
  · rw [hio] at hs
    obtain ⟨s1, s2, s3⟩ := rating_sorted_append.mp hs
    rw [hio', rating_sorted_append]
    refine ⟨s1, ?_, ?_⟩
    · unfold rating_sorted at s2 ⊢
      rw [List.pairwise_cons]
      exact ⟨fun a ha => le_of_lt (hA a ha), s2⟩
    · intro a ha b hb
      rcases List.mem_cons.mp hb with rfl | hb
      · exact hB a ha
      · exact s3 a ha b hb

theorem insert_rb_perm {t t' : RBTree} {id rating : Int}
    (h : insert_rb t id rating = some t') :
    List.Perm (inorder t') (inorder t ++ [(id, rating)]) := by
  obtain ⟨B, A, hio, hio', _⟩ := inorder_insert_rb h
  rw [hio, hio']
  rw [List.append_assoc]
  exact List.Perm.append_left B (List.perm_append_singleton _ _).symm

theorem size_eq_length_inorder (t : RBTree) : size t = (inorder t).length := by
  induction t with
  | NIL => rfl
  | node id r c l rt ihl ihr => simp [size, inorder, ihl, ihr]; omega

/-- A run of `insert_rb` calls keeps the tree ordered and holds exactly the
entries inserted. -/
theorem insert_all_sorted (calls : List (Int × Int)) : ∀ {t t' : RBTree},
    insert_all t calls = some t' → rating_sorted (inorder t) →
      rating_sorted (inorder t') ∧ List.Perm (inorder t') (inorder t ++ calls) := by
  induction calls with
  | nil =>
    intro t t' h hs
    simp only [insert_all, Option.some.injEq] at h
    subst h
    exact ⟨hs, by simp⟩
  | cons c calls ih =>
    intro t t' h hs
    obtain ⟨id, rating⟩ := c
    simp only [insert_all] at h
    cases h1 : insert_rb t id rating with
    | none => simp [h1] at h
    | some t1 =>
      simp only [h1] at h
      obtain ⟨hs', hp⟩ := ih h (insert_rb_sorted h1 hs).2
      refine ⟨hs', hp.trans ?_⟩
      have := (insert_rb_perm h1).append_right calls
      simpa using this

/-! ## The table refines a finite map -/

theorem last_put_append_single (puts : List (Int × Int)) (k v key : Int) :
    last_put (puts ++ [(k, v)]) key = if k = key then some v else last_put puts key := by
  induction puts with
  | nil => simp [last_put]
  | cons p puts ih =>
    obtain ⟨k', v'⟩ := p
    have hc : last_put ((k', v') :: puts ++ [(k, v)]) key =
        match last_put (puts ++ [(k, v)]) key with
        | some w => some w
        | none => if k' = key then some v' else none := rfl
    rw [hc, ih]
    by_cases hk : k = key
    · simp [hk]
    · simp [hk, last_put]

theorem last_put_isSome_iff (puts : List (Int × Int)) (key : Int) :
    (∃ v, last_put puts key = some v) ↔ key ∈ puts.map Prod.fst := by
  induction puts with
  | nil => simp [last_put]
  | cons p puts ih =>
    obtain ⟨k', v'⟩ := p
    simp only [last_put, List.map_cons, List.mem_cons]
    constructor
    · rintro ⟨v, hv⟩
      cases hl : last_put puts key with
      | some w => exact Or.inr (ih.mp ⟨w, hl⟩)
      | none =>
        simp only [hl] at hv
        by_cases hk : k' = key
        · exact Or.inl hk.symm
        · simp [hk] at hv
    · rintro (hk | hmem)
      · cases hl : last_put puts key with
        | some w => exact ⟨w, rfl⟩
        | none => exact ⟨v', by simp [hk]⟩
      · obtain ⟨w, hw⟩ := ih.mpr hmem
        exact ⟨w, by simp [hw]⟩

theorem distinct_keys_append_single (puts : List (Int × Int)) (k v : Int) :
    distinct_keys (puts ++ [(k, v)]) =
      if k ∈ puts.map Prod.fst then distinct_keys puts else distinct_keys puts + 1 := by
  unfold distinct_keys
  have h : (List.map Prod.fst (puts ++ [(k, v)])).toFinset =
      insert k (List.map Prod.fst puts).toFinset := by
    ext x
    simp only [List.map_append, List.map_cons, List.map_nil, List.toFinset_append,
      List.toFinset_cons, List.toFinset_nil, Finset.mem_union, List.mem_toFinset,
      Finset.mem_insert, Finset.mem_singleton, insert_emptyc_eq]
    tauto
  rw [h]
  by_cases hk : k ∈ puts.map Prod.fst
  · rw [if_pos hk, Finset.insert_eq_of_mem (List.mem_toFinset.mpr hk)]
  · rw [if_neg hk, Finset.card_insert_of_not_mem (by simpa using hk)]

theorem distinct_keys_le_append (puts more : List (Int × Int)) :
    distinct_keys puts ≤ distinct_keys (puts ++ more) := by
  unfold distinct_keys
  apply Finset.card_le_card
  intro x hx
  simp only [List.map_append, List.toFinset_append, Finset.mem_union]
  exact Or.inl hx

theorem distinct_keys_of_nodup {puts : List (Int × Int)} (h : (puts.map Prod.fst).Nodup) :
    distinct_keys puts = puts.length := by
  unfold distinct_keys
  rw [List.toFinset_card_of_nodup h, List.length_map]

theorem countP_set_same {α : Type} (p : α → Bool) (l : List α) (j : Nat) (a x : α)
    (hj : l[j]? = some a) (hp : p x = p a) : (l.set j x).countP p = l.countP p := by
  induction l generalizing j with
  | nil => simp
  | cons b l ih =>
    cases j with
    | zero =>
      simp only [List.getElem?_cons_zero, Option.some.injEq] at hj
      subst hj
      simp [List.countP_cons, hp]
    | succ j =>
      simp only [List.getElem?_cons_succ] at hj
      simp [List.countP_cons, ih j hj]

theorem countP_set_new {α : Type} (p : α → Bool) (l : List α) (j : Nat) (a x : α)
    (hj : l[j]? = some a) (ha : p a = false) (hx : p x = true) :
    (l.set j x).countP p = l.countP p + 1 := by
  induction l generalizing j with
  | nil => simp at hj
  | cons b l ih =>
    cases j with
    | zero =>
      simp only [List.getElem?_cons_zero, Option.some.injEq] at hj
      subst hj
      simp [List.countP_cons, ha, hx]
    | succ j =>
      simp only [List.getElem?_cons_succ] at hj
      simp only [List.set_cons_succ, List.countP_cons, ih j hj]
      omega

/-- A key is stored in at most one place: the slot where its probe sequence
stops. -/
theorem stored_at_stop {hashmap : List Entry} (hinv : TableInv hashmap) {j : Nat} {e : Entry}
    (hj : hashmap[j]? = some e) (hne : e.key ≠ 0) {d : Nat}
    (hstop : ∃ es, slot hashmap (probe_index (hash e.key) d) = some es ∧
      (es.key = 0 ∨ es.key = e.key))
    (hpre : ∀ d' : Nat, d' < d → ∃ e', slot hashmap (probe_index (hash e.key) d') = some e' ∧
        e'.key ≠ 0 ∧ e'.key ≠ e.key) :
    (j : Int) = probe_index (hash e.key) d := by
  obtain ⟨_, dj, _, hjd, hpj⟩ := hinv.2 j e hj hne
  rcases Nat.lt_trichotomy dj d with hlt | heq | hgt
  · obtain ⟨e', he', _, hk⟩ := hpre dj hlt
    rw [← hjd, slot_natCast, hj] at he'
    cases he'
    exact absurd rfl hk
  · rw [hjd, heq]
  · obtain ⟨e', he', h0, hk⟩ := hpj d hgt
    obtain ⟨es, hes, hes0⟩ := hstop
    rw [hes] at he'
    cases he'
    rcases hes0 with h | h
    · exact absurd h h0
    · exact absurd h hk

theorem Refines_zero : Refines (init_engine startup).hashmap [] := by
  refine ⟨TableInv_zero, ?_, ?_, ?_, ?_⟩
  · intro j e hj hne
    have := List.getElem?_eq_some_iff.mp hj
    obtain ⟨h1, h2⟩ := this
    simp [init_engine] at h2
    subst h2
    exact absurd rfl hne
  · intro k v h
    simp [last_put] at h
  · simp [occupied, distinct_keys, init_engine]
  · intro p hp; cases hp

/-- One `put` of a positive key, on a table that has room or already holds the
key: the call returns and the table refines the map extended by the call. -/
theorem put_Refines {hashmap : List Entry} {puts : List (Int × Int)}
    (href : Refines hashmap puts) {key : Int} (hk : 0 < key) (value : Int)
    (hroom : distinct_keys puts < 1024 ∨ key ∈ puts.map Prod.fst) :
    ∃ hashmap', put hashmap key value = some hashmap' ∧
      Refines hashmap' (puts ++ [(key, value)]) := by
  obtain ⟨hinv, hstored, hput, hocc, hposk⟩ := href
  have hlen : hashmap.length = 1024 := hinv.1
  have hex : ∃ (j : Nat) (e : Entry), hashmap[j]? = some e ∧ (e.key = 0 ∨ e.key = key) := by
    by_cases hmem : key ∈ puts.map Prod.fst
    · obtain ⟨v0, hv0⟩ := (last_put_isSome_iff puts key).mpr hmem
      obtain ⟨j, hj⟩ := hput key v0 hv0
      exact ⟨j, _, hj, Or.inr rfl⟩
    · have hlt : distinct_keys puts < 1024 := by
        rcases hroom with h | h
        · exact h
        · exact absurd h hmem
      have hc : List.countP (fun e => decide (e.key ≠ 0)) hashmap < hashmap.length := by
        unfold occupied at hocc; omega
      obtain ⟨j, a, hj, ha⟩ := exists_not_of_countP_lt _ _ hc
      exact ⟨j, a, hj, Or.inl (by simpa using ha)⟩
  obtain ⟨d, hd, hputeq, ⟨es, hes, hes0⟩, hpre⟩ := put_spec hlen (hash_range (le_of_lt hk)).1 value hex
  have hrJ := probe_index_range (hash key) d
  have hJ : (probe_index (hash key) d).toNat < hashmap.length := by omega
  have hesJ : hashmap[(probe_index (hash key) d).toNat]? = some es := by
    rw [← slot_eq_getElem hrJ.1]; exact hes
  -- the key is stored already exactly when the stopping slot holds it
  have hkey_iff : es.key = key ↔ key ∈ puts.map Prod.fst := by
    constructor
    · intro h
      have := hstored _ es hesJ (by rw [h]; exact ne_of_gt hk)
      rw [h] at this
      exact (last_put_isSome_iff puts key).mp ⟨_, this⟩
    · intro hmem
      obtain ⟨v0, hv0⟩ := (last_put_isSome_iff puts key).mpr hmem
      obtain ⟨j, hj⟩ := hput key v0 hv0
      have hjJ := stored_at_stop hinv hj (ne_of_gt hk) ⟨es, hes, hes0⟩ hpre
      have hjeq : j = (probe_index (hash key) d).toNat := by
        simp only at hjJ; omega
      rw [hjeq, hesJ] at hj
      cases hj
      rfl
  refine ⟨_, hputeq, TableInv_set hinv (ne_of_gt hk) (hash_range (le_of_lt hk)).1 value hd ⟨es, hes, hes0⟩ hpre, ?_, ?_, ?_, ?_⟩
  · intro j e hj hne
    rw [last_put_append_single]
    rw [List.getElem?_set] at hj
    by_cases hjJ : (probe_index (hash key) d).toNat = j
    · simp only [hjJ, if_true] at hj
      have hjlt : j < hashmap.length := by omega
      simp only [hjlt, if_true, Option.some.injEq] at hj
      subst hj
      simp
    · simp only [hjJ, if_false] at hj
      have hne_key : key ≠ e.key := by
        intro heq
        have := stored_at_stop hinv hj hne (d := d)
          ⟨es, by rw [← heq]; exact hes, by rw [← heq]; exact hes0⟩
          (by rw [← heq]; exact hpre)
        rw [← heq] at this
        apply hjJ
        omega
      rw [if_neg hne_key]
      exact hstored j e hj hne
  · intro k v hkv
    rw [last_put_append_single] at hkv
    by_cases hkk : key = k
    · rw [if_pos hkk] at hkv
      cases hkv
      subst hkk
      refine ⟨(probe_index (hash key) d).toNat, ?_⟩
      rw [List.getElem?_set]
      simp [hJ]
    · rw [if_neg hkk] at hkv
      obtain ⟨j, hj⟩ := hput k v hkv
      refine ⟨j, getElem?_set_of_key_ne hj hesJ ?_⟩
      simp only
      have hk0 : k ≠ 0 := by
        obtain ⟨p, hp, hpk⟩ := List.mem_map.mp ((last_put_isSome_iff puts k).mp ⟨v, hkv⟩)
        have := hposk p hp
        rw [hpk] at this
        exact ne_of_gt this
      rcases hes0 with h | h
      · rw [h]; exact hk0
      · rw [h]; exact fun heq => hkk heq.symm
  · rw [distinct_keys_append_single]
    unfold occupied at hocc ⊢
    by_cases hmem : key ∈ puts.map Prod.fst
    · rw [if_pos hmem, ← hocc]
      apply countP_set_same _ _ _ es _ hesJ
      have hek : es.key = key := hkey_iff.mpr hmem
      simp [hek, ne_of_gt hk]
    · rw [if_neg hmem, ← hocc]
      have hek : es.key = 0 := by
        rcases hes0 with h | h
        · exact h
        · exact absurd (hkey_iff.mp h) hmem
      apply countP_set_new _ _ _ es _ hesJ
      · simp [hek]
      · simp [ne_of_gt hk]
  · intro p hp
    rcases List.mem_append.mp hp with hp | hp
    · exact hposk p hp
    · simp only [List.mem_singleton] at hp
      subst hp
      exact hk

/-- A sequence of `put` calls with positive keys, at most `HASH_SIZE` of them
distinct: every call returns and the table refines the whole sequence. -/
theorem put_all_Refines (more : List (Int × Int)) : ∀ {hashmap : List Entry}
    {puts : List (Int × Int)}, Refines hashmap puts → (∀ p ∈ more, 0 < p.1) →
    distinct_keys (puts ++ more) ≤ 1024 →
    ∃ hashmap', put_all hashmap more = some hashmap' ∧ Refines hashmap' (puts ++ more) := by
  induction more with
  | nil =>
    intro hashmap puts href _ _
    exact ⟨hashmap, rfl, by simpa using href⟩
  | cons c more ih =>
    intro hashmap puts href hpos hcard
    obtain ⟨key, value⟩ := c
    have hk : 0 < key := hpos (key, value) (List.mem_cons_self _ _)
    have hroom : distinct_keys puts < 1024 ∨ key ∈ puts.map Prod.fst := by
      by_cases hmem : key ∈ puts.map Prod.fst
      · exact Or.inr hmem
      · left
        have h1 := distinct_keys_append_single puts key value
        rw [if_neg hmem] at h1
        have h2 := distinct_keys_le_append (puts ++ [(key, value)]) more
        rw [List.append_assoc] at h2
        simp only [List.singleton_append] at h2
        omega
    obtain ⟨hm1, hput, href1⟩ := put_Refines href hk value hroom
    obtain ⟨hm2, hall, href2⟩ := ih href1 (fun p hp => hpos p (List.mem_cons_of_mem _ hp))
      (by simpa using hcard)
    exact ⟨hm2, by simp only [put_all, hput]; exact hall, by simpa using href2⟩

/-- In a table that refines a sequence of `put` calls, `get` of a key that was
put returns the latest value. -/
theorem Refines.get_put {hashmap : List Entry} {puts : List (Int × Int)}
    (href : Refines hashmap puts) {key value : Int} (h : last_put puts key = some value) :
    get hashmap key = some value := by
  obtain ⟨j, hj⟩ := href.2.2.1 key value h
  obtain ⟨p, hp, hpk⟩ := List.mem_map.mp ((last_put_isSome_iff puts key).mp ⟨value, h⟩)
  have hpos := href.2.2.2.2 p hp
  rw [hpk] at hpos
  exact get_of_TableInv href.1 hj (ne_of_gt hpos)

/-- In a table with an empty slot that refines a sequence of `put` calls, `get`
of a positive key that was never put returns `-1`. -/
theorem Refines.get_absent {hashmap : List Entry} {puts : List (Int × Int)}
    (href : Refines hashmap puts) (hroom : distinct_keys puts < 1024) {key : Int}
    (hk : 0 < key) (h : last_put puts key = none) : get hashmap key = some (-1) := by
  obtain ⟨hinv, hstored, _, hocc, _⟩ := href
  have hlen : hashmap.length = 1024 := hinv.1
  have hc : List.countP (fun e => decide (e.key ≠ 0)) hashmap < hashmap.length := by
    unfold occupied at hocc; omega
  obtain ⟨j, a, hj, ha⟩ := exists_not_of_countP_lt _ _ hc
  obtain ⟨d, hd, ⟨es, hes, hes0⟩, hpre⟩ :=
    first_stop hashmap hlen key (hash key) ⟨j, a, hj, Or.inl (by simpa using ha)⟩
  have hr := hash_range (le_of_lt hk)
  have hrJ := probe_index_range (hash key) d
  have hes0' : es.key = 0 := by
    rcases hes0 with h0 | h0
    · exact h0
    · exfalso
      have := hstored _ es (by rw [← slot_eq_getElem hrJ.1]; exact hes)
        (by rw [h0]; exact ne_of_gt hk)
      rw [h0, h] at this
      cases this
  unfold get
  rw [← probe_index_zero hr.1 hr.2, HASH_SIZE_toNat]
  apply get_probe_walk_empty hashmap key (hash key) d 1024 0 hd
  · intro d' hd'
    simpa using hpre d' hd'
  · exact ⟨es, by simpa using hes, hes0'⟩

/-- The probe loop of `put` never ends when every slot is occupied by another
key: no amount of fuel gives a result. -/
theorem put_probe_full {hashmap : List Entry} (hlen : hashmap.length = 1024) {key : Int}
    (hfull : ∀ (j : Nat) (e : Entry), hashmap[j]? = some e → e.key ≠ 0 ∧ e.key ≠ key) :
    ∀ (fuel : Nat) (idx : Int), 0 ≤ idx → idx < 1024 →
      put_probe fuel hashmap key idx = none := by
  intro fuel
  induction fuel with
  | zero => intro idx _ _; rfl
  | succ fuel ih =>
    intro idx h0 h1
    obtain ⟨e, he⟩ := slot_defined hlen h0 h1
    have hc := hfull idx.toNat e (by rw [← slot_eq_getElem h0]; exact he)
    simp only [put_probe, he]
    rw [if_pos hc]
    apply ih
    · rw [Int.tmod_eq_emod (by omega) (by decide)]
      unfold HASH_SIZE; omega
    · rw [Int.tmod_eq_emod (by omega) (by decide)]
      unfold HASH_SIZE; omega

/-- The probe loop of `get` never ends either on such a table. -/
theorem get_probe_full {hashmap : List Entry} (hlen : hashmap.length = 1024) {key : Int}
    (hfull : ∀ (j : Nat) (e : Entry), hashmap[j]? = some e → e.key ≠ 0 ∧ e.key ≠ key) :
    ∀ (fuel : Nat) (idx : Int), 0 ≤ idx → idx < 1024 →
      get_probe fuel hashmap key idx = none := by
  intro fuel
  induction fuel with
  | zero => intro idx _ _; rfl
  | succ fuel ih =>
    intro idx h0 h1
    obtain ⟨e, he⟩ := slot_defined hlen h0 h1
    have hc := hfull idx.toNat e (by rw [← slot_eq_getElem h0]; exact he)
    simp only [get_probe, he]
    rw [if_pos hc.1, if_neg hc.2]
    apply ih
    · rw [Int.tmod_eq_emod (by omega) (by decide)]
      unfold HASH_SIZE; omega
    · rw [Int.tmod_eq_emod (by omega) (by decide)]
      unfold HASH_SIZE; omega

/-- A table that refines `HASH_SIZE` distinct keys has no empty slot, and no
slot holds a key that was never put. -/
theorem Refines.full {hashmap : List Entry} {puts : List (Int × Int)}
    (href : Refines hashmap puts) (hcard : distinct_keys puts = 1024) {key : Int}
    (hnew : key ∉ puts.map Prod.fst) :
    ∀ (j : Nat) (e : Entry), hashmap[j]? = some e → e.key ≠ 0 ∧ e.key ≠ key := by
  obtain ⟨hinv, hstored, _, hocc, _⟩ := href
  have hlen : hashmap.length = 1024 := hinv.1
  have hall : ∀ e ∈ hashmap, decide (e.key ≠ 0) = true := by
    apply List.countP_eq_length.mp
    unfold occupied at hocc
    omega
  intro j e hj
  have hmem : e ∈ hashmap := by
    obtain ⟨hlt, heq⟩ := List.getElem?_eq_some_iff.mp hj
    rw [← heq]
    exact List.getElem_mem hlt
  have h0 : e.key ≠ 0 := by simpa using hall e hmem
  refine ⟨h0, ?_⟩
  intro hk
  apply hnew
  rw [← hk]
  exact (last_put_isSome_iff puts e.key).mp ⟨_, hstored j e hj h0⟩

/-! ## The table of the engine along a run -/

theorem add_player_inv {e e' : Engine} {player_id rating : Int}
    (h : add_player e player_id rating = some e') :
    e'.playerQueue = e.playerQueue ++ [player_id] ∧
    insert_rb e.root player_id rating = some e'.root ∧
    put e.hashmap player_id rating = some e'.hashmap ∧
    e'.match_list = e.match_list ∧ e'.match_counter = e.match_counter ∧
    e'.match_count = e.match_count := by
  unfold add_player at h
  cases hi : insert_rb e.root player_id rating with
  | none => simp [hi] at h
  | some root' =>
    cases hp : put e.hashmap player_id rating with
    | none => simp [hi, hp] at h
    | some hm' =>
      simp only [hi, hp, Option.some.injEq] at h
      subst h
      exact ⟨rfl, rfl, rfl, rfl, rfl, rfl⟩

/-- `get_match` touches neither the table nor the index. -/
theorem get_match_inv {e e' : Engine} {m0 m : Match} {ret : Int}
    (h : get_match e m0 = some (ret, e', m)) :
    e'.hashmap = e.hashmap ∧ e'.root = e.root := by
  unfold get_match at h
  split at h
  · simp only [Option.some.injEq, Prod.mk.injEq] at h
    obtain ⟨_, rfl, _⟩ := h
    exact ⟨rfl, rfl⟩
  · simp only [Option.some.injEq, Prod.mk.injEq] at h
    obtain ⟨_, rfl, _⟩ := h
    exact ⟨rfl, rfl⟩
  · simp only [dequeue] at h
    split at h
    · cases h
    · split at h
      · cases h
      · simp only [Option.some.injEq, Prod.mk.injEq] at h
        obtain ⟨_, rfl, _⟩ := h
        exact ⟨rfl, rfl⟩
      · simp only [Option.some.injEq, Prod.mk.injEq] at h
        obtain ⟨_, rfl, _⟩ := h
        exact ⟨rfl, rfl⟩

/-- The table after a run is the table written by the `put` calls of its
registrations, and the index is the tree built by their `insert_rb` calls. -/
theorem run_table (cs : List Call) : ∀ {t t' : Trace}, run t cs = some t' →
    put_all t.engine.hashmap (registrations cs) = some t'.engine.hashmap ∧
    insert_all t.engine.root (registrations cs) = some t'.engine.root ∧
    t'.registered = t.registered ++ registrations cs := by
  induction cs with
  | nil =>
    intro t t' h
    simp only [run, Option.some.injEq] at h
    subst h
    simp [registrations, put_all, insert_all]
  | cons c cs ih =>
    intro t t' h
    simp only [run] at h
    cases hex : exec t c with
    | none => simp [hex] at h
    | some t1 =>
      simp only [hex] at h
      obtain ⟨ih1, ih2, ih3⟩ := ih h
      cases c with
      | add_player id rating =>
        simp only [exec] at hex
        cases ha : add_player t.engine id rating with
        | none => simp [ha] at hex
        | some e =>
          simp only [ha, Option.some.injEq] at hex
          subst hex
          obtain ⟨_, hi, hp, _⟩ := add_player_inv ha
          refine ⟨?_, ?_, ?_⟩
          · simp only [registrations, put_all, hp]; exact ih1
          · simp only [registrations, insert_all, hi]; exact ih2
          · rw [ih3]; simp [registrations]
      | get_match =>
        simp only [exec] at hex
        cases hg : get_match t.engine { player1_id := 0, player2_id := 0, match_id := 0 } with
        | none => simp [hg] at hex
        | some res =>
          obtain ⟨ret, e, m⟩ := res
          simp only [hg] at hex
          split at hex
          case isFalse => cases hex
          simp only [Option.some.injEq] at hex
          subst hex
          obtain ⟨h1, h2⟩ := get_match_inv hg
          simp only [registrations]
          simp only [h1, h2] at ih1 ih2
          exact ⟨ih1, ih2, ih3⟩

theorem registrations_register_all (regs : List (Int × Int)) :
    registrations (register_all regs) = regs := by
  induction regs with
  | nil => rfl
  | cons p regs ih =>
    obtain ⟨id, r⟩ := p
    unfold register_all at ih ⊢
    simp [registrations, ih]

/-- Registering valid registrations from the initial engine returns, and the
table refines the registrations. -/
theorem register_all_Refines (regs : List (Int × Int)) (hv : valid_registrations regs) :
    ∃ t, run boot (register_all regs) = some t ∧ t.registered = regs ∧
      Refines t.engine.hashmap regs := by
  obtain ⟨t, hrun, _, hregs, _⟩ := run_valid (register_all regs) boot Consistent_boot
    Numbered_boot rfl
    (table_registrations_of_valid (by simpa [boot, registrations_register_all] using hv))
    (by intro m hm; cases hm)
  have hcard : distinct_keys ([] ++ regs) ≤ 1024 := by
    rw [List.nil_append, distinct_keys_of_nodup hv.2.1]
    exact hv.2.2
  obtain ⟨hm, hall, href⟩ := put_all_Refines regs Refines_zero hv.1 hcard
  obtain ⟨hlink, _, _⟩ := run_table (register_all regs) hrun
  rw [registrations_register_all] at hlink
  have hb : boot.engine.hashmap = (init_engine startup).hashmap := rfl
  rw [hb, hall] at hlink
  cases hlink
  refine ⟨t, hrun, ?_, by simpa using href⟩
  rw [hregs, registrations_register_all]
  rfl

theorem capacity_regs_length : capacity_regs.length = 1024 := by
  unfold capacity_regs
  rw [List.length_map, List.length_range]

theorem capacity_regs_valid : valid_registrations capacity_regs := by
  refine ⟨?_, ?_, ?_⟩
  · intro p hp
    obtain ⟨i, _, rfl⟩ := List.mem_map.mp hp
    show (0 : Int) < (i : Int) + 1
    omega
  · unfold capacity_regs
    rw [List.map_map]
    apply List.Nodup.map _ (List.nodup_range 1024)
    intro a b hab
    simp only [Function.comp] at hab
    omega
  · rw [capacity_regs_length]
    decide

theorem capacity_regs_fresh : (1025 : Int) ∉ capacity_regs.map Prod.fst := by
  intro h
  obtain ⟨p, hp, hk⟩ := List.mem_map.mp h
  obtain ⟨i, hi, rfl⟩ := List.mem_map.mp hp
  have hlt := List.mem_range.mp hi
  have hk' : (i : Int) + 1 = 1025 := hk
  omega

/-- Under the probing invariant a key occupies at most one slot. -/
theorem stored_unique {hashmap : List Entry} (hinv : TableInv hashmap) {j j' : Nat}
    {e e' : Entry} (hj : hashmap[j]? = some e) (hj' : hashmap[j']? = some e')
    (hne : e.key ≠ 0) (hk : e.key = e'.key) : j = j' := by
  obtain ⟨_, d, hd, hjd, hpre⟩ := hinv.2 j' e' hj' (by rw [← hk]; exact hne)
  have h := stored_at_stop hinv hj hne (d := d)
    ⟨e', by rw [hk, ← hjd, slot_natCast]; exact hj', Or.inr hk.symm⟩
    (by rw [hk]; exact hpre)
  rw [hk, ← hjd] at h
  exact_mod_cast h

theorem add_player_none_of_put {e : Engine} {player_id rating : Int}
    (h : put e.hashmap player_id rating = none) : add_player e player_id rating = none := by
  unfold add_player
  cases insert_rb e.root player_id rating with
  | none => rfl
  | some root' => simp [h]


/-- What a call of `add_player` that returns has done: the id is at the back of
the queue, the index has one more entry, the table is the one written by
`put`, the match list and counters are as before. -/
theorem add_player_effect {e e' : Engine} {player_id rating : Int}
    (h : add_player e player_id rating = some e') :
    e'.playerQueue = e.playerQueue ++ [player_id] ∧
    List.Perm (inorder e'.root) (inorder e.root ++ [(player_id, rating)]) ∧
    put e.hashmap player_id rating = some e'.hashmap ∧
    e'.match_list = e.match_list ∧ e'.match_counter = e.match_counter ∧
    e'.match_count = e.match_count := by
  unfold add_player at h
  cases hi : insert_rb e.root player_id rating with
  | none => simp [hi] at h
  | some root' =>
    cases hp : put e.hashmap player_id rating with
    | none => simp [hi, hp] at h
    | some hm' =>
      simp only [hi, hp, Option.some.injEq] at h
      subst h
      exact ⟨rfl, insert_rb_perm hi, rfl, rfl, rfl, rfl⟩

/-- With a red-black index and a table slot that is empty or holds the id,
`add_player` returns. -/
theorem add_player_returns (e : Engine) (player_id rating : Int) (n : Nat)
    (hroot : Bal e.root BLACK n) (hlen : e.hashmap.length = 1024) (hid : 0 ≤ player_id)
    (hslot : ∃ (j : Nat) (s : Entry), e.hashmap[j]? = some s ∧
      (s.key = 0 ∨ s.key = player_id)) :
    ∃ e', add_player e player_id rating = some e' := by
  obtain ⟨t', n', hi, _⟩ := insert_rb_Bal hroot player_id rating
  obtain ⟨d, _, hp, _⟩ := put_spec hlen (hash_range hid).1 rating hslot
  unfold add_player
  simp only [hi, hp]
  exact ⟨_, rfl⟩
/-! ## Long runs -/

theorem run_append (a b : List Call) : ∀ t : Trace,
    run t (a ++ b) = (run t a).bind (fun t' => run t' b) := by
  induction a with
  | nil => intro t; rfl
  | cons c a ih =>
    intro t
    simp only [List.cons_append, run]
    cases exec t c with
    | none => rfl
    | some t1 => exact ih t1

/-- The two ways `get_match` returns: `0` with the match globals untouched, or
`1` with the store of the match issued at index `match_count`, the match
numbered `match_counter`, and both counters incremented. -/
theorem get_match_cases {e e' : Engine} {m0 m : Match} {ret : Int}
    (h : get_match e m0 = some (ret, e', m)) :
    (ret = 0 ∧ m = m0 ∧ e'.match_list = e.match_list ∧ e'.match_counter = e.match_counter ∧
      e'.match_count = e.match_count ∧ e'.stray = e.stray) ∨
    (ret = 1 ∧ m.match_id = e.match_counter ∧
      e'.match_list = store_match e.match_list e.match_count m ∧
      e'.match_counter = e.match_counter + 1 ∧ e'.match_count = e.match_count + 1 ∧
      e'.stray = stray_store e.stray e.match_count m) := by
  unfold get_match at h
  split at h
  · simp only [Option.some.injEq, Prod.mk.injEq] at h
    obtain ⟨rfl, rfl, rfl⟩ := h
    exact Or.inl ⟨rfl, rfl, rfl, rfl, rfl, rfl⟩
  · simp only [Option.some.injEq, Prod.mk.injEq] at h
    obtain ⟨rfl, rfl, rfl⟩ := h
    exact Or.inl ⟨rfl, rfl, rfl, rfl, rfl, rfl⟩
  · simp only [dequeue] at h
    split at h
    · cases h
    · split at h
      · cases h
      · simp only [Option.some.injEq, Prod.mk.injEq] at h
        obtain ⟨rfl, rfl, rfl⟩ := h
        exact Or.inr ⟨rfl, rfl, rfl, rfl, rfl, rfl⟩
      · simp only [Option.some.injEq, Prod.mk.injEq] at h
        obtain ⟨rfl, rfl, rfl⟩ := h
        exact Or.inl ⟨rfl, rfl, rfl, rfl, rfl, rfl⟩

theorem store_match_length (match_list : List Match) (i : Int) (m : Match) :
    (store_match match_list i m).length = match_list.length := by
  unfold store_match
  split <;> simp

/-- The match list keeps its length along a run. -/
theorem run_match_list_length (cs : List Call) : ∀ {t t' : Trace}, run t cs = some t' →
    t'.engine.match_list.length = t.engine.match_list.length := by
  induction cs with
  | nil =>
    intro t t' h
    simp only [run, Option.some.injEq] at h
    subst h
    rfl
  | cons c cs ih =>
    intro t t' h
    simp only [run] at h
    cases hex : exec t c with
    | none => simp [hex] at h
    | some t1 =>
      simp only [hex] at h
      rw [ih h]
      cases c with
      | add_player id rating =>
        simp only [exec] at hex
        cases ha : add_player t.engine id rating with
        | none => simp [ha] at hex
        | some e =>
          simp only [ha, Option.some.injEq] at hex
          subst hex
          obtain ⟨_, _, _, hl, _⟩ := add_player_inv ha
          simp only [hl]
      | get_match =>
        simp only [exec] at hex
        cases hg : get_match t.engine { player1_id := 0, player2_id := 0, match_id := 0 } with
        | none => simp [hg] at hex
        | some res =>
          obtain ⟨ret, e, m⟩ := res
          simp only [hg] at hex
          split at hex
          case isFalse => cases hex
          simp only [Option.some.injEq] at hex
          subst hex
          rcases get_match_cases hg with ⟨_, _, hl, _⟩ | ⟨_, _, hl, _⟩
          · simp only [hl]
          · simp only [hl, store_match_length]

theorem Steady_boot : Steady boot :=
  ⟨Refines_zero, ⟨0, Bal.nil⟩, by intro id h; cases h⟩

/-- `add_player` of a positive id on a steady engine whose table has room for
it returns and keeps the engine steady. -/
theorem add_player_Steady {t : Trace} (hs : Steady t) {id : Int} (hid : 0 < id) (rating : Int)
    (hroom : distinct_keys t.registered < 1024 ∨ id ∈ t.registered.map Prod.fst) :
    ∃ e, add_player t.engine id rating = some e ∧
      e.playerQueue = t.engine.playerQueue ++ [id] ∧
      e.match_list = t.engine.match_list ∧ e.match_counter = t.engine.match_counter ∧
      e.match_count = t.engine.match_count ∧ e.stray = t.engine.stray ∧
      Steady { t with engine := e, registered := t.registered ++ [(id, rating)] } := by
  obtain ⟨href, ⟨n, hbal⟩, hq⟩ := hs
  obtain ⟨root', n', hins, hbal'⟩ := insert_rb_Bal hbal id rating
  obtain ⟨hm', hput, href'⟩ := put_Refines href hid rating hroom
  refine ⟨{ t.engine with
      playerQueue := enqueue t.engine.playerQueue id
      root := root'
      hashmap := hm' },
    by simp only [add_player, hins, hput], rfl, rfl, rfl, rfl, rfl, href', ⟨n', hbal'⟩, ?_⟩
  intro x hx
  simp only [enqueue, List.mem_append, List.mem_singleton] at hx
  simp only [List.map_append, List.mem_append, List.map_cons, List.map_nil, List.mem_singleton]
  rcases hx with hx | hx
  · exact Or.inl (hq x hx)
  · exact Or.inr hx

theorem distinct_keys_le_two {regs : List (Int × Int)} (h : ∀ p ∈ regs, p.1 = 1 ∨ p.1 = 2) :
    distinct_keys regs ≤ 2 := by
  unfold distinct_keys
  have hsub : (regs.map Prod.fst).toFinset ⊆ ({1, 2} : Finset Int) := by
    intro x hx
    obtain ⟨p, hp, rfl⟩ := List.mem_map.mp (List.mem_toFinset.mp hx)
    rcases h p hp with h1 | h1 <;> simp [h1]
  exact le_trans (Finset.card_le_card hsub) (by decide)

/-- A store at an index inside the array is not a stray store. -/
theorem stray_store_inside (stray : List (Int × Match)) (i : Int) (m : Match)
    (h0 : 0 ≤ i) (h1 : i < MAX_MATCHES) : stray_store stray i m = stray := by
  unfold stray_store
  rw [if_pos ⟨h0, h1⟩]

/-- A store at an index that is not below `MAX_MATCHES` is a stray store. -/
theorem stray_store_outside (stray : List (Int × Match)) (i : Int) (m : Match)
    (h : MAX_MATCHES ≤ i) : stray_store stray i m = stray ++ [(i, m)] := by
  unfold stray_store
  rw [if_neg (by omega)]

/-- Players 1 and 2 register on a steady engine with an empty queue that only
knows these two players: both calls return, and the next `get_match` pairs
them, issuing its store at index `match_count`. -/
theorem rematch_registered {t : Trace} (hs : Steady t) (hq : t.engine.playerQueue = [])
    (hkeys : ∀ p ∈ t.registered, p.1 = 1 ∨ p.1 = 2) (m0 : Match) :
    ∃ t2, run t [Call.add_player 1 1000, Call.add_player 2 1000] = some t2 ∧
      Steady t2 ∧ t2.produced = t.produced ∧
      (∀ p ∈ t2.registered, p.1 = 1 ∨ p.1 = 2) ∧
      t2.engine.match_list = t.engine.match_list ∧
      t2.engine.match_counter = t.engine.match_counter ∧
      t2.engine.match_count = t.engine.match_count ∧ t2.engine.stray = t.engine.stray ∧
      get_match t2.engine m0 = some (1,
        { t2.engine with
          playerQueue := []
          match_counter := t2.engine.match_counter + 1
          match_list := store_match t2.engine.match_list t2.engine.match_count
            { player1_id := 1, player2_id := 2, match_id := t2.engine.match_counter }
          match_count := t2.engine.match_count + 1
          stray := stray_store t2.engine.stray t2.engine.match_count
            { player1_id := 1, player2_id := 2, match_id := t2.engine.match_counter } },
        { player1_id := 1, player2_id := 2, match_id := t2.engine.match_counter }) := by
  have hk0 := distinct_keys_le_two hkeys
  obtain ⟨e1, ha1, hq1, hl1, hc1, hn1, hst1, hs1⟩ :=
    add_player_Steady hs (by decide : (0 : Int) < 1) 1000 (Or.inl (by omega))
  have hkeys1 : ∀ p ∈ t.registered ++ [((1 : Int), (1000 : Int))], p.1 = 1 ∨ p.1 = 2 := by
    intro p hp
    rcases List.mem_append.mp hp with hp | hp
    · exact hkeys p hp
    · simp only [List.mem_singleton] at hp; subst hp; exact Or.inl rfl
  have hk1 := distinct_keys_le_two hkeys1
  obtain ⟨e2, ha2, hq2, hl2, hc2, hn2, hst2, hs2⟩ :=
    add_player_Steady hs1 (by decide : (0 : Int) < 2) 1000 (Or.inl (by simp only; omega))
  simp only at ha2 hq2 hl2 hc2 hn2 hst2 hs2
  have hkeys2 : ∀ p ∈ t.registered ++ [((1 : Int), (1000 : Int))] ++ [((2 : Int), (1000 : Int))],
      p.1 = 1 ∨ p.1 = 2 := by
    intro p hp
    rcases List.mem_append.mp hp with hp | hp
    · exact hkeys1 p hp
    · simp only [List.mem_singleton] at hp; subst hp; exact Or.inr rfl
  have hg1 : get e2.hashmap 1 = some 1000 := by
    apply hs2.1.get_put
    rw [last_put_append_single, if_neg (by decide), last_put_append_single, if_pos rfl]
  have hg2 : get e2.hashmap 2 = some 1000 := by
    apply hs2.1.get_put
    rw [last_put_append_single, if_pos rfl]
  have hqueue : e2.playerQueue = 1 :: ([] ++ 2 :: []) := by
    rw [hq2, hq1, hq]; rfl
  have hgm := get_match_success e2 m0 1 2 1000 1000 [] [] hqueue hg1
    (by intro q hq'; cases hq') hg2 (by decide)
  refine ⟨Trace.mk e2 t.produced (t.registered ++ [(1, 1000)] ++ [(2, 1000)]),
    ?_, hs2, rfl, hkeys2, ?_, ?_, ?_, ?_, hgm⟩
  · simp only [run, exec, ha1, ha2]
  · show e2.match_list = _
    rw [hl2, hl1]
  · show e2.match_counter = _
    rw [hc2, hc1]
  · show e2.match_count = _
    rw [hn2, hn1]
  · show e2.stray = _
    rw [hst2, hst1]

/-- One round of `rematch_round` on a steady engine with an empty queue that
only knows players 1 and 2, with no stray store so far and `match_count` an
index of `match_list`: all three calls return, the round produces one match
and leaves the queue empty. -/
theorem rematch_round_step {t : Trace} (hs : Steady t) (hq : t.engine.playerQueue = [])
    (hkeys : ∀ p ∈ t.registered, p.1 = 1 ∨ p.1 = 2) (hstray : t.engine.stray = [])
    (h0 : 0 ≤ t.engine.match_count) (h1 : t.engine.match_count < MAX_MATCHES) :
    ∃ t', run t rematch_round = some t' ∧ Steady t' ∧ t'.engine.playerQueue = [] ∧
      (∀ p ∈ t'.registered, p.1 = 1 ∨ p.1 = 2) ∧
      t'.produced = t.produced ++
        [{ player1_id := 1, player2_id := 2, match_id := t.engine.match_counter }] ∧
      t'.engine.match_count = t.engine.match_count + 1 ∧
      t'.engine.match_counter = t.engine.match_counter + 1 ∧
      t'.engine.stray = [] := by
  obtain ⟨t2, hrun2, hs2, hp2, hk2, _, hc2, hn2, hst2, hgm⟩ :=
    rematch_registered hs hq hkeys { player1_id := 0, player2_id := 0, match_id := 0 }
  have hin : stray_store t2.engine.stray t2.engine.match_count
      { player1_id := 1, player2_id := 2, match_id := t2.engine.match_counter } = [] := by
    rw [stray_store_inside _ _ _ (by rw [hn2]; exact h0) (by rw [hn2]; exact h1), hst2, hstray]
  let m : Match := { player1_id := 1, player2_id := 2, match_id := t2.engine.match_counter }
  let e3 : Engine :=
    { t2.engine with
      playerQueue := [],
      match_counter := t2.engine.match_counter + 1,
      match_list := store_match t2.engine.match_list t2.engine.match_count m,
      match_count := t2.engine.match_count + 1,
      stray := [] }
  refine ⟨Trace.mk e3 (t2.produced ++ [m]) t2.registered, ?_, ?_, ?_, ?_, ?_, ?_, ?_, ?_⟩
  · show run t ([Call.add_player 1 1000, Call.add_player 2 1000] ++ [Call.get_match]) = _
    rw [run_append, hrun2]
    simp only [Option.bind, run, exec, hgm, hin, if_true]
  · exact ⟨hs2.1, hs2.2.1, by intro id hid; cases hid⟩
  · rfl
  · exact hk2
  · show t2.produced ++ [m] = _
    simp only [m, hp2, hc2]
  · show t2.engine.match_count + 1 = _
    rw [hn2]
  · show t2.engine.match_counter + 1 = _
    rw [hc2]
  · rfl

/-- After `n` rounds from an engine with room for `n` more matches `n` matches
have been produced, `match_count` has grown by `n` and no store went outside
`match_list`. -/
theorem rematch_run (n : Nat) : ∀ {t : Trace}, Steady t → t.engine.playerQueue = [] →
    (∀ p ∈ t.registered, p.1 = 1 ∨ p.1 = 2) → t.engine.stray = [] →
    0 ≤ t.engine.match_count → t.engine.match_count + n ≤ MAX_MATCHES →
    ∃ t', run t (rematch n) = some t' ∧ Steady t' ∧ t'.engine.playerQueue = [] ∧
      (∀ p ∈ t'.registered, p.1 = 1 ∨ p.1 = 2) ∧
      t'.produced.length = t.produced.length + n ∧
      t'.engine.match_count = t.engine.match_count + n ∧
      t'.engine.match_counter = t.engine.match_counter + n ∧
      t'.engine.stray = [] := by
  induction n with
  | zero =>
    intro t hs hq hk hst _ _
    exact ⟨t, rfl, hs, hq, hk, rfl, by simp, by simp, hst⟩
  | succ n ih =>
    intro t hs hq hk hst h0 h1
    push_cast at h1
    obtain ⟨t1, hrun1, hs1, hq1, hk1, hp1, hc1, hm1, hst1⟩ :=
      rematch_round_step hs hq hk hst h0 (by omega)
    obtain ⟨t2, hrun2, hs2, hq2, hk2, hp2, hc2, hm2, hst2⟩ :=
      ih hs1 hq1 hk1 hst1 (by omega) (by omega)
    refine ⟨t2, ?_, hs2, hq2, hk2, ?_, ?_, ?_, hst2⟩
    · simp only [rematch]
      rw [run_append, hrun1]
      exact hrun2
    · rw [hp2, hp1]; simp; omega
    · rw [hc2, hc1]; push_cast; omega
    · rw [hm2, hm1]; push_cast; omega

/-- The state after 1000 rounds and the registrations of one more round: 1000
matches have been produced, `match_count` is `MAX_MATCHES`, the length of
`match_list`, and `get_match` pairs players 1 and 2 once more, issuing its
store at index `match_count`. -/
theorem rematch_full (m0 : Match) :
    ∃ t, run boot (rematch 1000 ++ [Call.add_player 1 1000, Call.add_player 2 1000]) = some t ∧
      t.produced.length = 1000 ∧ t.engine.match_count = MAX_MATCHES ∧
      t.engine.match_counter = 1001 ∧ t.engine.match_list.length = 1000 ∧
      t.engine.stray = [] ∧
      get_match t.engine m0 = some (1,
        { t.engine with
          playerQueue := []
          match_counter := t.engine.match_counter + 1
          match_list := store_match t.engine.match_list t.engine.match_count
            { player1_id := 1, player2_id := 2, match_id := t.engine.match_counter }
          match_count := t.engine.match_count + 1
          stray := stray_store t.engine.stray t.engine.match_count
            { player1_id := 1, player2_id := 2, match_id := t.engine.match_counter } },
        { player1_id := 1, player2_id := 2, match_id := t.engine.match_counter }) := by
  obtain ⟨t1, hrun1, hs1, hq1, hk1, hp1, hc1, hm1, hst1⟩ :=
    rematch_run 1000 Steady_boot rfl (fun p hp => absurd hp (List.not_mem_nil p)) rfl
      (by show (0 : Int) ≤ 0; decide) (by show (0 : Int) + ((1000 : Nat) : Int) ≤ 1000; omega)
  obtain ⟨t2, hrun2, hs2, hp2, hk2, hl2, hc2, hn2, hst2, hgm⟩ :=
    rematch_registered hs1 hq1 hk1 m0
  have hlen : t1.engine.match_list.length = 1000 := by
    rw [run_match_list_length (rematch 1000) hrun1]
    show (List.replicate MAX_MATCHES.toNat _).length = 1000
    rw [List.length_replicate]
    rfl
  refine ⟨t2, ?_, ?_, ?_, ?_, ?_, ?_, hgm⟩
  · rw [run_append, hrun1]
    exact hrun2
  · rw [hp2, hp1]; rfl
  · rw [hn2, hc1]; rfl
  · rw [hc2, hm1]; rfl
  · rw [hl2, hlen]
  · rw [hst2, hst1]

/-- A store at an index inside a list of `MAX_MATCHES` entries records the
match there. -/
theorem store_match_inside (match_list : List Match) (k : Nat) (m : Match)
    (hlen : match_list.length = 1000) (h : k < 1000) :
    (store_match match_list (k : Int) m)[k]? = some m := by
  unfold store_match MAX_MATCHES
  rw [if_pos (by omega)]
  simp only [Int.toNat_ofNat, List.getElem?_set]
  simp [hlen, h]

/-! ## Height of a red-black tree -/

/-- A red-black shape of black height `n` has height at most `2 n` (one more
under a red root) and at least `2^n - 1` nodes. -/
theorem Bal.height_size {t : RBTree} {c : Color} {n : Nat} (h : Bal t c n) :
    height t ≤ 2 * n + (if c = RED then 1 else 0) ∧ 2 ^ n ≤ size t + 1 := by
  induction h with
  | nil => simp [height, size]
  | red hl hr ihl ihr =>
    simp only [height, size, if_true]
    simp only [reduceCtorEq, if_false, Nat.add_zero] at ihl ihr
    refine ⟨?_, ?_⟩
    · have := max_le ihl.1 ihr.1
      omega
    · have := ihl.2
      omega
  | @black id r l rt c1 c2 n hl hr ihl ihr =>
    simp only [height, size, reduceCtorEq, if_false, Nat.add_zero]
    refine ⟨?_, ?_⟩
    · have h1 : height l ≤ 2 * n + 1 := by
        have := ihl.1
        split at this <;> omega
      have h2 : height rt ≤ 2 * n + 1 := by
        have := ihr.1
        split at this <;> omega
      have := max_le h1 h2
      omega
    · have h1 := ihl.2
      have h2 := ihr.2
      rw [pow_succ]
      omega

/-- The height bound of a red-black tree with a black root, in its three
readings. -/
theorem Bal.height_log {t : RBTree} {n : Nat} (h : Bal t BLACK n) :
    2 ^ height t ≤ (size t + 1) ^ 2 ∧ height t ≤ 2 * Nat.log 2 (size t + 1) ∧
      2 ^ (height t / 2) ≤ size t + 1 := by
  obtain ⟨hh, hs⟩ := h.height_size
  simp only [reduceCtorEq, if_false, Nat.add_zero] at hh
  have hlog : n ≤ Nat.log 2 (size t + 1) :=
    Nat.le_log_of_pow_le (by decide) hs
  refine ⟨?_, ?_, ?_⟩
  · calc 2 ^ height t ≤ 2 ^ (2 * n) := Nat.pow_le_pow_right (by decide) hh
      _ = (2 ^ n) ^ 2 := by rw [Nat.mul_comm, pow_mul]
      _ ≤ (size t + 1) ^ 2 := Nat.pow_le_pow_left hs 2
  · omega
  · calc 2 ^ (height t / 2) ≤ 2 ^ n := Nat.pow_le_pow_right (by decide) (by omega)
      _ ≤ size t + 1 := hs

/-! ## Completeness of `find_closest_match` on ordered trees -/

/-- On an ordered tree the single descent of `find_closest_match` misses no
node within the threshold (differences fitting an `int`). -/
theorem find_closest_match_none_iff (rating threshold : Int) : ∀ t : RBTree,
    rating_sorted (inorder t) → (∀ p ∈ inorder t, diff_fits p.2 rating) →
    (find_closest_match rating threshold t = none ↔
      ∀ p ∈ inorder t, ¬ |p.2 - rating| ≤ threshold) := by
  intro t
  induction t with
  | NIL => intro _ _; simp [find_closest_match, inorder]
  | node cid cr cc cl crt ihl ihr =>
    intro hs hfit
    obtain ⟨hsl, hsr, hle, hge⟩ := rating_sorted_node hs
    have hfit0 : diff_fits cr rating := hfit (cid, cr) (by simp [inorder])
    have hfitl : ∀ p ∈ inorder cl, diff_fits p.2 rating :=
      fun p hp => hfit p (by simp [inorder, hp])
    have hfitr : ∀ p ∈ inorder crt, diff_fits p.2 rating :=
      fun p hp => hfit p (by simp [inorder, hp])
    simp only [find_closest_match, c_abs_sub_of_fits hfit0]
    by_cases hw : |cr - rating| ≤ threshold
    · simp only [hw, if_true]
      constructor
      · intro h; cases h
      · intro h
        exact absurd hw (h (cid, cr) (by simp [inorder]))
    · simp only [hw, if_false]
      have hw' : ¬ (-threshold ≤ cr - rating ∧ cr - rating ≤ threshold) := by
        rwa [← abs_le]
      by_cases hlt : rating < cr
      · simp only [hlt, if_true]
        rw [ihl hsl hfitl]
        constructor
        · intro h p hp
          simp only [inorder, List.mem_append, List.mem_cons] at hp
          rcases hp with hp | rfl | hp
          · exact h p hp
          · exact hw
          · have := hge p hp
            rw [abs_le]
            intro hc
            apply hw'
            constructor <;> omega
        · intro h p hp
          exact h p (by simp [inorder, hp])
      · simp only [hlt, if_false]
        rw [ihr hsr hfitr]
        constructor
        · intro h p hp
          simp only [inorder, List.mem_append, List.mem_cons] at hp
          rcases hp with hp | rfl | hp
          · have := hle p hp
            rw [abs_le]
            intro hc
            apply hw'
            constructor <;> omega
          · exact hw
          · exact h p hp
        · intro h p hp
          exact h p (by simp [inorder, hp])

/-! ## Retrying `get_match` -/

theorem within_threshold_symm {a b : Int} (h : within_threshold a b) : within_threshold b a := by
  unfold within_threshold at h ⊢
  rwa [abs_sub_comm]

/-- A failed call of `get_match` leaves `*match_out` alone and rotates the
queue by one position (which is no change for a queue of fewer than two
cells). -/
theorem get_match_zero_inv {e e' : Engine} {m0 m : Match}
    (h : get_match e m0 = some (0, e', m)) : e' = rotated e 1 ∧ m = m0 := by
  obtain ⟨q, root, hm, ml, mc, cnt, st⟩ := e
  unfold get_match at h
  simp only at h
  split at h
  · simp only [Option.some.injEq, Prod.mk.injEq, true_and] at h
    obtain ⟨rfl, rfl⟩ := h
    refine ⟨?_, rfl⟩
    simp [rotated, List.rotate]
  · simp only [Option.some.injEq, Prod.mk.injEq, true_and] at h
    obtain ⟨rfl, rfl⟩ := h
    refine ⟨?_, rfl⟩
    simp [rotated, List.rotate]
  · simp only [dequeue] at h
    split at h
    · cases h
    · split at h
      · cases h
      · simp only [Option.some.injEq, Prod.mk.injEq] at h
        exact absurd h.1 (by decide)
      · simp only [Option.some.injEq, Prod.mk.injEq, true_and] at h
        obtain ⟨rfl, rfl⟩ := h
        refine ⟨?_, rfl⟩
        simp [rotated, enqueue, List.rotate_cons_succ]

/-- With every lookup of the scan defined and a cell behind the front that
passes the test, `get_match` returns `1`. -/
theorem get_match_one_of_compatible (e : Engine) (m0 : Match) (p1 r1 : Int) (rest : List Int)
    (hq : e.playerQueue = p1 :: rest) (h1 : get e.hashmap p1 = some r1)
    (hall : ∀ q ∈ rest, ∃ r, get e.hashmap q = some r)
    (hex : ∃ p2 ∈ rest, ∃ r2, get e.hashmap p2 = some r2 ∧ compatible r1 r2) :
    ∃ e' m, get_match e m0 = some (1, e', m) := by
  rcases get_match_defined e m0 p1 r1 rest hq h1 hall with
    ⟨pre, p2, post, r2, _, _, _, _, hgm⟩ | ⟨e', hgm, hcase⟩
  · exact ⟨_, _, hgm⟩
  · exfalso
    obtain ⟨p2, hp2, r2, h2, hc⟩ := hex
    have hne : rest ≠ [] := List.ne_nil_of_mem hp2
    rw [get_match_eq e m0 p1 rest r1 hq hne h1] at hgm
    cases hs : get_match_scan e.hashmap r1 [] rest with
    | none => simp [hs] at hgm
    | some res =>
      cases res with
      | some pq => simp [hs] at hgm
      | none =>
        obtain ⟨r, hr, hn⟩ := get_match_scan_none_inv e.hashmap r1 rest [] hs p2 hp2
        rw [h2] at hr
        cases hr
        exact hn hc

/-- With every lookup defined `get_match` returns `0` or `1`. -/
theorem get_match_returns (e : Engine) (m0 : Match)
    (hall : ∀ q ∈ e.playerQueue, ∃ r, get e.hashmap q = some r) :
    ∃ ret e' m, get_match e m0 = some (ret, e', m) ∧ (ret = 0 ∨ ret = 1) := by
  cases hq : e.playerQueue with
  | nil =>
    refine ⟨0, e, m0, ?_, Or.inl rfl⟩
    unfold get_match
    simp [hq]
  | cons p1 rest =>
    obtain ⟨r1, h1⟩ := hall p1 (by rw [hq]; exact List.mem_cons_self _ _)
    rcases get_match_defined e m0 p1 r1 rest hq h1
        (fun q hq' => hall q (by rw [hq]; exact List.mem_cons_of_mem _ hq')) with
      ⟨pre, p2, post, r2, _, _, _, _, hgm⟩ | ⟨e', hgm, _⟩
    · exact ⟨1, _, _, hgm, Or.inr rfl⟩
    · exact ⟨0, _, _, hgm, Or.inl rfl⟩

/-- The queue rotated by `i < j` positions: the cell of position `i` in front,
the cell of position `j` behind it. -/
theorem rotate_front {q : List Int} {i j : Nat} {p1 p2 : Int} (hij : i < j)
    (hi : q[i]? = some p1) (hj : q[j]? = some p2) :
    ∃ rest, q.rotate i = p1 :: rest ∧ p2 ∈ rest := by
  obtain ⟨hil, hie⟩ := List.getElem?_eq_some_iff.mp hi
  obtain ⟨hjl, hje⟩ := List.getElem?_eq_some_iff.mp hj
  refine ⟨q.drop (i + 1) ++ q.take i, ?_, ?_⟩
  · rw [List.rotate_eq_drop_append_take (le_of_lt hil), List.drop_eq_getElem_cons hil, hie]
    rfl
  · apply List.mem_append_left
    rw [List.mem_drop_iff_getElem]
    refine ⟨j - (i + 1), by omega, ?_⟩
    have : i + 1 + (j - (i + 1)) = j := by omega
    simp only [this]
    exact hje


theorem rotated_rotated (e : Engine) (i k : Nat) : rotated (rotated e i) k = rotated e (i + k) := by
  simp [rotated, List.rotate_rotate]

/-- With a pair of cells at positions `i < j` whose table ratings are within
the threshold, the call on the queue rotated by `i` positions returns `1`. -/
theorem get_match_one_at (e : Engine) (m0 : Match)
    (hpresent : ∀ q ∈ e.playerQueue, ∃ r, get e.hashmap q = some r)
    {i j : Nat} {p1 p2 r1 r2 : Int} (hij : i < j)
    (hi : e.playerQueue[i]? = some p1) (hj : e.playerQueue[j]? = some p2)
    (h1 : get e.hashmap p1 = some r1) (h2 : get e.hashmap p2 = some r2)
    (hw : within_threshold r1 r2) :
    i + 2 ≤ e.playerQueue.length ∧ ∃ e' m, get_match (rotated e i) m0 = some (1, e', m) := by
  obtain ⟨hjl, _⟩ := List.getElem?_eq_some_iff.mp hj
  obtain ⟨rest, hrot, hmem⟩ := rotate_front hij hi hj
  refine ⟨by omega, ?_⟩
  apply get_match_one_of_compatible (rotated e i) m0 p1 r1 rest hrot h1
  · intro q hq
    apply hpresent q
    have hq' : q ∈ e.playerQueue.rotate i := by
      rw [hrot]
      exact List.mem_cons_of_mem _ hq
    exact List.mem_rotate.mp hq'
  · exact ⟨p2, hmem, r2, h2, compatible_of_within hw⟩

/-- Among calls that all return and of which the one of index `i` returns `1`,
there is a first one that returns `1`. -/
theorem first_success (P : Nat → Prop) (i : Nat) (hi : P i) :
    ∃ k, k ≤ i ∧ P k ∧ ∀ l < k, ¬ P l := by
  induction i using Nat.strong_induction_on with
  | _ i ih =>
    by_cases h : ∃ l < i, P l
    · obtain ⟨l, hl, hP⟩ := h
      obtain ⟨k, hk, hPk, hmin⟩ := ih l hl hP
      exact ⟨k, by omega, hPk, hmin⟩
    · exact ⟨i, le_refl i, hi, fun l hl hP => h ⟨l, hl, hP⟩⟩
/-! ## The pairing algorithm -/

set_option maxRecDepth 100000

/-- C1, at ratings whose difference overflows.  After `add_player(1, 2147483600)`,
`add_player(2, -2147483600)`, `add_player(3, 2147483500)` the queue is
`[1, 2, 3]` and the table returns the three ratings.  Player 3 is within 150 of
player 1 and player 2 is not, yet `get_match` returns `1` with the match
`{1, 2}`: the `int` difference `2147483600 - (-2147483600)` wraps to `-96`. -/
theorem get_match_first_entry_overflow :
    ∃ t e', run boot [Call.add_player 1 2147483600, Call.add_player 2 (-2147483600),
        Call.add_player 3 2147483500] = some t ∧
      t.engine.playerQueue = [1, 2, 3] ∧
      get t.engine.hashmap 1 = some 2147483600 ∧
      get t.engine.hashmap 2 = some (-2147483600) ∧
      get t.engine.hashmap 3 = some 2147483500 ∧
      ¬ within_threshold 2147483600 (-2147483600) ∧
      within_threshold 2147483600 2147483500 ∧
      c_sub 2147483600 (-2147483600) = -96 ∧
      get_match t.engine zero_match =
        some (1, e', { player1_id := 1, player2_id := 2, match_id := 1 }) :=
  ⟨_, _, rfl, rfl, rfl, rfl, rfl, by decide, by decide, by decide, rfl⟩

/-- C2: when `get_match` returns `1` on the queue `p1 :: rest`, the match pairs
`p1` with a cell `p2` of `rest`, the queue afterwards is `rest` without that
one cell, with the cells before and after it in their old order, `p2` is the
first cell of `rest` whose table rating passes the test of `get_match`, and a
later `add_player` appends behind what is left (also when `p2` was the last
cell). -/
theorem get_match_queue_effect (e e' : Engine) (m0 m : Match) (p1 : Int) (rest : List Int)
    (hq : e.playerQueue = p1 :: rest) (h : get_match e m0 = some (1, e', m)) :
    m.player1_id = p1 ∧
    e'.playerQueue = rest.erase m.player2_id ∧
    ∃ pre post r1 r2, rest = pre ++ m.player2_id :: post ∧ e'.playerQueue = pre ++ post ∧
      get e.hashmap p1 = some r1 ∧ get e.hashmap m.player2_id = some r2 ∧ compatible r1 r2 ∧
      (∀ q ∈ pre, ∃ r, get e.hashmap q = some r ∧ ¬ compatible r1 r) ∧
      ∀ id rating e'', add_player e' id rating = some e'' →
        e''.playerQueue = pre ++ post ++ [id] := by
  cases rest with
  | nil =>
    unfold get_match at h
    simp [hq] at h
  | cons s others =>
    cases h1 : get e.hashmap p1 with
    | none =>
      unfold get_match at h
      simp [hq, dequeue, h1] at h
    | some r1 =>
      rw [get_match_eq e m0 p1 _ r1 hq (by simp) h1] at h
      cases hs : get_match_scan e.hashmap r1 [] (s :: others) with
      | none => simp [hs] at h
      | some res =>
        cases res with
        | none => simp [hs] at h
        | some pq =>
          obtain ⟨p2, queue⟩ := pq
          simp only [hs, Option.some.injEq, Prod.mk.injEq, true_and] at h
          obtain ⟨he, hm⟩ := h
          obtain ⟨pre, post, r2, e1, e2, e3, e4, e5⟩ :=
            get_match_scan_some_inv e.hashmap r1 _ [] p2 queue hs
          subst hm
          subst he
          simp only [List.nil_append] at e2
          subst e2
          have hnotin : p2 ∉ pre := by
            intro hmem
            obtain ⟨r, hr, hn⟩ := e5 p2 hmem
            rw [e3] at hr
            cases hr
            exact hn e4
          refine ⟨rfl, ?_, pre, post, r1, r2, e1, rfl, rfl, e3, e4, e5,
            fun id rating e'' ha => add_player_queue ha⟩
          show pre ++ post = (s :: others).erase p2
          rw [e1, List.erase_append_right _ hnotin, List.erase_cons_head]

theorem get_match_queue_effect_witness :
    (scenario_engine.playerQueue = 1 :: [2, 3] ∧
      get_match scenario_engine zero_match =
        some (1, scenario_matched, { player1_id := 1, player2_id := 3, match_id := 1 })) ∧
    ((1 : Int) = 1 ∧
      scenario_matched.playerQueue = [2, 3].erase 3 ∧
      ∃ pre post r1 r2, [2, 3] = pre ++ (3 : Int) :: post ∧
        scenario_matched.playerQueue = pre ++ post ∧
        get scenario_engine.hashmap 1 = some r1 ∧ get scenario_engine.hashmap 3 = some r2 ∧
        compatible r1 r2 ∧
        (∀ q ∈ pre, ∃ r, get scenario_engine.hashmap q = some r ∧ ¬ compatible r1 r) ∧
        ∀ id rating e'', add_player scenario_matched id rating = some e'' →
          e''.playerQueue = pre ++ post ++ [id]) :=
  ⟨⟨rfl, rfl⟩,
    get_match_queue_effect scenario_engine scenario_matched zero_match
      { player1_id := 1, player2_id := 3, match_id := 1 } 1 [2, 3] rfl rfl⟩

/-- C3, at ratings whose difference overflows.  After
`add_player(1, 2147483647)`, `add_player(2, -2147483600)` the queue is `[1, 2]`
and no cell behind the front is within 150 of it, yet `get_match` returns `1`,
empties the queue and records a match: the `int` difference
`2147483647 - (-2147483600)` wraps to `-49`. -/
theorem get_match_requeue_overflow :
    ∃ t e', run boot [Call.add_player 1 2147483647, Call.add_player 2 (-2147483600)] = some t ∧
      t.engine.playerQueue = [1, 2] ∧
      get t.engine.hashmap 1 = some 2147483647 ∧
      get t.engine.hashmap 2 = some (-2147483600) ∧
      ¬ within_threshold 2147483647 (-2147483600) ∧
      c_sub 2147483647 (-2147483600) = -49 ∧
      get_match t.engine zero_match =
        some (1, e', { player1_id := 1, player2_id := 2, match_id := 1 }) ∧
      e'.playerQueue = [] ∧ e'.match_counter = 2 ∧ e'.match_count = 1 :=
  ⟨_, _, rfl, rfl, rfl, rfl, by decide, by decide, rfl, rfl, rfl, rfl⟩

/-- C4: with no player or one player waiting, `get_match` returns `0` and the
engine (queue, table, tree, match list, both counters) and `*match_out` are
what they were. -/
theorem get_match_fewer_than_two (e : Engine) (m0 : Match) (h : e.playerQueue.length ≤ 1) :
    get_match e m0 = some (0, e, m0) := by
  unfold get_match
  cases hq : e.playerQueue with
  | nil => rfl
  | cons a rest =>
    cases rest with
    | nil => rfl
    | cons b others => rw [hq] at h; simp at h

theorem get_match_fewer_than_two_witness :
    scenario_matched.playerQueue.length ≤ 1 ∧
      get_match scenario_matched zero_match = some (0, scenario_matched, zero_match) :=
  ⟨by decide, get_match_fewer_than_two scenario_matched zero_match (by decide)⟩

/-- C5: after `init_engine` and `add_player(1,1000)`, `add_player(2,1200)`,
`add_player(3,1100)`, the first `get_match` returns `1` with the match
`{player1_id = 1, player2_id = 3, match_id = 1}` and leaves the queue `[2]`;
the second returns `0` and the queue is still `[2]`. -/
theorem end_to_end (m0 m1 : Match) :
    ∃ t e4 e5, run boot [Call.add_player 1 1000, Call.add_player 2 1200,
        Call.add_player 3 1100] = some t ∧
      t.engine.playerQueue = [1, 2, 3] ∧
      get_match t.engine m0 = some (1, e4, { player1_id := 1, player2_id := 3, match_id := 1 }) ∧
      e4.playerQueue = [2] ∧
      get_match e4 m1 = some (0, e5, m1) ∧
      e5.playerQueue = [2] :=
  ⟨_, _, _, rfl, rfl, rfl, rfl, rfl, rfl⟩

/-! ## Invariants of runs -/

/-- C6: in every run of `add_player` calls (pairwise distinct positive ids, at
most `HASH_SIZE` of them, rating differences that fit an `int`) interleaved
with `get_match` calls, every call returns and every match produced pairs two
players whose registered ratings differ by at most 150. -/
theorem produced_matches_within_threshold (cs : List Call)
    (hv : valid_registrations (registrations cs)) (hf : ratings_fit (registrations cs)) :
    ∃ t, run boot cs = some t ∧
      ∀ m ∈ t.produced, ∃ r1 r2, (m.player1_id, r1) ∈ registrations cs ∧
        (m.player2_id, r2) ∈ registrations cs ∧ within_threshold r1 r2 := by
  obtain ⟨t, hrun, _, hregs, hm⟩ := run_valid cs boot Consistent_boot
    Numbered_boot rfl (table_registrations_of_valid (by simpa [boot] using hv))
    (by intro m hm; cases hm)
  refine ⟨t, hrun, ?_⟩
  intro m hmem
  obtain ⟨r1, r2, h1, h2, h3⟩ := hm m hmem
  rw [hregs] at h1 h2
  simp only [boot, List.nil_append] at h1 h2
  exact ⟨r1, r2, h1, h2, (compatible_iff_of_fits (hf _ h1 _ h2)).mp h3⟩

theorem produced_matches_within_threshold_witness :
    (valid_registrations (registrations scenario_calls) ∧
      ratings_fit (registrations scenario_calls)) ∧
    ∃ t, run boot scenario_calls = some t ∧
      ∀ m ∈ t.produced, ∃ r1 r2, (m.player1_id, r1) ∈ registrations scenario_calls ∧
        (m.player2_id, r2) ∈ registrations scenario_calls ∧ within_threshold r1 r2 :=
  ⟨⟨by decide, by decide⟩,
    produced_matches_within_threshold scenario_calls (by decide) (by decide)⟩

/-- C7: in every run of `add_player` calls (pairwise distinct positive ids, at
most `HASH_SIZE` of them) interleaved with `get_match` calls, every call
returns, and each registered player either occurs exactly once in the queue and
in no produced match, or is not in the queue and fills exactly one player slot
of the produced matches; no match pairs a player with themself. -/
theorem player_waiting_or_matched_once (cs : List Call)
    (hv : valid_registrations (registrations cs)) :
    ∃ t, run boot cs = some t ∧
      (∀ p ∈ registrations cs,
        (t.engine.playerQueue.count p.1 = 1 ∧ (player_slots t.produced).count p.1 = 0) ∨
        (t.engine.playerQueue.count p.1 = 0 ∧ (player_slots t.produced).count p.1 = 1)) ∧
      (player_slots t.produced).Nodup ∧
      ∀ m ∈ t.produced, m.player1_id ≠ m.player2_id := by
  obtain ⟨t, hrun, hc, hregs, _⟩ := run_valid cs boot Consistent_boot
    Numbered_boot rfl (table_registrations_of_valid (by simpa [boot] using hv))
    (by intro m hm; cases hm)
  have hperm := hc.2.2.2.2
  rw [hregs] at hperm
  simp only [boot, List.nil_append] at hperm
  have hnd : (t.engine.playerQueue ++ player_slots t.produced).Nodup :=
    (List.Perm.nodup_iff hperm).mpr hv.2.1
  have hslots : (player_slots t.produced).Nodup := (List.nodup_append.mp hnd).2.1
  refine ⟨t, hrun, ?_, hslots, ?_⟩
  · intro p hp
    have hmem : p.1 ∈ (registrations cs).map Prod.fst := List.mem_map.mpr ⟨p, hp, rfl⟩
    have hcount : (t.engine.playerQueue ++ player_slots t.produced).count p.1 = 1 := by
      rw [hperm.count_eq]
      exact List.count_eq_one_of_mem hv.2.1 hmem
    rw [List.count_append] at hcount
    omega
  · intro m hm heq
    obtain ⟨a, b, hab⟩ := List.append_of_mem hm
    rw [hab, player_slots_append_lists] at hslots
    simp only [player_slots] at hslots
    have := (List.nodup_append.mp hslots).2.1
    rw [heq] at this
    simp at this

theorem player_waiting_or_matched_once_witness :
    valid_registrations (registrations scenario_calls) ∧
    ∃ t, run boot scenario_calls = some t ∧
      (∀ p ∈ registrations scenario_calls,
        (t.engine.playerQueue.count p.1 = 1 ∧ (player_slots t.produced).count p.1 = 0) ∨
        (t.engine.playerQueue.count p.1 = 0 ∧ (player_slots t.produced).count p.1 = 1)) ∧
      (player_slots t.produced).Nodup ∧
      ∀ m ∈ t.produced, m.player1_id ≠ m.player2_id :=
  ⟨by decide, player_waiting_or_matched_once scenario_calls (by decide)⟩

/-- Match ids within the capacity of `match_list`: in every run of `add_player`
and `get_match` calls from the initial engine in which no store goes outside
`match_list`, the matches written by the calls that returned `1` carry the ids
`1, 2, ..., k` in order, and `match_counter = match_count + 1` with
`match_count = k` the number of those calls. -/
theorem match_ids_count_from_one (cs : List Call) (t : Trace) (h : run boot cs = some t) :
    t.produced.map Match.match_id = (List.range t.produced.length).map (fun i => (i : Int) + 1) ∧
    t.engine.match_count = (t.produced.length : Int) ∧
    t.engine.match_counter = t.engine.match_count + 1 := by
  obtain ⟨h1, h2, h3⟩ := run_Numbered cs boot t Numbered_boot h
  exact ⟨h3, h2, by rw [h1, h2]⟩

theorem match_ids_count_from_one_witness :
    run boot scenario_calls = some scenario_trace ∧
    (scenario_trace.produced.map Match.match_id =
        (List.range scenario_trace.produced.length).map (fun i => (i : Int) + 1) ∧
      scenario_trace.engine.match_count = (scenario_trace.produced.length : Int) ∧
      scenario_trace.engine.match_counter = scenario_trace.engine.match_count + 1) :=
  ⟨rfl, match_ids_count_from_one scenario_calls scenario_trace rfl⟩

/-- C8, at the 1001st match.  After 1000 rounds in which players 1 and 2
register and are paired, and a further registration of the two, 1000 matches
have been produced and `match_counter = match_count + 1 = 1001`.  The next
`get_match` returns `1` and writes `match_id = 1001`, but its store
`match_list[match_count++] = *match_out` is issued at index 1000 of an array of
1000 entries: it lands on the memory behind `match_list`, and the run has no
state after the call of which `match_counter = match_count + 1` is known. -/
theorem match_counters_overrun :
    (∃ t e' m,
      run boot (rematch 1000 ++ [Call.add_player 1 1000, Call.add_player 2 1000]) = some t ∧
      t.produced.length = 1000 ∧ t.engine.match_counter = 1001 ∧
      t.engine.match_count = 1000 ∧ t.engine.match_list.length = 1000 ∧
      get_match t.engine zero_match = some (1, e', m) ∧ m.match_id = 1001 ∧
      e'.stray ≠ []) ∧
    run boot (rematch 1000 ++ [Call.add_player 1 1000, Call.add_player 2 1000] ++
      [Call.get_match]) = none := by
  obtain ⟨t, hrun, hp, hn, hc, hl, hst, hgm⟩ := rematch_full zero_match
  have hout : stray_store t.engine.stray t.engine.match_count
      { player1_id := 1, player2_id := 2, match_id := t.engine.match_counter } ≠ [] := by
    rw [stray_store_outside _ _ _ (by rw [hn])]
    simp
  refine ⟨⟨t, _, _, hrun, hp, hc, hn, hl, hgm, hc, hout⟩, ?_⟩
  rw [run_append, hrun]
  have hz : zero_match = { player1_id := 0, player2_id := 0, match_id := 0 } := rfl
  rw [hz] at hgm
  simp only [Option.bind, run, exec, hgm]
  rw [if_neg hout]

/-- C10: after any sequence of `insert_rb` calls on the empty tree made by
`init_engine`, every call returns and the tree has a black root, no red node
with a red child, and the same number of black nodes on every path from the
root to a `NIL` leaf. -/
theorem insert_rb_red_black (calls : List (Int × Int)) :
    ∃ t, insert_all (init_engine startup).root calls = some t ∧
      t.color_of = BLACK ∧ no_red_red t ∧
      ∀ a ∈ black_counts t, ∀ b ∈ black_counts t, a = b := by
  obtain ⟨t, n, ht, hb⟩ := insert_all_Bal calls Bal.nil
  refine ⟨t, ht, hb.color_eq, hb.to_no_red_red, ?_⟩
  intro a ha b hb'
  rw [hb.black_counts_eq a ha, hb.black_counts_eq b hb']

/-! ## The rating index and the table: further contracts -/

/-- C11: where the differences to the nodes of the descent path fit an `int`,
`find_closest_match` returns the first node of the descent path (left when
`rating < node.rating`, right otherwise) with `|node.rating - rating| <=
threshold`; it returns `NULL` exactly when no node of the path satisfies the
bound, and a returned node is on the path and within the threshold. -/
theorem find_closest_match_first_on_path (rating threshold : Int) (t : RBTree)
    (hfit : ∀ p ∈ search_path rating t, diff_fits p.2 rating) :
    find_closest_match rating threshold t =
        (search_path rating t).find? (fun p => decide (|p.2 - rating| ≤ threshold)) ∧
    (find_closest_match rating threshold t = none ↔
      ∀ p ∈ search_path rating t, ¬ |p.2 - rating| ≤ threshold) ∧
    ∀ p, find_closest_match rating threshold t = some p →
      p ∈ search_path rating t ∧ |p.2 - rating| ≤ threshold := by
  have h := find_closest_match_eq_find rating threshold t hfit
  refine ⟨h, ?_, ?_⟩
  · rw [h, List.find?_eq_none]
    simp
  · intro p hp
    rw [h] at hp
    exact ⟨List.mem_of_find?_eq_some hp, by simpa using List.find?_some hp⟩

theorem find_closest_match_first_on_path_witness :
    (∀ p ∈ search_path 1150 scenario_tree, diff_fits p.2 1150) ∧
    (find_closest_match 1150 60 scenario_tree =
        (search_path 1150 scenario_tree).find? (fun p => decide (|p.2 - 1150| ≤ 60)) ∧
      (find_closest_match 1150 60 scenario_tree = none ↔
        ∀ p ∈ search_path 1150 scenario_tree, ¬ |p.2 - 1150| ≤ 60) ∧
      ∀ p, find_closest_match 1150 60 scenario_tree = some p →
        p ∈ search_path 1150 scenario_tree ∧ |p.2 - 1150| ≤ 60) :=
  ⟨by decide, find_closest_match_first_on_path 1150 60 scenario_tree (by decide)⟩

/-- C12, as the code behaves: `add_player(0, 1000)` on the initial engine is not
rejected, it puts `0` in the queue, a node in the index and writes the table;
and `add_player(7, 1200)` while player 7 is waiting is not rejected either, it
puts `7` in the queue a second time, grows the index and overwrites the table
rating. -/
theorem add_player_accepts_zero_and_waiting_id :
    (∃ e', add_player (init_engine startup) 0 1000 = some e' ∧
      e'.playerQueue = [0] ∧ e'.root = node 0 1000 BLACK NIL NIL ∧
      e'.hashmap ≠ (init_engine startup).hashmap) ∧
    (∃ e1 e2, add_player (init_engine startup) 7 1000 = some e1 ∧
      7 ∈ e1.playerQueue ∧ get e1.hashmap 7 = some 1000 ∧
      add_player e1 7 1200 = some e2 ∧
      e2.playerQueue = [7, 7] ∧ e2.root ≠ e1.root ∧ get e2.hashmap 7 = some 1200) :=
  ⟨⟨_, rfl, rfl, rfl, by decide⟩, ⟨_, _, rfl, by decide, rfl, rfl, rfl, by decide, rfl⟩⟩

/-- C12, amended: `add_player` has no validation and no way to reject.  In
every engine state whose index is a red-black tree and whose table of 1024
slots has an empty slot or a slot that holds the id, `add_player` with any
`player_id >= 0` (zero and waiting ids included) returns: the id is appended to
the back of the queue, the index holds one more entry `(player_id, rating)`,
the table is the one written by `put`, and the match list and counters are
untouched. -/
theorem add_player_never_rejects (e : Engine) (player_id rating : Int) (n : Nat)
    (hroot : Bal e.root BLACK n) (hlen : e.hashmap.length = 1024) (hid : 0 ≤ player_id)
    (hslot : ∃ (j : Nat) (s : Entry), e.hashmap[j]? = some s ∧
      (s.key = 0 ∨ s.key = player_id)) :
    ∃ e', add_player e player_id rating = some e' ∧
      e'.playerQueue = e.playerQueue ++ [player_id] ∧
      List.Perm (inorder e'.root) (inorder e.root ++ [(player_id, rating)]) ∧
      put e.hashmap player_id rating = some e'.hashmap ∧
      e'.match_list = e.match_list ∧ e'.match_counter = e.match_counter ∧
      e'.match_count = e.match_count := by
  obtain ⟨e', h⟩ := add_player_returns e player_id rating n hroot hlen hid hslot
  exact ⟨e', h, add_player_effect h⟩

theorem add_player_never_rejects_witness :
    (Bal (init_engine startup).root BLACK 0 ∧ (init_engine startup).hashmap.length = 1024 ∧
      (0 : Int) ≤ 0 ∧
      ∃ (j : Nat) (s : Entry), (init_engine startup).hashmap[j]? = some s ∧
        (s.key = 0 ∨ s.key = 0)) ∧
    ∃ e', add_player (init_engine startup) 0 1000 = some e' ∧
      e'.playerQueue = (init_engine startup).playerQueue ++ [0] ∧
      List.Perm (inorder e'.root) (inorder (init_engine startup).root ++ [(0, 1000)]) ∧
      put (init_engine startup).hashmap 0 1000 = some e'.hashmap ∧
      e'.match_list = (init_engine startup).match_list ∧
      e'.match_counter = (init_engine startup).match_counter ∧
      e'.match_count = (init_engine startup).match_count :=
  ⟨⟨Bal.nil, rfl, le_refl 0, 0, { key := 0, value := 0 }, rfl, Or.inl rfl⟩,
    add_player_never_rejects (init_engine startup) 0 1000 0 Bal.nil rfl (le_refl 0)
      ⟨0, { key := 0, value := 0 }, rfl, Or.inl rfl⟩⟩

/-- C13, as the code behaves: after registering the 1024 players `1 .. 1024`
the table is full, and registering player 1025 never returns: the probe loop of
`put` does not end with any number of steps. -/
theorem put_on_full_table_never_returns :
    ∃ t, run boot (register_all capacity_regs) = some t ∧
      (∀ fuel, put_probe fuel t.engine.hashmap 1025 (hash 1025) = none) ∧
      put t.engine.hashmap 1025 1000 = none ∧
      add_player t.engine 1025 1000 = none := by
  obtain ⟨t, hrun, _, href⟩ := register_all_Refines capacity_regs capacity_regs_valid
  have hcard : distinct_keys capacity_regs = 1024 := by
    rw [distinct_keys_of_nodup capacity_regs_valid.2.1, capacity_regs_length]
  have hfull := href.full hcard capacity_regs_fresh
  have hprobe : ∀ fuel, put_probe fuel t.engine.hashmap 1025 (hash 1025) = none :=
    fun fuel => put_probe_full href.1.1 hfull fuel (hash 1025) (by decide) (by decide)
  have hput : put t.engine.hashmap 1025 1000 = none := by
    unfold put
    rw [hprobe]
  exact ⟨t, hrun, hprobe, hput, add_player_none_of_put hput⟩

/-- C13, amended: registering `HASH_SIZE` (1024) pairwise distinct positive
player ids succeeds, every call returns and every registered id is retrievable
with its rating.  The table has no capacity check: on the table so filled,
registering one more distinct positive id never returns, the probe loop of
`put` goes round the 1024 occupied slots without end (for every number of
steps) and so writes nothing. -/
theorem capacity_boundary (regs : List (Int × Int)) (hv : valid_registrations regs)
    (hlen : regs.length = 1024) :
    ∃ t, run boot (register_all regs) = some t ∧
      (∀ p ∈ regs, get t.engine.hashmap p.1 = some p.2) ∧
      ∀ key value, 0 < key → key ∉ regs.map Prod.fst →
        (∀ fuel, put_probe fuel t.engine.hashmap key (hash key) = none) ∧
        put t.engine.hashmap key value = none ∧
        add_player t.engine key value = none := by
  obtain ⟨t, hrun, _, href⟩ := register_all_Refines regs hv
  have hcard : distinct_keys regs = 1024 := by
    rw [distinct_keys_of_nodup hv.2.1, hlen]
  refine ⟨t, hrun, ?_, ?_⟩
  · intro p hp
    apply href.get_put
    obtain ⟨v, hv'⟩ := (last_put_isSome_iff regs p.1).mpr (List.mem_map.mpr ⟨p, hp, rfl⟩)
    obtain ⟨j, hj⟩ := href.2.2.1 p.1 v hv'
    -- the latest value put for a key registered once is its rating
    have hlast : ∀ (l : List (Int × Int)), (l.map Prod.fst).Nodup → ∀ q ∈ l,
        last_put l q.1 = some q.2 := by
      intro l
      induction l with
      | nil => intro _ q hq; cases hq
      | cons a l ih =>
        intro hnd q hq
        obtain ⟨ak, av⟩ := a
        simp only [List.map_cons, List.nodup_cons] at hnd
        rcases List.mem_cons.mp hq with rfl | hq
        · have hnone : last_put l ak = none := by
            cases hl : last_put l ak with
            | none => rfl
            | some w => exact absurd ((last_put_isSome_iff l ak).mp ⟨w, hl⟩) hnd.1
          simp [last_put, hnone]
        · simp [last_put, ih hnd.2 q hq]
    exact hlast regs hv.2.1 p hp
  · intro key value hk hnew
    have hfull := href.full hcard hnew
    have hr := hash_range (le_of_lt hk)
    have hprobe : ∀ fuel, put_probe fuel t.engine.hashmap key (hash key) = none :=
      fun fuel => put_probe_full href.1.1 hfull fuel (hash key) hr.1 hr.2
    have hput : put t.engine.hashmap key value = none := by
      unfold put
      rw [hprobe]
    exact ⟨hprobe, hput, add_player_none_of_put hput⟩

theorem capacity_boundary_witness :
    (valid_registrations capacity_regs ∧ capacity_regs.length = 1024) ∧
    ∃ t, run boot (register_all capacity_regs) = some t ∧
      (∀ p ∈ capacity_regs, get t.engine.hashmap p.1 = some p.2) ∧
      ∀ key value, 0 < key → key ∉ capacity_regs.map Prod.fst →
        (∀ fuel, put_probe fuel t.engine.hashmap key (hash key) = none) ∧
        put t.engine.hashmap key value = none ∧
        add_player t.engine key value = none :=
  ⟨⟨capacity_regs_valid, capacity_regs_length⟩,
    capacity_boundary capacity_regs capacity_regs_valid capacity_regs_length⟩

/-- Stores within the capacity of `match_list`: in every engine state reached
from the initial engine by `add_player` and `get_match` calls, `match_count` is
the number of matches produced so far; while fewer than `MAX_MATCHES` matches
have been produced a successful `get_match` records its match at that index,
inside the list, and increments `match_count`. -/
theorem match_stored_below_capacity (cs : List Call) (t : Trace) (e' : Engine) (m0 m : Match)
    (hrun : run boot cs = some t) (hg : get_match t.engine m0 = some (1, e', m))
    (hlt : t.produced.length < 1000) :
    t.engine.match_count = (t.produced.length : Int) ∧
    e'.match_list[t.produced.length]? = some m ∧
    e'.match_count = t.engine.match_count + 1 ∧ e'.stray = t.engine.stray := by
  obtain ⟨_, hcount, _⟩ := run_Numbered cs boot t Numbered_boot hrun
  have hlen : t.engine.match_list.length = 1000 := by
    rw [run_match_list_length cs hrun]; rfl
  rcases get_match_cases hg with ⟨h0, _⟩ | ⟨_, _, hl, _, hc, hs⟩
  · exact absurd h0 (by decide)
  · refine ⟨hcount, ?_, hc, ?_⟩
    · rw [hl, hcount]
      exact store_match_inside _ _ _ hlen hlt
    · rw [hs, hcount]
      exact stray_store_inside _ _ _ (by omega) (by unfold MAX_MATCHES; omega)

theorem match_stored_below_capacity_witness :
    (run boot scenario = some scenario_start ∧
      get_match scenario_start.engine zero_match =
        some (1, scenario_matched, { player1_id := 1, player2_id := 3, match_id := 1 }) ∧
      scenario_start.produced.length < 1000) ∧
    (scenario_start.engine.match_count = (scenario_start.produced.length : Int) ∧
      scenario_matched.match_list[scenario_start.produced.length]? =
        some { player1_id := 1, player2_id := 3, match_id := 1 } ∧
      scenario_matched.match_count = scenario_start.engine.match_count + 1 ∧
      scenario_matched.stray = scenario_start.engine.stray) :=
  ⟨⟨rfl, rfl, by decide⟩,
    match_stored_below_capacity scenario scenario_start scenario_matched zero_match
      { player1_id := 1, player2_id := 3, match_id := 1 } rfl rfl (by decide)⟩

/-- C14, at a full match list.  1000 rounds in which players 1 and 2 register
and are paired bring `match_count` to `MAX_MATCHES`, the length of
`match_list`, with every store so far inside the list.  When the two register
again the pairing is not rejected: `get_match` returns `1`, and its store
`match_list[match_count++] = *match_out` is issued at index 1000, past the end
of the list. -/
theorem match_list_overrun :
    ∃ t e' m, run boot (rematch 1000 ++ [Call.add_player 1 1000, Call.add_player 2 1000])
        = some t ∧
      t.engine.match_count = MAX_MATCHES ∧ t.engine.match_list.length = 1000 ∧
      t.engine.stray = [] ∧
      get_match t.engine zero_match = some (1, e', m) ∧
      e'.stray = [(MAX_MATCHES, m)] := by
  obtain ⟨t, hrun, _, hn, _, hl, hst, hgm⟩ := rematch_full zero_match
  refine ⟨t, _, _, hrun, hn, hl, hst, hgm, ?_⟩
  show stray_store t.engine.stray t.engine.match_count _ = _
  rw [stray_store_outside _ _ _ (by rw [hn]), hst, hn]
  rfl

/-- C15: for every sequence of `put` calls on the zeroed table with positive
keys, fewer than `HASH_SIZE` of them distinct, every call returns; afterwards
`get` of a positive key returns the value of the most recent `put` for that key
and `-1` for a key that was never put; a repeated `put` overwrites in place:
there are as many occupied slots as distinct keys and no key sits in two
slots. -/
theorem table_refines_finite_map (puts : List (Int × Int)) (hpos : ∀ p ∈ puts, 0 < p.1)
    (hcard : distinct_keys puts < 1024) :
    ∃ hashmap, put_all (init_engine startup).hashmap puts = some hashmap ∧
      (∀ key, 0 < key → get hashmap key = some ((last_put puts key).getD (-1))) ∧
      occupied hashmap = distinct_keys puts ∧
      ∀ (j j' : Nat) (e e' : Entry), hashmap[j]? = some e → hashmap[j']? = some e' →
        e.key ≠ 0 → e.key = e'.key → j = j' := by
  obtain ⟨hm, hall, href⟩ := put_all_Refines puts Refines_zero hpos
    (by rw [List.nil_append]; omega)
  rw [List.nil_append] at href
  refine ⟨hm, hall, ?_, href.2.2.2.1, ?_⟩
  · intro key hk
    cases hl : last_put puts key with
    | some v => exact href.get_put hl
    | none => exact href.get_absent hcard hk hl
  · intro j j' e e' hj hj' hne hk
    exact stored_unique href.1 hj hj' hne hk

theorem table_refines_finite_map_witness :
    ((∀ p ∈ sample_puts, 0 < p.1) ∧ distinct_keys sample_puts < 1024) ∧
    ∃ hashmap, put_all (init_engine startup).hashmap sample_puts = some hashmap ∧
      (∀ key, 0 < key → get hashmap key = some ((last_put sample_puts key).getD (-1))) ∧
      occupied hashmap = distinct_keys sample_puts ∧
      ∀ (j j' : Nat) (e e' : Entry), hashmap[j]? = some e → hashmap[j']? = some e' →
        e.key ≠ 0 → e.key = e'.key → j = j' :=
  ⟨⟨by decide, by decide⟩, table_refines_finite_map sample_puts (by decide) (by decide)⟩

/-- C16: on every tree built by `insert_rb` calls from the empty tree the
in-order traversal is non-decreasing in rating and holds exactly the entries
inserted; a further `insert_rb(id, r)` returns and its traversal is the old one
with `(id, r)` inserted immediately after the last entry whose rating is
`<= r`. -/
theorem insert_rb_stable_ordered (calls : List (Int × Int)) :
    ∃ t, insert_all (init_engine startup).root calls = some t ∧
      rating_sorted (inorder t) ∧ List.Perm (inorder t) calls ∧
      ∀ id rating, ∃ t', insert_rb t id rating = some t' ∧
        inorder t' = insert_after_last_le (id, rating) (inorder t) ∧
        rating_sorted (inorder t') := by
  obtain ⟨t, n, ht, hb⟩ := insert_all_Bal calls Bal.nil
  have hnil : rating_sorted (inorder NIL) := by simp [rating_sorted, inorder]
  obtain ⟨hs, hp⟩ := insert_all_sorted calls ht hnil
  refine ⟨t, ht, hs, by simpa [inorder] using hp, ?_⟩
  intro id rating
  obtain ⟨t', n', ht', _⟩ := insert_rb_Bal hb id rating
  exact ⟨t', ht', insert_rb_sorted ht' hs⟩

/-- C17: after `n` calls of `insert_rb` on the empty tree the tree has `n`
nodes and its height `h` (nodes on the longest root-to-leaf path) satisfies
`h <= 2 * log2(n + 1)`: as `2^h <= (n + 1)^2`, with the floor of the logarithm,
and as `2^(h/2) <= n + 1`. -/
theorem insert_rb_height_logarithmic (calls : List (Int × Int)) :
    ∃ t, insert_all (init_engine startup).root calls = some t ∧
      size t = calls.length ∧
      2 ^ height t ≤ (calls.length + 1) ^ 2 ∧
      height t ≤ 2 * Nat.log 2 (calls.length + 1) ∧
      2 ^ (height t / 2) ≤ calls.length + 1 := by
  obtain ⟨t, n, ht, hb⟩ := insert_all_Bal calls Bal.nil
  have hnil : rating_sorted (inorder NIL) := by simp [rating_sorted, inorder]
  obtain ⟨_, hp⟩ := insert_all_sorted calls ht hnil
  have hsize : size t = calls.length := by
    rw [size_eq_length_inorder, hp.length_eq]
    simp [inorder]
  obtain ⟨h1, h2, h3⟩ := hb.height_log
  rw [hsize] at h1 h2 h3
  exact ⟨t, ht, hsize, h1, h2, h3⟩

/-- C18, at ratings whose difference overflows: the ratings `2147483600` and
`-2147483600` are both `int` values, they are `4294967200` apart, and the test
of `get_match` passes for them (the difference wraps to `-96`); likewise `0`
and `INT_MIN` (the difference wraps to `INT_MIN`, which `abs` leaves
negative). -/
theorem compatible_not_exact :
    (INT_MIN ≤ 2147483600 ∧ 2147483600 ≤ INT_MAX ∧
      INT_MIN ≤ -2147483600 ∧ -2147483600 ≤ INT_MAX) ∧
    c_sub 2147483600 (-2147483600) = -96 ∧
    compatible 2147483600 (-2147483600) ∧
    ¬ within_threshold 2147483600 (-2147483600) ∧
    c_abs (c_sub 0 INT_MIN) = INT_MIN ∧
    compatible 0 INT_MIN ∧ ¬ within_threshold 0 INT_MIN := by
  decide

/-- C20: on every tree built by `insert_rb` calls from the empty tree, for
every rating and threshold whose differences to the ratings in the tree fit an
`int`, `find_closest_match` returns `NULL` if and only if no node of the tree
has `|node.rating - rating| <= threshold`. -/
theorem find_closest_match_complete (calls : List (Int × Int)) (t : RBTree)
    (ht : insert_all (init_engine startup).root calls = some t) (rating threshold : Int)
    (hfit : ∀ p ∈ inorder t, diff_fits p.2 rating) :
    find_closest_match rating threshold t = none ↔
      ∀ p ∈ inorder t, ¬ |p.2 - rating| ≤ threshold := by
  have hnil : rating_sorted (inorder NIL) := by simp [rating_sorted, inorder]
  obtain ⟨hs, _⟩ := insert_all_sorted calls ht hnil
  exact find_closest_match_none_iff rating threshold t hs hfit

theorem find_closest_match_complete_witness :
    (insert_all (init_engine startup).root [(1, 1000), (2, 1200), (3, 1100)]
        = some scenario_tree ∧
      ∀ p ∈ inorder scenario_tree, diff_fits p.2 1400) ∧
    (find_closest_match 1400 150 scenario_tree = none ↔
      ∀ p ∈ inorder scenario_tree, ¬ |p.2 - 1400| ≤ 150) :=
  ⟨⟨rfl, by decide⟩,
    find_closest_match_complete [(1, 1000), (2, 1200), (3, 1100)] scenario_tree rfl 1400 150
      (by decide)⟩


/-- On `retry_engine` the three waiting players are in the table, the first
call fails and the second call pairs players 2 and 3. -/
theorem retry_engine_present :
    ∀ q ∈ retry_engine.playerQueue, ∃ r, get retry_engine.hashmap q = some r := by
  intro q hq
  have hq' : q ∈ ([1, 2, 3] : List Int) := hq
  simp only [List.mem_cons, List.mem_singleton, List.not_mem_nil, or_false] at hq'
  rcases hq' with rfl | rfl | rfl
  · exact ⟨1000, rfl⟩
  · exact ⟨1400, rfl⟩
  · exact ⟨1500, rfl⟩

theorem retry_engine_calls :
    get_match retry_engine zero_match = some (0, rotated retry_engine 1, zero_match) ∧
    ∃ e', get_match (rotated retry_engine 1) zero_match =
      some (1, e', { player1_id := 2, player2_id := 3, match_id := 1 }) ∧
      e'.playerQueue = [1] :=
  ⟨rfl, _, rfl, rfl⟩

/-- C19: for every engine state whose waiting queue has `n >= 2` entries, every
one with a defined table lookup, and holds two cells at different positions
whose table ratings differ by at most 150, there is a `k` with `k + 1 <= n - 1`
such that the first `k` consecutive `get_match` calls return `0`, each leaving
`*match_out` alone and the queue rotated by one more position, and the call
after them returns `1`; and in every engine state a call that returns `0`
changes nothing but the queue, which it rotates by one position. -/
theorem bounded_retry (e : Engine) (m0 : Match)
    (hn : 2 ≤ e.playerQueue.length)
    (hpresent : ∀ q ∈ e.playerQueue, ∃ r, get e.hashmap q = some r)
    (hpair : ∃ (i j : Nat) (p1 p2 r1 r2 : Int), i ≠ j ∧
      e.playerQueue[i]? = some p1 ∧ e.playerQueue[j]? = some p2 ∧
      get e.hashmap p1 = some r1 ∧ get e.hashmap p2 = some r2 ∧ within_threshold r1 r2) :
    (∃ k, k + 1 ≤ e.playerQueue.length - 1 ∧
      (∀ i < k, get_match (rotated e i) m0 = some (0, rotated e (i + 1), m0)) ∧
      ∃ e' m, get_match (rotated e k) m0 = some (1, e', m)) ∧
    ∀ (e0 e1 : Engine) (m1 m : Match),
      get_match e0 m1 = some (0, e1, m) → e1 = rotated e0 1 ∧ m = m1 := by
  refine ⟨?_, fun e0 e1 m1 m h => get_match_zero_inv h⟩
  obtain ⟨i, j, p1, p2, r1, r2, hij, hi, hj, h1, h2, hw⟩ := hpair
  have hsucc : ∃ i, i + 2 ≤ e.playerQueue.length ∧
      ∃ e' m, get_match (rotated e i) m0 = some (1, e', m) := by
    rcases Nat.lt_or_gt_of_ne hij with hlt | hgt
    · exact ⟨i, get_match_one_at e m0 hpresent hlt hi hj h1 h2 hw⟩
    · exact ⟨j, get_match_one_at e m0 hpresent hgt hj hi h2 h1 (within_threshold_symm hw)⟩
  obtain ⟨i0, hi0, hP⟩ := hsucc
  obtain ⟨k, hk, hPk, hmin⟩ :=
    first_success (fun k => ∃ e' m, get_match (rotated e k) m0 = some (1, e', m)) i0 hP
  refine ⟨k, by omega, ?_, hPk⟩
  intro l hl
  have hall : ∀ q ∈ (rotated e l).playerQueue, ∃ r, get (rotated e l).hashmap q = some r :=
    fun q hq => hpresent q (List.mem_rotate.mp hq)
  obtain ⟨ret, e', m, hgm, hret⟩ := get_match_returns (rotated e l) m0 hall
  rcases hret with rfl | rfl
  · obtain ⟨rfl, rfl⟩ := get_match_zero_inv hgm
    rw [hgm, rotated_rotated]
  · exact absurd ⟨e', m, hgm⟩ (hmin l hl)

theorem bounded_retry_witness :
    (2 ≤ retry_engine.playerQueue.length ∧
      (∀ q ∈ retry_engine.playerQueue, ∃ r, get retry_engine.hashmap q = some r) ∧
      ∃ (i j : Nat) (p1 p2 r1 r2 : Int), i ≠ j ∧
        retry_engine.playerQueue[i]? = some p1 ∧ retry_engine.playerQueue[j]? = some p2 ∧
        get retry_engine.hashmap p1 = some r1 ∧ get retry_engine.hashmap p2 = some r2 ∧
        within_threshold r1 r2) ∧
    ((∃ k, k + 1 ≤ retry_engine.playerQueue.length - 1 ∧
      (∀ i < k, get_match (rotated retry_engine i) zero_match =
        some (0, rotated retry_engine (i + 1), zero_match)) ∧
      ∃ e' m, get_match (rotated retry_engine k) zero_match = some (1, e', m)) ∧
    ∀ (e0 e1 : Engine) (m1 m : Match),
      get_match e0 m1 = some (0, e1, m) → e1 = rotated e0 1 ∧ m = m1) :=
  ⟨⟨by decide, retry_engine_present,
      2, 1, 3, 2, 1500, 1400, by decide, rfl, rfl, rfl, rfl, by decide⟩,
    bounded_retry retry_engine zero_match (by decide) retry_engine_present
      ⟨2, 1, 3, 2, 1500, 1400, by decide, rfl, rfl, rfl, rfl, by decide⟩⟩
end Matchmaking
